import Mathlib

/-! BadgerDB buffer manager (src/BufMgr/src/buffer.cpp)

A shallow embedding of the class BufMgr: the frame table, the buffer pool, the
page directory (hash table), the clock hand and the public operations, with
the clock replacement procedure allocBuf.

C++ exceptions leave the manager in the state reached at the throw, so every
operation returns a pair: the outcome (a value or the exception) and the state
after the call.  The page-oriented file and the hash table are collaborators;
every call that mutates one of them is appended to a log, in call order.
-/

namespace badgerdb

abbrev FileId := Nat
abbrev PageId := Nat
abbrev FrameId := Nat

/-- Modelled from the spec: the type Page is declared outside buffer.cpp.  A
page carries its page number (read by page_number() in allocPage) and its
payload. -/
structure Page where
  page_number : PageId
  data : List Nat
deriving DecidableEq, Repr

/-- Modelled from the spec: the number carried by a page slot or a descriptor
that holds no page (Page::INVALID_NUMBER, declared outside buffer.cpp). -/
def INVALID_NUMBER : PageId := 0

/-- Modelled from the spec: a default-constructed Page of the pool (new Page[bufs]). -/
def Page.empty : Page := { page_number := INVALID_NUMBER, data := [] }

/-- Modelled from the spec: the frame descriptor BufDesc is declared in
buffer.h, which is not part of the sources; the fields are those of section 3
(file identity, page number, pin count, dirty, valid, reference bit) plus the
frame number written by the constructor.  A null file pointer is none. -/
structure BufDesc where
  file : Option FileId
  pageNo : PageId
  frameNo : FrameId
  pinCnt : Nat
  dirty : Bool
  valid : Bool
  refbit : Bool
deriving DecidableEq, Repr

/-- Modelled from the spec: BufDesc::Clear, the reset of a descriptor to the
free state (no file, no page, pin count 0, not dirty, not valid, reference bit
clear). -/
def BufDesc.Clear (d : BufDesc) : BufDesc :=
  { d with file := none, pageNo := INVALID_NUMBER, pinCnt := 0,
           dirty := false, valid := false, refbit := false }

/-- Modelled from the spec: BufDesc::Set, the initialisation of a descriptor
for a freshly loaded page (valid, pin count 1, reference bit set, not dirty). -/
def BufDesc.Set (d : BufDesc) (file : FileId) (pageNo : PageId) : BufDesc :=
  { d with file := some file, pageNo := pageNo, pinCnt := 1,
           dirty := false, valid := true, refbit := true }

/-- Modelled from the spec: a default-constructed descriptor (new BufDesc[bufs])
is in the free state. -/
def BufDesc.fresh : BufDesc :=
  { file := none, pageNo := INVALID_NUMBER, frameNo := 0, pinCnt := 0,
    dirty := false, valid := false, refbit := false }

/-- The exceptions that leave the operations of buffer.cpp.  fileError stands
for a failure raised by the file collaborator.  The last two are not
exceptions of the program: nullFile marks a call of writePage through a
descriptor whose file pointer is null, where the program has no defined
behaviour (the process is killed); fuel marks a scan loop cut off by the model
(see allocBuf_fuel). -/
inductive Err where
  | BufferExceededException
  | PageNotPinnedException (file : FileId) (pageNo : PageId) (frameNo : FrameId)
  | PagePinnedException (file : FileId) (pageNo : PageId) (frameNo : FrameId)
  | BadBufferException (frameNo : FrameId) (dirty valid refbit : Bool)
  | HashNotFoundException
  | HashAlreadyPresentException
  | fileError
  | nullFile
  | fuel
deriving DecidableEq, Repr

/-- Outcome of a call: a value or the exception thrown. -/
inductive Res (α : Type) where
  | ok (a : α)
  | throw (e : Err)
deriving DecidableEq, Repr

/-- Calls made to the collaborators (file and hash table) that change them or
transfer a page, in the order in which the manager makes them. -/
inductive Event where
  | readPage (file : FileId) (pageNo : PageId)
  | writePage (file : FileId) (page : Page)
  | allocatePage (file : FileId)
  | deletePage (file : FileId) (pageNo : PageId)
  | hashInsert (file : FileId) (pageNo : PageId) (frameNo : FrameId)
  | hashRemove (file : FileId) (pageNo : PageId)
deriving DecidableEq, Repr

/-- Modelled from the spec: the page-oriented file collaborator of section 6,
over an arbitrary store of type σ.  readPage fails (none) when the page does
not exist in the file; writePage overwrites, allocatePage grows the file and
returns the new page, deletePage removes a page.  Failures of the storage
medium are outside the model: the last three always succeed. -/
structure FileOps (σ : Type) where
  readPage : σ → FileId → PageId → Option Page
  writePage : σ → FileId → Page → σ
  allocatePage : σ → FileId → Page × σ
  deletePage : σ → FileId → PageId → σ

/-- Modelled from the spec: the page directory BufHashTbl of section 4.1, an
associative index from (file, page number) to frame index. -/
abbrev BufHashTbl := List ((FileId × PageId) × FrameId)

/-- Modelled from the spec: BufHashTbl::lookup; none is the not-found outcome
(HashNotFoundException). -/
def hashLookup (ht : BufHashTbl) (file : FileId) (pageNo : PageId) : Option FrameId :=
  (ht.find? (fun e => e.1 = (file, pageNo))).map Prod.snd

/-- Modelled from the spec: BufHashTbl::insert; inserting a key that is
present is an error (none, HashAlreadyPresentException). -/
def hashInsert (ht : BufHashTbl) (file : FileId) (pageNo : PageId) (frameNo : FrameId) :
    Option BufHashTbl :=
  match hashLookup ht file pageNo with
  | some _ => none
  | none => some (((file, pageNo), frameNo) :: ht)

/-- Modelled from the spec: BufHashTbl::remove; removing a key that is absent
is an error (none, HashNotFoundException). -/
def hashRemove (ht : BufHashTbl) (file : FileId) (pageNo : PageId) : Option BufHashTbl :=
  match hashLookup ht file pageNo with
  | none => none
  | some _ => some (ht.filter (fun e => !decide (e.1 = (file, pageNo))))

/-- The members of class BufMgr, together with the store of the file
collaborator and the log of collaborator calls. -/
structure BufMgr (σ : Type) where
  numBufs : Nat
  bufDescTable : FrameId → BufDesc
  bufPool : FrameId → Page
  hashTable : BufHashTbl
  clockHand : FrameId
  disk : σ
  log : List Event

variable {σ : Type}

namespace BufMgr

/-- Assignment to bufDescTable[i]. -/
def setDesc (s : BufMgr σ) (i : FrameId) (d : BufDesc) : BufMgr σ :=
  { s with bufDescTable := Function.update s.bufDescTable i d }

/-- Assignment to bufPool[i]. -/
def setPool (s : BufMgr σ) (i : FrameId) (p : Page) : BufMgr σ :=
  { s with bufPool := Function.update s.bufPool i p }

/-- Append a collaborator call to the log. -/
def emit (s : BufMgr σ) (e : Event) : BufMgr σ :=
  { s with log := s.log ++ [e] }

/-- The constructor BufMgr::BufMgr (lines 20-37): every descriptor free with
its frame number, an empty pool and directory, and the clock hand at bufs - 1
(32-bit unsigned). -/
def construct (bufs : Nat) (disk : σ) : BufMgr σ :=
  { numBufs := bufs
    bufDescTable := fun i => { BufDesc.fresh with frameNo := i, valid := false }
    bufPool := fun _ => Page.empty
    hashTable := []
    clockHand := (bufs + 4294967296 - 1) % 4294967296
    disk := disk
    log := [] }

/-- BufMgr::advanceClock (lines 56-59); clockHand is a 32-bit unsigned value. -/
def advanceClock (s : BufMgr σ) : BufMgr σ :=
  { s with clockHand := (s.clockHand + 1) % 4294967296 % s.numBufs }

/-- The end of the loop body of allocBuf (lines 86-93), reached with the hand on
a valid frame whose reference bit is clear and whose pin count is 0: write the
page back when it is dirty, then remove its directory entry.  When the file
pointer of the descriptor is null, a dirty victim makes the call of writePage
through the null pointer (line 88); a clean one reaches the removal, which
fails because no key of the directory has a null file. -/
def evictVictim (io : FileOps σ) (s : BufMgr σ) : Res Unit × BufMgr σ :=
  let d := s.bufDescTable s.clockHand
  match d.file with
  | none =>
    if d.dirty then (Res.throw Err.nullFile, s)
    else (Res.throw Err.HashNotFoundException, s)
  | some f =>
    let s1 : BufMgr σ :=
      if d.dirty then
        (({ s with disk := io.writePage s.disk f (s.bufPool s.clockHand) }).emit
          (Event.writePage f (s.bufPool s.clockHand))).setDesc s.clockHand
            { d with dirty := false }
      else s
    match hashRemove s1.hashTable f d.pageNo with
    | none => (Res.throw Err.HashNotFoundException, s1)
    | some ht =>
      (Res.ok (), ({ s1 with hashTable := ht }).emit (Event.hashRemove f d.pageNo))

/-- The while loop of allocBuf (lines 66-94).  One unit of fuel is one
evaluation of the loop condition; pinned is the local counter. -/
def allocBufLoop (io : FileOps σ) : Nat → BufMgr σ → Nat → Res Unit × BufMgr σ
  | 0, s, _ => (Res.throw Err.fuel, s)
  | k + 1, s, pinned =>
    let d := s.bufDescTable s.clockHand
    if d.valid then
      if d.refbit then
        allocBufLoop io k (advanceClock (s.setDesc s.clockHand { d with refbit := false })) pinned
      else if d.pinCnt ≠ 0 then
        if pinned + 1 = s.numBufs then
          (Res.throw Err.BufferExceededException, s)
        else
          allocBufLoop io k (advanceClock s) (pinned + 1)
      else
        evictVictim io s
    else
      (Res.ok (), s)

/-- BufMgr::allocBuf (lines 61-98): advance the hand, scan, clear the selected
descriptor and return its index. -/
def allocBuf (io : FileOps σ) (s : BufMgr σ) : Res FrameId × BufMgr σ :=
  match allocBufLoop io (2 * s.numBufs) (advanceClock s) 0 with
  | (Res.ok (), s1) =>
    (Res.ok s1.clockHand, s1.setDesc s1.clockHand (s1.bufDescTable s1.clockHand).Clear)
  | (Res.throw e, s1) => (Res.throw e, s1)

/-- BufMgr::readPage (lines 100-120).  The page pointer returned is the
address of bufPool[frameId]: the result is the frame index. -/
def readPage (io : FileOps σ) (s : BufMgr σ) (file : FileId) (pageNo : PageId) :
    Res FrameId × BufMgr σ :=
  match hashLookup s.hashTable file pageNo with
  | some frameId =>
    let d := s.bufDescTable frameId
    (Res.ok frameId, s.setDesc frameId { d with refbit := true, pinCnt := d.pinCnt + 1 })
  | none =>
    match allocBuf io s with
    | (Res.throw e, s1) => (Res.throw e, s1)
    | (Res.ok frameId, s1) =>
      let s2 := s1.emit (Event.readPage file pageNo)
      match io.readPage s1.disk file pageNo with
      | none => (Res.throw Err.fileError, s2)
      | some newPage =>
        match hashInsert s2.hashTable file pageNo frameId with
        | none => (Res.throw Err.HashAlreadyPresentException, s2)
        | some ht =>
          let s3 := ({ s2 with hashTable := ht }).emit (Event.hashInsert file pageNo frameId)
          let s4 := s3.setPool frameId newPage
          (Res.ok frameId, s4.setDesc frameId ((s4.bufDescTable frameId).Set file pageNo))

/-- BufMgr::unPinPage (lines 122-144). -/
def unPinPage (s : BufMgr σ) (file : FileId) (pageNo : PageId) (dirty : Bool) :
    Res Unit × BufMgr σ :=
  match hashLookup s.hashTable file pageNo with
  | none => (Res.ok (), s)
  | some frameId =>
    if (s.bufDescTable frameId).pinCnt = 0 then
      (Res.throw (Err.PageNotPinnedException file pageNo frameId), s)
    else
      let s1 := s.setDesc frameId
        { s.bufDescTable frameId with pinCnt := (s.bufDescTable frameId).pinCnt - 1 }
      if dirty then
        (Res.ok (), s1.setDesc frameId { s1.bufDescTable frameId with dirty := true })
      else
        (Res.ok (), s1)

/-- BufMgr::allocPage (lines 176-189); returns the new page number and the
frame index of the slot. -/
def allocPage (io : FileOps σ) (s : BufMgr σ) (file : FileId) :
    Res (PageId × FrameId) × BufMgr σ :=
  let newPage := (io.allocatePage s.disk file).1
  let s0 := ({ s with disk := (io.allocatePage s.disk file).2 }).emit (Event.allocatePage file)
  match allocBuf io s0 with
  | (Res.throw e, s1) => (Res.throw e, s1)
  | (Res.ok frameId, s1) =>
    let pageNo := newPage.page_number
    match hashInsert s1.hashTable file pageNo frameId with
    | none => (Res.throw Err.HashAlreadyPresentException, s1)
    | some ht =>
      let s3 := ({ s1 with hashTable := ht }).emit (Event.hashInsert file pageNo frameId)
      let s4 := s3.setPool frameId newPage
      (Res.ok (pageNo, frameId), s4.setDesc frameId ((s4.bufDescTable frameId).Set file pageNo))

/-- The loop of flushFile (lines 148-173): k iterations remain, i is the loop
variable. -/
def flushFileLoop (io : FileOps σ) (file : FileId) : Nat → FrameId → BufMgr σ →
    Res Unit × BufMgr σ
  | 0, _, s => (Res.ok (), s)
  | k + 1, i, s =>
    let d := s.bufDescTable i
    if d.file = some file then
      if d.pinCnt ≠ 0 then
        (Res.throw (Err.PagePinnedException file d.pageNo i), s)
      else if d.valid = false then
        (Res.throw (Err.BadBufferException i d.dirty d.valid d.refbit), s)
      else
        let s1 : BufMgr σ :=
          if d.dirty then
            (({ s with disk := io.writePage s.disk file (s.bufPool i) }).emit
              (Event.writePage file (s.bufPool i))).setDesc i { d with dirty := false }
          else s
        match hashRemove s1.hashTable file d.pageNo with
        | none => (Res.throw Err.HashNotFoundException, s1)
        | some ht =>
          let s2 := ({ s1 with hashTable := ht }).emit (Event.hashRemove file d.pageNo)
          flushFileLoop io file k (i + 1) (s2.setDesc i (s2.bufDescTable i).Clear)
    else
      flushFileLoop io file k (i + 1) s

/-- BufMgr::flushFile (lines 146-174). -/
def flushFile (io : FileOps σ) (s : BufMgr σ) (file : FileId) : Res Unit × BufMgr σ :=
  flushFileLoop io file s.numBufs 0 s

/-- BufMgr::disposePage (lines 191-206).  A HashNotFoundException of lookup or
remove is caught; deletePage is called in every case. -/
def disposePage (io : FileOps σ) (s : BufMgr σ) (file : FileId) (PageNo : PageId) :
    Res Unit × BufMgr σ :=
  let s1 : BufMgr σ :=
    match hashLookup s.hashTable file PageNo with
    | none => s
    | some frameId =>
      match hashRemove s.hashTable file PageNo with
      | none => s
      | some ht =>
        let s0 := ({ s with hashTable := ht }).emit (Event.hashRemove file PageNo)
        s0.setDesc frameId (s0.bufDescTable frameId).Clear
  (Res.ok (), ({ s1 with disk := io.deletePage s1.disk file PageNo }).emit
    (Event.deletePage file PageNo))

/-- The loop of the destructor (lines 41-47): k iterations remain, i is the
loop variable.  For a dirty valid frame whose file pointer is null the call of
writePage at line 44 goes through the null pointer. -/
def destructLoop (io : FileOps σ) : Nat → FrameId → BufMgr σ → Res Unit × BufMgr σ
  | 0, _, s => (Res.ok (), s)
  | k + 1, i, s =>
    let d := s.bufDescTable i
    if d.dirty && d.valid then
      match d.file with
      | some f =>
        destructLoop io k (i + 1)
          ((({ s with disk := io.writePage s.disk f (s.bufPool i) }).emit
            (Event.writePage f (s.bufPool i))).setDesc i d.Clear)
      | none => (Res.throw Err.nullFile, s)
    else
      destructLoop io k (i + 1) s

/-- The destructor BufMgr::~BufMgr (lines 38-54): the outcome of the loop, and
the state of the collaborators and the descriptors when the storage is
released. -/
def destruct (io : FileOps σ) (s : BufMgr σ) : Res Unit × BufMgr σ :=
  destructLoop io s.numBufs 0 s

end BufMgr

/-- An in-memory store for the file collaborator: the pages of every file,
each carrying its page number.  Used to run the manager on concrete inputs. -/
abbrev MemDisk := List (FileId × Page)

/-- Modelled from the spec: an in-memory instance of the file collaborator of
section 6.  A file is a map from page numbers to pages: readPage fails on a
page that does not exist, writePage overwrites the page with the number the
page carries, allocatePage adds a page numbered one above the largest number
in the file, deletePage removes the page. -/
def memFile : FileOps MemDisk where
  readPage := fun d f p => (d.find? (fun e => e.1 = f ∧ e.2.page_number = p)).map Prod.snd
  writePage := fun d f pg =>
    (f, pg) :: d.filter (fun e => ¬ (e.1 = f ∧ e.2.page_number = pg.page_number))
  allocatePage := fun d f =>
    let n := ((d.filter (fun e => e.1 = f)).map (fun e => e.2.page_number)).foldl max 0 + 1
    ({ page_number := n, data := [] }, (f, { page_number := n, data := [] }) :: d)
  deletePage := fun d f p => d.filter (fun e => ¬ (e.1 = f ∧ e.2.page_number = p))

/-- The invariants of section 3 of the design: a positive capacity that fits
the 32-bit frame index, the clock hand inside the table, a frame that is not
valid has pin count 0 and is not dirty, every valid frame is found in the
directory under its (file, page number), and every directory entry points to a
valid frame holding that page. -/
def WellFormed (s : BufMgr σ) : Prop :=
  0 < s.numBufs ∧ s.numBufs < 4294967296 ∧ s.clockHand < s.numBufs ∧
  (∀ i, i < s.numBufs → (s.bufDescTable i).valid = false →
    (s.bufDescTable i).pinCnt = 0 ∧ (s.bufDescTable i).dirty = false) ∧
  (∀ i, i < s.numBufs → (s.bufDescTable i).valid = true →
    ((s.bufDescTable i).file.bind
      (fun f => hashLookup s.hashTable f (s.bufDescTable i).pageNo)) = some i) ∧
  (∀ e ∈ s.hashTable, e.2 < s.numBufs ∧ (s.bufDescTable e.2).valid = true ∧
    (s.bufDescTable e.2).file = some e.1.1 ∧ (s.bufDescTable e.2).pageNo = e.1.2)

instance (s : BufMgr σ) : Decidable (WellFormed s) := by
  unfold WellFormed; infer_instance

/-- Two descriptors that agree on every field except that the reference bit
of the second may have been cleared. -/
def DescUpToRef (d d' : BufDesc) : Prop :=
  d'.file = d.file ∧ d'.pageNo = d.pageNo ∧ d'.frameNo = d.frameNo ∧
  d'.pinCnt = d.pinCnt ∧ d'.dirty = d.dirty ∧ d'.valid = d.valid ∧
  (d'.refbit = true → d.refbit = true)

/-- The states the scan of allocBuf passes through before it leaves the loop:
the second state differs from the first only in the clock hand and in
reference bits that have been cleared. -/
def ScanEq (s s' : BufMgr σ) : Prop :=
  s'.numBufs = s.numBufs ∧ s'.bufPool = s.bufPool ∧ s'.hashTable = s.hashTable ∧
  s'.disk = s.disk ∧ s'.log = s.log ∧
  ∀ i, DescUpToRef (s.bufDescTable i) (s'.bufDescTable i)

/-- Position of the scan: the loop started with the hand at h0 and counter 0
and has completed t iterations; the frames visited so far have a clear
reference bit, and the counter of pinned visits is at most t, below the
capacity, and at least t - numBufs. -/
def ScanInv (h0 t pinned : Nat) (s : BufMgr σ) : Prop :=
  0 < s.numBufs ∧ s.numBufs ≤ 4294967296 ∧ h0 < s.numBufs ∧
  s.clockHand = (h0 + t) % s.numBufs ∧
  (∀ j, j < t → j < s.numBufs → (s.bufDescTable ((h0 + j) % s.numBufs)).refbit = false) ∧
  pinned ≤ t ∧ t ≤ pinned + s.numBufs ∧ pinned < s.numBufs

/-- Every frame of the table is valid and pinned. -/
def AllPinned (s : BufMgr σ) : Prop :=
  ∀ i, i < s.numBufs → (s.bufDescTable i).valid = true ∧ 0 < (s.bufDescTable i).pinCnt

instance (s : BufMgr σ) : Decidable (AllPinned s) := by
  unfold AllPinned; infer_instance

/-- The state after readPage of the pages p 0, ..., p (m - 1) of one file, in
this order. -/
def readPages (io : FileOps σ) (s : BufMgr σ) (file : FileId) (p : Nat → PageId) :
    Nat → BufMgr σ
  | 0 => s
  | m + 1 => (BufMgr.readPage io (readPages io s file p m) file (p m)).2

/-- A manager of n frames whose first m frames hold the pages p 0, ..., p (m - 1)
of file A, each pinned once, with slot contents pg i, the remaining frames
free, the hand on the frame loaded last, and the file store d. -/
def Loaded (n : Nat) (A : FileId) (p : Nat → PageId) (pg : Nat → Page) (d : σ) (m : Nat)
    (s : BufMgr σ) : Prop :=
  s.numBufs = n ∧ s.clockHand < n ∧ (s.clockHand + 1) % n = m % n ∧ s.disk = d ∧
  (∀ i, i < m → s.bufDescTable i = ({ BufDesc.fresh with frameNo := i }).Set A (p i) ∧
    s.bufPool i = pg i ∧ hashLookup s.hashTable A (p i) = some i) ∧
  (∀ i, m ≤ i → s.bufDescTable i = { BufDesc.fresh with frameNo := i }) ∧
  (∀ e ∈ s.hashTable, ∃ i, i < m ∧ e = ((A, p i), i))

/-- Every valid frame of the table names a file: its file pointer is not
null. -/
def ValidOwned (s : BufMgr σ) : Prop :=
  ∀ i, i < s.numBufs → (s.bufDescTable i).valid = true → (s.bufDescTable i).file ≠ none

instance (s : BufMgr σ) : Decidable (ValidOwned s) := by
  unfold ValidOwned; infer_instance

/-- Section 3 of the design: the file identity of a free frame is absent (a
descriptor that is not valid names no file).  flushFile reports a frame that
breaks this as BadBufferException. -/
def FreeUnowned (s : BufMgr σ) : Prop :=
  ∀ i, i < s.numBufs → (s.bufDescTable i).valid = false → (s.bufDescTable i).file = none

instance (s : BufMgr σ) : Decidable (FreeUnowned s) := by
  unfold FreeUnowned; infer_instance

/-- The effect of evicting the valid frame i, which holds a page of file f
(lines 86-96 of allocBuf with i the hand, lines 163-171 of flushFile): the
slot is written to f when the frame is dirty, the directory entry of the page
is removed and the descriptor is cleared; nothing else changes. -/
def Evicted (io : FileOps σ) (s : BufMgr σ) (i : FrameId) (f : FileId) (s' : BufMgr σ) : Prop :=
  (s.bufDescTable i).file = some f ∧
  s'.numBufs = s.numBufs ∧ s'.clockHand = s.clockHand ∧ s'.bufPool = s.bufPool ∧
  s'.hashTable = s.hashTable.filter
    (fun e => !decide (e.1 = (f, (s.bufDescTable i).pageNo))) ∧
  s'.disk = (if (s.bufDescTable i).dirty = true
    then io.writePage s.disk f (s.bufPool i) else s.disk) ∧
  s'.log = s.log ++ (if (s.bufDescTable i).dirty = true
    then [Event.writePage f (s.bufPool i)] else []) ++
    [Event.hashRemove f (s.bufDescTable i).pageNo] ∧
  (∀ j, j ≠ i → s'.bufDescTable j = s.bufDescTable j) ∧
  s'.bufDescTable i = (s.bufDescTable i).Clear

/-- The writePage calls of a log, in order: the file and the page written. -/
def writesOf (l : List Event) : List (FileId × Page) :=
  l.filterMap (fun e =>
    match e with
    | Event.writePage f pg => some (f, pg)
    | _ => none)

/-- The file store after a sequence of writePage calls. -/
def applyWrites (io : FileOps σ) (d : σ) (ws : List (FileId × Page)) : σ :=
  ws.foldl (fun d w => io.writePage d w.1 w.2) d

/-- The calls of the public interface that change the manager. -/
inductive Op where
  | readPage (file : FileId) (pageNo : PageId)
  | unPinPage (file : FileId) (pageNo : PageId) (dirty : Bool)
  | allocPage (file : FileId)
  | disposePage (file : FileId) (pageNo : PageId)
  | flushFile (file : FileId)
deriving DecidableEq, Repr

/-- The state after one call, whether it returns or throws. -/
def BufMgr.step (io : FileOps σ) (s : BufMgr σ) : Op → BufMgr σ
  | Op.readPage file pageNo => (BufMgr.readPage io s file pageNo).2
  | Op.unPinPage file pageNo dirty => (BufMgr.unPinPage s file pageNo dirty).2
  | Op.allocPage file => (BufMgr.allocPage io s file).2
  | Op.disposePage file pageNo => (BufMgr.disposePage io s file pageNo).2
  | Op.flushFile file => (BufMgr.flushFile io s file).2

/-- The state after a sequence of calls, each made in the state the previous
one left. -/
def BufMgr.run (io : FileOps σ) (s : BufMgr σ) (ops : List Op) : BufMgr σ :=
  ops.foldl (BufMgr.step io) s

/-- The scan of allocBuf called in state s leaves its loop within m
evaluations of the loop condition, that is, after inspecting at most m frames. -/
def scanWithin (io : FileOps σ) (s : BufMgr σ) (m : Nat) : Prop :=
  (BufMgr.allocBufLoop io m (BufMgr.advanceClock s) 0).1 ≠ Res.throw Err.fuel

instance (io : FileOps σ) (s : BufMgr σ) (m : Nat) : Decidable (scanWithin io s m) := by
  unfold scanWithin; infer_instance

/-- Some frame of the table is free, or valid with pin count 0 and a clear
reference bit. -/
def HasCandidate (s : BufMgr σ) : Prop :=
  ∃ i, i < s.numBufs ∧ ((s.bufDescTable i).valid = false ∨
    ((s.bufDescTable i).pinCnt = 0 ∧ (s.bufDescTable i).refbit = false))

instance (s : BufMgr σ) : Decidable (HasCandidate s) := by
  unfold HasCandidate; infer_instance

/-- A file collaborator that behaves as a map from (file, page number) to
pages: a page read carries the number it was asked for, and writePage stores
the page under the number the page carries, leaving every other page as it
was. -/
structure PageMapLaws (io : FileOps σ) : Prop where
  read_number : ∀ d f p pg, io.readPage d f p = some pg → pg.page_number = p
  read_write : ∀ d f pg f' p, io.readPage (io.writePage d f pg) f' p =
    if f' = f ∧ p = pg.page_number then some pg else io.readPage d f' p

/-- The logical content of page (file, pageNo): the pool slot of its frame when
the page is resident, the content in the file otherwise. -/
def logical (io : FileOps σ) (s : BufMgr σ) (file : FileId) (pageNo : PageId) : Option Page :=
  match hashLookup s.hashTable file pageNo with
  | some i => some (s.bufPool i)
  | none => io.readPage s.disk file pageNo

/-- Every valid frame that is not dirty holds in its slot what the file holds
for its page. -/
def Coherent (io : FileOps σ) (s : BufMgr σ) : Prop :=
  ∀ i, i < s.numBufs → (s.bufDescTable i).valid = true → (s.bufDescTable i).dirty = false →
    ((s.bufDescTable i).file.bind (fun f => io.readPage s.disk f (s.bufDescTable i).pageNo))
      = some (s.bufPool i)

instance (io : FileOps σ) (s : BufMgr σ) : Decidable (Coherent io s) := by
  unfold Coherent; infer_instance

/-- The slot of every valid frame carries the page number of the frame (the
number under which the file stores the slot on writePage). -/
def SlotsNumbered (s : BufMgr σ) : Prop :=
  ∀ i, i < s.numBufs → (s.bufDescTable i).valid = true →
    (s.bufPool i).page_number = (s.bufDescTable i).pageNo

instance (s : BufMgr σ) : Decidable (SlotsNumbered s) := by
  unfold SlotsNumbered; infer_instance

/-- The effect of the iterations i, ..., i + k - 1 of flushFile when none of
them throws: the frames of the file in that range are cleared, their pages
leave the directory, the dirty ones are written in ascending frame order, and
nothing else changes. -/
def FlushedRange (io : FileOps σ) (file : FileId) (s : BufMgr σ) (i k : Nat)
    (s' : BufMgr σ) : Prop :=
  s'.numBufs = s.numBufs ∧ s'.clockHand = s.clockHand ∧ s'.bufPool = s.bufPool ∧
  (∀ j, i ≤ j → j < i + k → (s.bufDescTable j).file = some file →
    s'.bufDescTable j = (s.bufDescTable j).Clear) ∧
  (∀ j, ¬ (i ≤ j ∧ j < i + k ∧ (s.bufDescTable j).file = some file) →
    s'.bufDescTable j = s.bufDescTable j) ∧
  (∀ e, e ∈ s'.hashTable ↔ (e ∈ s.hashTable ∧
    ¬ ∃ j, i ≤ j ∧ j < i + k ∧ (s.bufDescTable j).file = some file ∧
      e.1 = (file, (s.bufDescTable j).pageNo))) ∧
  writesOf s'.log = writesOf s.log ++
    ((List.range' i k).filter (fun j =>
      decide ((s.bufDescTable j).file = some file) && (s.bufDescTable j).dirty)).map
      (fun j => (file, s.bufPool j)) ∧
  s'.disk = applyWrites io s.disk
    (((List.range' i k).filter (fun j =>
      decide ((s.bufDescTable j).file = some file) && (s.bufDescTable j).dirty)).map
      (fun j => (file, s.bufPool j)))

/-- The state of a write-back cache over the logical content L: the state is
well-formed, every slot of a valid frame carries the page number of the frame,
every valid frame that is not dirty agrees with the file, and the logical
content of every page is the one L gives. -/
def Transparent (io : FileOps σ) (L : FileId → PageId → Option Page) (s : BufMgr σ) : Prop :=
  WellFormed s ∧ SlotsNumbered s ∧ Coherent io s ∧ ∀ f p, logical io s f p = L f p

/-! ## Concrete states -/

/-- A file 7 with the pages 1 to 4. -/
def exDisk : MemDisk :=
  [(7, { page_number := 1, data := [11] }), (7, { page_number := 2, data := [12] }),
   (7, { page_number := 3, data := [13] }), (7, { page_number := 4, data := [14] })]

/-- Two frames, the hand on frame 0.  Frame 0 holds page (7, 1), pinned once;
frame 1 holds page (7, 2), not pinned, dirty, with a modified slot.  Both
reference bits are clear. -/
def exEvict : BufMgr MemDisk :=
  { numBufs := 2
    bufDescTable := fun i =>
      if i = 0 then
        { file := some 7, pageNo := 1, frameNo := 0, pinCnt := 1, dirty := false,
          valid := true, refbit := false }
      else if i = 1 then
        { file := some 7, pageNo := 2, frameNo := 1, pinCnt := 0, dirty := true,
          valid := true, refbit := false }
      else { BufDesc.fresh with frameNo := i }
    bufPool := fun i =>
      if i = 0 then { page_number := 1, data := [11] }
      else if i = 1 then { page_number := 2, data := [99] }
      else Page.empty
    hashTable := [((7, 2), 1), ((7, 1), 0)]
    clockHand := 0
    disk := exDisk
    log := [] }

/-- Two frames, both holding a pinned page with the reference bit set: the
state after readPage of (7, 1) and of (7, 2) on a fresh manager. -/
def exFull : BufMgr MemDisk :=
  (BufMgr.readPage memFile (BufMgr.readPage memFile (BufMgr.construct 2 exDisk) 7 1).2 7 2).2

/-- Two frames after readPage (7, 1), readPage (7, 2), unPinPage (7, 2),
readPage (7, 3), unPinPage (7, 3): frame 0 holds (7, 1), pinned, reference bit
clear; frame 1 holds (7, 3), not pinned, reference bit set; the hand is on
frame 1. -/
def exSlip : BufMgr MemDisk :=
  (BufMgr.unPinPage (BufMgr.readPage memFile (BufMgr.unPinPage exFull 7 2 false).2 7 3).2 7 3 false).2

/-- The state exEvict after readPage of (7, 2): frame 1 is dirty and pinned
once. -/
def exPinnedDirty : BufMgr MemDisk := (BufMgr.readPage memFile exEvict 7 2).2

/-- Capacity 3: readPage of the pages 1, 2, 3 of file 7 on a fresh manager,
then unPinPage of page 1. -/
def exScenario : BufMgr MemDisk :=
  (BufMgr.unPinPage (readPages memFile (BufMgr.construct 3 exDisk) 7 (fun i => i + 1) 3)
    7 1 false).2

/-- The state exEvict after unPinPage of (7, 1): no frame is pinned, frame 1
is dirty. -/
def exFlush : BufMgr MemDisk := (BufMgr.unPinPage exEvict 7 1 false).2

/-- Three frames holding the pages 1, 2, 3 of file 7: frame 0 not pinned and
dirty with a modified slot, frame 1 pinned, frame 2 not pinned and dirty. -/
def exPartial : BufMgr MemDisk :=
  { numBufs := 3
    bufDescTable := fun i =>
      if i = 0 then
        { file := some 7, pageNo := 1, frameNo := 0, pinCnt := 0, dirty := true,
          valid := true, refbit := false }
      else if i = 1 then
        { file := some 7, pageNo := 2, frameNo := 1, pinCnt := 1, dirty := false,
          valid := true, refbit := true }
      else if i = 2 then
        { file := some 7, pageNo := 3, frameNo := 2, pinCnt := 0, dirty := true,
          valid := true, refbit := false }
      else { BufDesc.fresh with frameNo := i }
    bufPool := fun i =>
      if i = 0 then { page_number := 1, data := [91] }
      else if i = 1 then { page_number := 2, data := [12] }
      else if i = 2 then { page_number := 3, data := [93] }
      else Page.empty
    hashTable := [((7, 3), 2), ((7, 2), 1), ((7, 1), 0)]
    clockHand := 2
    disk := exDisk
    log := [] }

/-- One frame that is valid, not pinned, with a clear reference bit, holding
page (7, 1), and an empty directory: a state that is not well-formed. -/
def exOrphan : BufMgr MemDisk :=
  { numBufs := 1
    bufDescTable := fun i =>
      { file := some 7, pageNo := 1, frameNo := i, pinCnt := 0, dirty := false,
        valid := true, refbit := false }
    bufPool := fun _ => { page_number := 1, data := [11] }
    hashTable := []
    clockHand := 0
    disk := exDisk
    log := [] }

/-- One frame that is valid, dirty, not pinned, with a clear reference bit and
a null file pointer, and an empty directory. -/
def exNullVictim : BufMgr MemDisk :=
  { numBufs := 1
    bufDescTable := fun i =>
      { file := none, pageNo := 1, frameNo := i, pinCnt := 0, dirty := true,
        valid := true, refbit := false }
    bufPool := fun _ => { page_number := 1, data := [91] }
    hashTable := []
    clockHand := 0
    disk := exDisk
    log := [] }

/-- The state exEvict with another slot in frame 1: the frame holds page
(7, 2) and is dirty, but its slot carries the page number 3. -/
def exMisnumbered : BufMgr MemDisk :=
  { exEvict with
    bufPool := fun i =>
      if i = 1 then { page_number := 3, data := [99] } else exEvict.bufPool i }

/-- A run with calls that return and calls that throw: a read error, a
capacity error and a pinned flush among them. -/
def exOps : List Op :=
  [Op.readPage 7 1, Op.allocPage 7, Op.readPage 7 2, Op.unPinPage 7 1 true, Op.flushFile 7,
   Op.readPage 7 9, Op.disposePage 7 5, Op.unPinPage 7 1 false, Op.readPage 7 3]

/-- The state after the run exOps on a fresh manager of two frames. -/
def exRun : BufMgr MemDisk := BufMgr.run memFile (BufMgr.construct 2 exDisk) exOps

/-! ## The page directory -/

theorem hashLookup_nil (f : FileId) (p : PageId) : hashLookup [] f p = none := rfl

theorem hashLookup_cons (e : (FileId × PageId) × FrameId) (ht : BufHashTbl)
    (f : FileId) (p : PageId) :
    hashLookup (e :: ht) f p = if e.1 = (f, p) then some e.2 else hashLookup ht f p := by
  unfold hashLookup
  by_cases h : e.1 = (f, p) <;> simp [List.find?_cons, h]

theorem hashLookup_mem {ht : BufHashTbl} {f : FileId} {p : PageId} {i : FrameId}
    (h : hashLookup ht f p = some i) : ((f, p), i) ∈ ht := by
  induction ht with
  | nil => simp [hashLookup_nil] at h
  | cons e ht ih =>
    rw [hashLookup_cons] at h
    by_cases he : e.1 = (f, p)
    · simp only [he, if_true, Option.some.injEq] at h
      have : e = ((f, p), i) := Prod.ext he h
      simp [this]
    · simp only [he, if_false] at h
      exact List.mem_cons_of_mem _ (ih h)

theorem hashLookup_filter_self (ht : BufHashTbl) (f : FileId) (p : PageId) :
    hashLookup (ht.filter (fun e => !decide (e.1 = (f, p)))) f p = none := by
  induction ht with
  | nil => rfl
  | cons e ht ih =>
    by_cases he : e.1 = (f, p)
    · simpa [List.filter_cons, he] using ih
    · simp [List.filter_cons, he, hashLookup_cons, ih]

theorem hashLookup_filter_ne (ht : BufHashTbl) (f f' : FileId) (p p' : PageId)
    (hne : (f', p') ≠ (f, p)) :
    hashLookup (ht.filter (fun e => !decide (e.1 = (f, p)))) f' p' = hashLookup ht f' p' := by
  induction ht with
  | nil => rfl
  | cons e ht ih =>
    by_cases he : e.1 = (f, p)
    · have he' : ¬ e.1 = (f', p') := fun h => hne (h ▸ he)
      rw [List.filter_cons, hashLookup_cons, if_neg he']
      simpa [he] using ih
    · simp [List.filter_cons, he, hashLookup_cons, ih]

/-! ## The scan of allocBuf -/

namespace BufMgr

theorem descUpToRef_refl (d : BufDesc) : DescUpToRef d d :=
  ⟨rfl, rfl, rfl, rfl, rfl, rfl, id⟩

theorem descUpToRef_trans {a b c : BufDesc} (hab : DescUpToRef a b) (hbc : DescUpToRef b c) :
    DescUpToRef a c :=
  ⟨hbc.1.trans hab.1, hbc.2.1.trans hab.2.1, hbc.2.2.1.trans hab.2.2.1,
    hbc.2.2.2.1.trans hab.2.2.2.1, hbc.2.2.2.2.1.trans hab.2.2.2.2.1,
    hbc.2.2.2.2.2.1.trans hab.2.2.2.2.2.1, fun h => hab.2.2.2.2.2.2 (hbc.2.2.2.2.2.2 h)⟩

theorem scanEq_refl (s : BufMgr σ) : ScanEq s s :=
  ⟨rfl, rfl, rfl, rfl, rfl, fun _ => descUpToRef_refl _⟩

theorem scanEq_trans {a b c : BufMgr σ} (hab : ScanEq a b) (hbc : ScanEq b c) : ScanEq a c :=
  ⟨hbc.1.trans hab.1, hbc.2.1.trans hab.2.1, hbc.2.2.1.trans hab.2.2.1,
    hbc.2.2.2.1.trans hab.2.2.2.1, hbc.2.2.2.2.1.trans hab.2.2.2.2.1,
    fun i => descUpToRef_trans (hab.2.2.2.2.2 i) (hbc.2.2.2.2.2 i)⟩

theorem scanEq_advance (s : BufMgr σ) : ScanEq s (advanceClock s) :=
  ⟨rfl, rfl, rfl, rfl, rfl, fun _ => descUpToRef_refl _⟩

theorem scanEq_clearRef (s : BufMgr σ) :
    ScanEq s (advanceClock (s.setDesc s.clockHand
      { s.bufDescTable s.clockHand with refbit := false })) := by
  refine ⟨rfl, rfl, rfl, rfl, rfl, fun i => ?_⟩
  by_cases h : i = s.clockHand
  · subst h
    simp [advanceClock, setDesc, DescUpToRef]
  · simp [advanceClock, setDesc, Function.update_noteq h, descUpToRef_refl]

/-- The hand after advanceClock, for a hand inside a table of at most 2^32 frames. -/
theorem advance_hand (x n : Nat) (hx : x < n) (hn : n ≤ 4294967296) :
    (x + 1) % 4294967296 % n = (x + 1) % n := by
  by_cases h : x + 1 < 4294967296
  · rw [Nat.mod_eq_of_lt h]
  · have h1 : x + 1 = 4294967296 := by omega
    have h2 : n = 4294967296 := by omega
    rw [h1, h2]

/-- One iteration of the loop, unfolded. -/
theorem allocBufLoop_succ (io : FileOps σ) (k : Nat) (s : BufMgr σ) (pinned : Nat) :
    allocBufLoop io (k + 1) s pinned =
      if (s.bufDescTable s.clockHand).valid then
        if (s.bufDescTable s.clockHand).refbit then
          allocBufLoop io k (advanceClock (s.setDesc s.clockHand
            { s.bufDescTable s.clockHand with refbit := false })) pinned
        else if (s.bufDescTable s.clockHand).pinCnt ≠ 0 then
          if pinned + 1 = s.numBufs then
            (Res.throw Err.BufferExceededException, s)
          else
            allocBufLoop io k (advanceClock s) (pinned + 1)
        else
          evictVictim io s
      else
        (Res.ok (), s) := by
  rw [allocBufLoop]

theorem allocBufLoop_zero (io : FileOps σ) (s : BufMgr σ) (pinned : Nat) :
    allocBufLoop io 0 s pinned = (Res.throw Err.fuel, s) := by
  rw [allocBufLoop]

theorem evictVictim_ne_fuel (io : FileOps σ) (s : BufMgr σ) :
    (evictVictim io s).1 ≠ Res.throw Err.fuel := by
  unfold evictVictim
  dsimp only
  cases (s.bufDescTable s.clockHand).file with
  | none =>
    dsimp only
    split <;> simp
  | some f =>
    dsimp only
    split <;> simp

/-- The scan leaves the loop within 2 * numBufs iterations: a run of the loop
with enough fuel is the last iteration alone, started in a state that differs
from the first one in cleared reference bits and the hand only. -/
theorem allocBufLoop_exit (io : FileOps σ) (h0 : Nat) :
    ∀ (k : Nat) (s : BufMgr σ) (p t : Nat), ScanInv h0 t p s → 2 * s.numBufs ≤ k + t →
      ∃ (sx : BufMgr σ) (px tx : Nat), ScanEq s sx ∧ ScanInv h0 tx px sx ∧
        allocBufLoop io k s p = allocBufLoop io 1 sx px ∧
        (allocBufLoop io 1 sx px).1 ≠ Res.throw Err.fuel := by
  intro k
  induction k with
  | zero =>
    intro s p t hinv hk
    obtain ⟨_, _, _, _, _, _, h7, h8⟩ := hinv
    omega
  | succ k ih =>
    intro s p t hinv hk
    obtain ⟨hn, hn32, hh0, hhand, hvis, hpt, htp, hpn⟩ := hinv
    have hlt : s.clockHand < s.numBufs := by rw [hhand]; exact Nat.mod_lt _ hn
    have hnext : (s.clockHand + 1) % 4294967296 % s.numBufs = (h0 + (t + 1)) % s.numBufs := by
      rw [advance_hand _ _ hlt hn32, hhand, Nat.mod_add_mod]; rfl
    by_cases hv : (s.bufDescTable s.clockHand).valid = true
    · by_cases hr : (s.bufDescTable s.clockHand).refbit = true
      · -- second chance: the bit is cleared and the scan goes on
        have htn : t < s.numBufs := by
          by_contra hcon
          have h1 : t - s.numBufs < t := by omega
          have h2 : t - s.numBufs < s.numBufs := by omega
          have h3 := hvis _ h1 h2
          have h4 : (h0 + (t - s.numBufs)) % s.numBufs = s.clockHand := by
            rw [hhand]
            have : h0 + t = h0 + (t - s.numBufs) + s.numBufs := by omega
            rw [this, Nat.add_mod_right]
          rw [h4, hr] at h3
          exact Bool.noConfusion h3
        have hinv2 : ScanInv h0 (t + 1) p (advanceClock (s.setDesc s.clockHand
            { s.bufDescTable s.clockHand with refbit := false })) := by
          refine ⟨hn, hn32, hh0, hnext, ?_, by omega, by
            show t + 1 ≤ p + s.numBufs
            omega, hpn⟩
          intro j hj hjn
          show (Function.update s.bufDescTable s.clockHand _ ((h0 + j) % s.numBufs)).refbit
            = false
          by_cases hx : (h0 + j) % s.numBufs = s.clockHand
          · rw [hx, Function.update_same]
          · rw [Function.update_noteq hx]
            have hjt : j < t := by
              rcases Nat.lt_succ_iff_lt_or_eq.mp hj with h | h
              · exact h
              · exact absurd (by rw [h, hhand]) hx
            exact hvis j hjt hjn
        obtain ⟨sx, px, tx, e1, e2, e3, e4⟩ := ih _ p (t + 1) hinv2 (by
          show 2 * s.numBufs ≤ k + (t + 1)
          omega)
        refine ⟨sx, px, tx, scanEq_trans (scanEq_clearRef s) e1, e2, ?_, e4⟩
        rw [allocBufLoop_succ, if_pos hv, if_pos hr]
        exact e3
      · by_cases hp : (s.bufDescTable s.clockHand).pinCnt ≠ 0
        · by_cases hfull : p + 1 = s.numBufs
          · refine ⟨s, p, t, scanEq_refl s, ⟨hn, hn32, hh0, hhand, hvis, hpt, htp, hpn⟩, ?_, ?_⟩
            · rw [allocBufLoop_succ, allocBufLoop_succ, if_pos hv, if_neg hr, if_pos hp,
                if_pos hfull, if_pos hv, if_neg hr, if_pos hp, if_pos hfull]
            · rw [allocBufLoop_succ, if_pos hv, if_neg hr, if_pos hp, if_pos hfull]
              simp
          · have hinv2 : ScanInv h0 (t + 1) (p + 1) (advanceClock s) := by
              refine ⟨hn, hn32, hh0, hnext, ?_, by omega, by
                show t + 1 ≤ p + 1 + s.numBufs
                omega, by
                show p + 1 < s.numBufs
                omega⟩
              intro j hj hjn
              show (s.bufDescTable ((h0 + j) % s.numBufs)).refbit = false
              rcases Nat.lt_succ_iff_lt_or_eq.mp hj with h | h
              · exact hvis j h hjn
              · rw [h, ← hhand]
                simpa using hr
            obtain ⟨sx, px, tx, e1, e2, e3, e4⟩ := ih _ (p + 1) (t + 1) hinv2 (by
              show 2 * s.numBufs ≤ k + (t + 1)
              omega)
            refine ⟨sx, px, tx, scanEq_trans (scanEq_advance s) e1, e2, ?_, e4⟩
            rw [allocBufLoop_succ, if_pos hv, if_neg hr, if_pos hp, if_neg hfull]
            exact e3
        · -- the victim: the loop is left through the removal
          refine ⟨s, p, t, scanEq_refl s, ⟨hn, hn32, hh0, hhand, hvis, hpt, htp, hpn⟩, ?_, ?_⟩
          · rw [allocBufLoop_succ, allocBufLoop_succ, if_pos hv, if_neg hr, if_neg hp,
              if_pos hv, if_neg hr, if_neg hp]
          · rw [allocBufLoop_succ, if_pos hv, if_neg hr, if_neg hp]
            exact evictVictim_ne_fuel io s
    · refine ⟨s, p, t, scanEq_refl s, ⟨hn, hn32, hh0, hhand, hvis, hpt, htp, hpn⟩, ?_, ?_⟩
      · rw [allocBufLoop_succ, allocBufLoop_succ, if_neg hv, if_neg hv]
      · rw [allocBufLoop_succ, if_neg hv]
        simp

/-- Well-formedness does not depend on reference bits or on where inside the
table the hand stands. -/
theorem wellFormed_of_scanEq {s sx : BufMgr σ} (hwf : WellFormed s) (he : ScanEq s sx)
    (hh : sx.clockHand < sx.numBufs) : WellFormed sx := by
  obtain ⟨w1, w2, _, w4, w5, w6⟩ := hwf
  obtain ⟨e1, _, e3, _, _, e6⟩ := he
  refine ⟨e1 ▸ w1, e1 ▸ w2, hh, ?_, ?_, ?_⟩
  · intro i hi hv
    obtain ⟨_, _, _, d4, d5, d6, _⟩ := e6 i
    rw [d4, d5]
    exact w4 i (e1 ▸ hi) (d6 ▸ hv)
  · intro i hi hv
    obtain ⟨d1, d2, _, _, _, d6, _⟩ := e6 i
    rw [d1, d2, e3]
    exact w5 i (e1 ▸ hi) (d6 ▸ hv)
  · intro e hmem
    obtain ⟨d1, d2, _, _, _, d6, _⟩ := e6 e.2
    rw [e1, d1, d2, d6]
    exact w6 e (e3 ▸ hmem)

/-- The scan of allocBuf, started by advanceClock with counter 0 and fuel
2 * numBufs, never runs out of fuel: it is its last iteration alone. -/
theorem allocBuf_scan (io : FileOps σ) (s : BufMgr σ) (hn : 0 < s.numBufs)
    (hn32 : s.numBufs ≤ 4294967296) :
    ∃ (sx : BufMgr σ) (px tx h0 : Nat), ScanEq s sx ∧ ScanInv h0 tx px sx ∧
      allocBufLoop io (2 * s.numBufs) (advanceClock s) 0 = allocBufLoop io 1 sx px ∧
      (allocBufLoop io 1 sx px).1 ≠ Res.throw Err.fuel := by
  have hlt : (advanceClock s).clockHand < s.numBufs := Nat.mod_lt _ hn
  have hinv : ScanInv (advanceClock s).clockHand 0 0 (advanceClock s) :=
    ⟨hn, hn32, hlt, (Nat.mod_eq_of_lt hlt).symm, fun j hj _ => absurd hj (Nat.not_lt_zero j),
      Nat.le_refl 0, Nat.zero_le _, hn⟩
  obtain ⟨sx, px, tx, e1, e2, e3, e4⟩ :=
    allocBufLoop_exit io (advanceClock s).clockHand (2 * s.numBufs) (advanceClock s) 0 0 hinv
      (Nat.le_refl _)
  exact ⟨sx, px, tx, _, scanEq_trans (scanEq_advance s) e1, e2, e3, e4⟩

/-- The three ways in which an iteration leaves the loop. -/
theorem allocBufLoop_one (io : FileOps σ) (s : BufMgr σ) (p : Nat)
    (hne : (allocBufLoop io 1 s p).1 ≠ Res.throw Err.fuel) :
    ((s.bufDescTable s.clockHand).valid = false ∧ allocBufLoop io 1 s p = (Res.ok (), s)) ∨
    ((s.bufDescTable s.clockHand).valid = true ∧ (s.bufDescTable s.clockHand).refbit = false ∧
      (s.bufDescTable s.clockHand).pinCnt ≠ 0 ∧ p + 1 = s.numBufs ∧
      allocBufLoop io 1 s p = (Res.throw Err.BufferExceededException, s)) ∨
    ((s.bufDescTable s.clockHand).valid = true ∧ (s.bufDescTable s.clockHand).refbit = false ∧
      (s.bufDescTable s.clockHand).pinCnt = 0 ∧ allocBufLoop io 1 s p = evictVictim io s) := by
  rw [allocBufLoop_succ] at hne ⊢
  by_cases hv : (s.bufDescTable s.clockHand).valid = true
  · by_cases hr : (s.bufDescTable s.clockHand).refbit = true
    · rw [if_pos hv, if_pos hr, allocBufLoop_zero] at hne
      exact absurd rfl hne
    · by_cases hp : (s.bufDescTable s.clockHand).pinCnt ≠ 0
      · by_cases hfull : p + 1 = s.numBufs
        · refine Or.inr (Or.inl ⟨hv, by simpa using hr, hp, hfull, ?_⟩)
          rw [if_pos hv, if_neg hr, if_pos hp, if_pos hfull]
        · rw [if_pos hv, if_neg hr, if_pos hp, if_neg hfull, allocBufLoop_zero] at hne
          exact absurd rfl hne
      · refine Or.inr (Or.inr ⟨hv, by simpa using hr, by simpa using hp, ?_⟩)
        rw [if_pos hv, if_neg hr, if_neg hp]
  · refine Or.inl ⟨by simpa using hv, ?_⟩
    rw [if_neg hv]

/-- In a well-formed state the eviction of the valid frame at the hand
succeeds; the state it produces, field by field. -/
theorem evictVictim_wellFormed (io : FileOps σ) (s : BufMgr σ) (hwf : WellFormed s)
    (hv : (s.bufDescTable s.clockHand).valid = true) :
    ∃ (f : FileId), (s.bufDescTable s.clockHand).file = some f ∧
      hashLookup s.hashTable f (s.bufDescTable s.clockHand).pageNo = some s.clockHand ∧
      (evictVictim io s).1 = Res.ok () ∧
      (evictVictim io s).2.numBufs = s.numBufs ∧
      (evictVictim io s).2.clockHand = s.clockHand ∧
      (evictVictim io s).2.bufPool = s.bufPool ∧
      (evictVictim io s).2.hashTable = s.hashTable.filter
        (fun e => !decide (e.1 = (f, (s.bufDescTable s.clockHand).pageNo))) ∧
      (evictVictim io s).2.disk = (if (s.bufDescTable s.clockHand).dirty = true
        then io.writePage s.disk f (s.bufPool s.clockHand) else s.disk) ∧
      (evictVictim io s).2.log = s.log ++ (if (s.bufDescTable s.clockHand).dirty = true
        then [Event.writePage f (s.bufPool s.clockHand)] else []) ++
        [Event.hashRemove f (s.bufDescTable s.clockHand).pageNo] ∧
      (∀ i, i ≠ s.clockHand → (evictVictim io s).2.bufDescTable i = s.bufDescTable i) ∧
      (evictVictim io s).2.bufDescTable s.clockHand =
        { s.bufDescTable s.clockHand with dirty := false } := by
  obtain ⟨_, _, w3, _, w5, _⟩ := hwf
  have h5 := w5 s.clockHand w3 hv
  cases hf : (s.bufDescTable s.clockHand).file with
  | none => rw [hf] at h5; simp at h5
  | some f =>
    rw [hf] at h5
    have hl : hashLookup s.hashTable f (s.bufDescTable s.clockHand).pageNo = some s.clockHand := by
      simpa using h5
    refine ⟨f, rfl, hl, ?_⟩
    cases hd : (s.bufDescTable s.clockHand).dirty with
    | true =>
      have key : evictVictim io s = (Res.ok (),
          ({ ((({ s with disk := io.writePage s.disk f (s.bufPool s.clockHand) }).emit
            (Event.writePage f (s.bufPool s.clockHand))).setDesc s.clockHand
              { s.bufDescTable s.clockHand with dirty := false }) with
            hashTable := (s.hashTable.filter
              (fun e => !decide (e.1 = (f, (s.bufDescTable s.clockHand).pageNo)))) }).emit
            (Event.hashRemove f (s.bufDescTable s.clockHand).pageNo)) := by
        unfold evictVictim
        simp only [hf, hd, if_true]
        simp only [setDesc, emit, hashRemove, hl]
      rw [key]
      refine ⟨rfl, rfl, rfl, rfl, rfl, ?_, ?_, ?_, ?_⟩
      · simp [setDesc, emit]
      · simp [setDesc, emit]
      · intro i hi
        simp [setDesc, emit, Function.update_noteq hi]
      · simp [setDesc, emit]
    | false =>
      have key : evictVictim io s = (Res.ok (),
          ({ s with hashTable := (s.hashTable.filter
              (fun e => !decide (e.1 = (f, (s.bufDescTable s.clockHand).pageNo)))) }).emit
            (Event.hashRemove f (s.bufDescTable s.clockHand).pageNo)) := by
        unfold evictVictim
        simp only [hf, hd]
        simp only [hashRemove, hl, if_false, Bool.false_eq_true]
      rw [key]
      refine ⟨rfl, rfl, rfl, rfl, rfl, ?_, ?_, ?_, ?_⟩
      · simp [emit]
      · simp [emit]
      · intro i _
        rfl
      · show s.bufDescTable s.clockHand = _
        cases hx : s.bufDescTable s.clockHand
        simp_all

/-- When the counter reaches the capacity at a frame whose reference bit is
clear, the scan has visited every frame: all reference bits are clear. -/
theorem scanInv_full {h0 t p : Nat} {s : BufMgr σ} (hinv : ScanInv h0 t p s)
    (hfull : p + 1 = s.numBufs) (hr : (s.bufDescTable s.clockHand).refbit = false) :
    ∀ i, i < s.numBufs → (s.bufDescTable i).refbit = false := by
  obtain ⟨hn, _, hh0, hhand, hvis, hpt, _, _⟩ := hinv
  intro i hi
  have key : ∀ j, j < s.numBufs → (h0 + j) % s.numBufs = i → (s.bufDescTable i).refbit = false := by
    intro j hj hji
    by_cases hjt : j < t
    · rw [← hji]
      exact hvis j hjt hj
    · have : j = t := by omega
      rw [← hji, this, ← hhand]
      exact hr
  by_cases hle : h0 ≤ i
  · refine key (i - h0) (by omega) ?_
    have : h0 + (i - h0) = i := by omega
    rw [this, Nat.mod_eq_of_lt hi]
  · refine key (i + s.numBufs - h0) (by omega) ?_
    have : h0 + (i + s.numBufs - h0) = i + s.numBufs := by omega
    rw [this, Nat.add_mod_right, Nat.mod_eq_of_lt hi]

/-- The outcome of allocBuf in terms of the last iteration of its scan. -/
theorem allocBuf_cases (io : FileOps σ) (s : BufMgr σ) (hn : 0 < s.numBufs)
    (hn32 : s.numBufs ≤ 4294967296) :
    ∃ (sx : BufMgr σ) (px tx h0 : Nat), ScanEq s sx ∧ ScanInv h0 tx px sx ∧
      (((sx.bufDescTable sx.clockHand).valid = false ∧
        allocBuf io s = (Res.ok sx.clockHand,
          sx.setDesc sx.clockHand (sx.bufDescTable sx.clockHand).Clear)) ∨
      ((sx.bufDescTable sx.clockHand).valid = true ∧
        (sx.bufDescTable sx.clockHand).refbit = false ∧
        (sx.bufDescTable sx.clockHand).pinCnt ≠ 0 ∧ px + 1 = sx.numBufs ∧
        allocBuf io s = (Res.throw Err.BufferExceededException, sx)) ∨
      ((sx.bufDescTable sx.clockHand).valid = true ∧
        (sx.bufDescTable sx.clockHand).refbit = false ∧
        (sx.bufDescTable sx.clockHand).pinCnt = 0 ∧
        allocBuf io s =
          match evictVictim io sx with
          | (Res.ok (), s1) =>
            (Res.ok s1.clockHand, s1.setDesc s1.clockHand (s1.bufDescTable s1.clockHand).Clear)
          | (Res.throw e, s1) => (Res.throw e, s1))) := by
  obtain ⟨sx, px, tx, h0, e1, e2, e3, e4⟩ := allocBuf_scan io s hn hn32
  refine ⟨sx, px, tx, h0, e1, e2, ?_⟩
  rcases allocBufLoop_one io sx px e4 with ⟨hv, h⟩ | ⟨hv, hr, hp, hfull, h⟩ | ⟨hv, hr, hp, h⟩
  · refine Or.inl ⟨hv, ?_⟩
    unfold allocBuf
    rw [e3, h]
  · refine Or.inr (Or.inl ⟨hv, hr, hp, hfull, ?_⟩)
    unfold allocBuf
    rw [e3, h]
  · refine Or.inr (Or.inr ⟨hv, hr, hp, ?_⟩)
    unfold allocBuf
    rw [e3, h]

/-- The fuel of the scan is enough: for a capacity between 1 and 2^32 allocBuf
never ends with the marker of a cut-off loop. -/
theorem allocBuf_fuel (io : FileOps σ) (s : BufMgr σ) (hn : 0 < s.numBufs)
    (hn32 : s.numBufs ≤ 4294967296) : (allocBuf io s).1 ≠ Res.throw Err.fuel := by
  obtain ⟨sx, px, tx, h0, _, _, h | h | h⟩ := allocBuf_cases io s hn hn32
  · rw [h.2]; simp
  · rw [h.2.2.2.2]; simp
  · rw [h.2.2.2]
    have hne := evictVictim_ne_fuel io sx
    rcases hev : evictVictim io sx with ⟨r, s1⟩
    rw [hev] at hne
    cases r with
    | ok u => simp
    | throw e =>
      intro hc
      apply hne
      simpa using hc

/-- The outcome of allocBuf in a well-formed state: a free frame is taken as it
is, or the scan gives up at a pinned frame, or the victim is evicted. -/
theorem allocBuf_wellFormed_cases (io : FileOps σ) (s : BufMgr σ) (hwf : WellFormed s) :
    ∃ (sx : BufMgr σ) (px tx h0 : Nat), ScanEq s sx ∧ ScanInv h0 tx px sx ∧ WellFormed sx ∧
      (((sx.bufDescTable sx.clockHand).valid = false ∧
        allocBuf io s = (Res.ok sx.clockHand,
          sx.setDesc sx.clockHand (sx.bufDescTable sx.clockHand).Clear)) ∨
      ((sx.bufDescTable sx.clockHand).valid = true ∧
        (sx.bufDescTable sx.clockHand).refbit = false ∧
        (sx.bufDescTable sx.clockHand).pinCnt ≠ 0 ∧ px + 1 = sx.numBufs ∧
        allocBuf io s = (Res.throw Err.BufferExceededException, sx)) ∨
      ((sx.bufDescTable sx.clockHand).valid = true ∧
        (sx.bufDescTable sx.clockHand).refbit = false ∧
        (sx.bufDescTable sx.clockHand).pinCnt = 0 ∧
        allocBuf io s = (Res.ok sx.clockHand,
          (evictVictim io sx).2.setDesc sx.clockHand
            ((evictVictim io sx).2.bufDescTable sx.clockHand).Clear))) := by
  obtain ⟨sx, px, tx, h0, e1, e2, h⟩ :=
    allocBuf_cases io s hwf.1 (Nat.le_of_lt hwf.2.1)
  have hh : sx.clockHand < sx.numBufs := by
    obtain ⟨hn, _, _, hhand, _⟩ := e2
    rw [hhand]
    exact Nat.mod_lt _ hn
  have hwx : WellFormed sx := wellFormed_of_scanEq hwf e1 hh
  refine ⟨sx, px, tx, h0, e1, e2, hwx, ?_⟩
  rcases h with h | h | ⟨hv, hr, hp, h⟩
  · exact Or.inl h
  · exact Or.inr (Or.inl h)
  · refine Or.inr (Or.inr ⟨hv, hr, hp, ?_⟩)
    obtain ⟨f, _, _, hok, _, hc, _⟩ := evictVictim_wellFormed io sx hwx hv
    rw [h]
    have : evictVictim io sx = (Res.ok (), (evictVictim io sx).2) := by
      rw [← hok]
    rw [this]
    simp only [hc]

/-- Every frame valid and pinned: the scan can only give up.  allocBuf throws
BufferExceededException, and the state it leaves differs from the one it
started in by the hand and by the reference bits, which are all clear. -/
theorem allocBuf_allPinned (io : FileOps σ) (s : BufMgr σ) (hn : 0 < s.numBufs)
    (hn32 : s.numBufs < 4294967296) (hall : AllPinned s) :
    ∃ sx : BufMgr σ, ScanEq s sx ∧ (∀ i, i < s.numBufs → (sx.bufDescTable i).refbit = false) ∧
      allocBuf io s = (Res.throw Err.BufferExceededException, sx) := by
  obtain ⟨sx, px, tx, h0, e1, e2, hcases⟩ := allocBuf_cases io s hn (Nat.le_of_lt hn32)
  have hh : sx.clockHand < s.numBufs := by
    obtain ⟨hnx, _, _, hhand, _⟩ := e2
    rw [hhand, ← e1.1]
    exact Nat.mod_lt _ hnx
  obtain ⟨hv, hp⟩ := hall sx.clockHand hh
  obtain ⟨_, _, _, d4, _, d6, _⟩ := e1.2.2.2.2.2 sx.clockHand
  rcases hcases with ⟨hv2, _⟩ | ⟨_, hr, _, hfull, h⟩ | ⟨_, _, hp2, _⟩
  · rw [d6, hv] at hv2
    exact Bool.noConfusion hv2
  · refine ⟨sx, e1, ?_, h⟩
    intro i hi
    exact scanInv_full e2 hfull hr i (e1.1 ▸ hi)
  · rw [d4] at hp2
    omega

/-- A key that is absent from the directory is absent after allocBuf. -/
theorem allocBuf_hashLookup_none (io : FileOps σ) (s : BufMgr σ) (hwf : WellFormed s)
    (file : FileId) (pageNo : PageId) (hmiss : hashLookup s.hashTable file pageNo = none) :
    hashLookup (allocBuf io s).2.hashTable file pageNo = none := by
  obtain ⟨sx, px, tx, h0, e1, _, hwx, hcases⟩ := allocBuf_wellFormed_cases io s hwf
  have eh := e1.2.2.1
  rcases hcases with ⟨_, h⟩ | ⟨_, _, _, _, h⟩ | ⟨hv, _, _, h⟩
  · rw [h]
    show hashLookup sx.hashTable file pageNo = none
    rw [eh]; exact hmiss
  · rw [h]
    show hashLookup sx.hashTable file pageNo = none
    rw [eh]; exact hmiss
  · obtain ⟨f, _, _, _, _, _, _, vh, _⟩ := evictVictim_wellFormed io sx hwx hv
    rw [h]
    show hashLookup (evictVictim io sx).2.hashTable file pageNo = none
    rw [vh]
    by_cases hk : (file, pageNo) = (f, (sx.bufDescTable sx.clockHand).pageNo)
    · obtain ⟨h1, h2⟩ := Prod.mk.inj hk
      rw [h1, h2]
      exact hashLookup_filter_self _ _ _
    · rw [hashLookup_filter_ne _ _ _ _ _ hk, eh]
      exact hmiss

/-- The miss path of readPage (lines 111-116) when allocBuf returns frame f,
the key is absent from the directory allocBuf leaves, and the file delivers
the page pg. -/
theorem readPage_miss_eq (io : FileOps σ) (s s1 : BufMgr σ) (file : FileId) (pageNo : PageId)
    (f : FrameId) (pg : Page) (hmiss : hashLookup s.hashTable file pageNo = none)
    (halloc : allocBuf io s = (Res.ok f, s1))
    (hl : hashLookup s1.hashTable file pageNo = none)
    (hread : io.readPage s1.disk file pageNo = some pg) :
    readPage io s file pageNo = (Res.ok f,
      (((({ (s1.emit (Event.readPage file pageNo)) with
          hashTable := ((file, pageNo), f) :: s1.hashTable }).emit
        (Event.hashInsert file pageNo f)).setPool f pg).setDesc f
          ((s1.bufDescTable f).Set file pageNo))) := by
  unfold readPage
  rw [hmiss]
  dsimp only
  rw [halloc]
  dsimp only
  rw [hread]
  simp only [hashInsert, emit, hl]
  rfl

/-- When the frame under the advanced hand is free, allocBuf takes it. -/
theorem allocBuf_free (io : FileOps σ) (s : BufMgr σ) (hn : 0 < s.numBufs)
    (hv : ((advanceClock s).bufDescTable (advanceClock s).clockHand).valid = false) :
    allocBuf io s = (Res.ok (advanceClock s).clockHand,
      (advanceClock s).setDesc (advanceClock s).clockHand
        ((advanceClock s).bufDescTable (advanceClock s).clockHand).Clear) := by
  obtain ⟨k, hk⟩ : ∃ k, 2 * s.numBufs = k + 1 := ⟨2 * s.numBufs - 1, by omega⟩
  unfold allocBuf
  rw [hk, allocBufLoop_succ, hv]
  simp

/-- A run of the scan over frames whose reference bit is set: from the hand at
t up to the end of the table every bit is cleared, the counter is unchanged,
and the hand wraps to frame 0. -/
theorem scan_clear_run (io : FileOps σ) :
    ∀ (d : Nat) (s : BufMgr σ) (t fuel p : Nat), t + d = s.numBufs → 0 < s.numBufs →
      s.numBufs ≤ 4294967296 → s.clockHand = t % s.numBufs →
      (∀ i, t ≤ i → i < s.numBufs →
        (s.bufDescTable i).valid = true ∧ (s.bufDescTable i).refbit = true) →
      d ≤ fuel →
      ∃ sx : BufMgr σ, ScanEq s sx ∧ sx.clockHand = 0 ∧
        (∀ i, t ≤ i → i < s.numBufs → (sx.bufDescTable i).refbit = false) ∧
        allocBufLoop io fuel s p = allocBufLoop io (fuel - d) sx p := by
  intro d
  induction d with
  | zero =>
    intro s t fuel p htd _ _ hhand _ _
    refine ⟨s, scanEq_refl s, ?_, ?_, rfl⟩
    · have : t = s.numBufs := by omega
      rw [hhand, this, Nat.mod_self]
    · intro i h1 h2
      omega
  | succ d ih =>
    intro s t fuel p htd hn hn32 hhand hall hfuel
    obtain ⟨fuel1, rfl⟩ : ∃ k, fuel = k + 1 := ⟨fuel - 1, by omega⟩
    have htn : t < s.numBufs := by omega
    have hht : s.clockHand = t := by rw [hhand, Nat.mod_eq_of_lt htn]
    obtain ⟨hv, hr⟩ := hall t (Nat.le_refl t) htn
    rw [← hht] at hv hr
    have hstep : allocBufLoop io (fuel1 + 1) s p = allocBufLoop io fuel1
        (advanceClock (s.setDesc s.clockHand
          { s.bufDescTable s.clockHand with refbit := false })) p := by
      rw [allocBufLoop_succ, if_pos hv, if_pos hr]
    have hcl : ((advanceClock (s.setDesc s.clockHand
        { s.bufDescTable s.clockHand with refbit := false })).bufDescTable t).refbit = false := by
      show (Function.update s.bufDescTable s.clockHand _ t).refbit = false
      rw [hht, Function.update_same]
    obtain ⟨sx, e1, e2, e3, e4⟩ := ih (advanceClock (s.setDesc s.clockHand
        { s.bufDescTable s.clockHand with refbit := false })) (t + 1) fuel1 p
      (by show t + 1 + d = s.numBufs; omega) hn hn32
      (by
        show (s.clockHand + 1) % 4294967296 % s.numBufs = (t + 1) % s.numBufs
        rw [advance_hand _ _ (hht ▸ htn) hn32, hht])
      (by
        intro i h1 h2
        show (Function.update s.bufDescTable s.clockHand _ i).valid = true ∧
          (Function.update s.bufDescTable s.clockHand _ i).refbit = true
        have hne : i ≠ s.clockHand := by rw [hht]; omega
        rw [Function.update_noteq hne]
        exact hall i (by omega) h2)
      (by omega)
    refine ⟨sx, scanEq_trans (scanEq_clearRef s) e1, e2, ?_, ?_⟩
    · intro i h1 h2
      by_cases hit : i = t
      · have h7 := (e1.2.2.2.2.2 t).2.2.2.2.2.2
        rw [hit]
        cases hb : (sx.bufDescTable t).refbit with
        | false => rfl
        | true =>
          have := h7 hb
          rw [hcl] at this
          exact Bool.noConfusion this
      · exact e3 i (by omega) h2
    · rw [hstep, e4]
      congr 1
      omega

/-- A run of the scan over pinned frames whose reference bit is clear: the
hand moves from frame t to frame k and the counter from t to k; nothing else
changes. -/
theorem scan_pinned_run (io : FileOps σ) :
    ∀ (d : Nat) (s : BufMgr σ) (t fuel k : Nat), t + d = k → k < s.numBufs →
      s.numBufs ≤ 4294967296 → s.clockHand = t →
      (∀ i, i < k → (s.bufDescTable i).valid = true ∧ (s.bufDescTable i).refbit = false ∧
        (s.bufDescTable i).pinCnt ≠ 0) →
      d ≤ fuel →
      ∃ sx : BufMgr σ, ScanEq s sx ∧ sx.clockHand = k ∧
        allocBufLoop io fuel s t = allocBufLoop io (fuel - d) sx k := by
  intro d
  induction d with
  | zero =>
    intro s t fuel k htd _ _ hhand _ _
    have : t = k := by omega
    subst this
    exact ⟨s, scanEq_refl s, hhand, rfl⟩
  | succ d ih =>
    intro s t fuel k htd hk hn32 hhand hall hfuel
    obtain ⟨fuel1, rfl⟩ : ∃ j, fuel = j + 1 := ⟨fuel - 1, by omega⟩
    obtain ⟨hv, hr, hp⟩ := hall t (by omega)
    rw [← hhand] at hv hr hp
    have hr2 : ¬ (s.bufDescTable s.clockHand).refbit = true := by simp [hr]
    have hfull : ¬ t + 1 = s.numBufs := by omega
    have hstep : allocBufLoop io (fuel1 + 1) s t = allocBufLoop io fuel1 (advanceClock s) (t + 1) := by
      rw [allocBufLoop_succ, if_pos hv, if_neg hr2, if_pos hp, if_neg hfull]
    obtain ⟨sx, e1, e2, e3⟩ := ih (advanceClock s) (t + 1) fuel1 k (by omega) hk hn32
      (by
        show (s.clockHand + 1) % 4294967296 % s.numBufs = t + 1
        rw [advance_hand s.clockHand s.numBufs (by rw [hhand]; omega) hn32, hhand,
          Nat.mod_eq_of_lt (by omega)])
      hall (by omega)
    refine ⟨sx, scanEq_trans (scanEq_advance s) e1, e2, ?_⟩
    rw [hstep, e3]
    congr 1
    omega

/-- Second sweep: in a well-formed state with the hand on the last frame, every
frame valid with its reference bit set, the frames before k pinned and frame k
not pinned, allocBuf clears all reference bits in a first sweep, passes the
pinned frames and evicts frame k. -/
theorem allocBuf_second_sweep (io : FileOps σ) (s : BufMgr σ) (k : Nat) (hwf : WellFormed s)
    (hend : s.clockHand + 1 = s.numBufs) (hk : k < s.numBufs)
    (hall : ∀ i, i < s.numBufs →
      (s.bufDescTable i).valid = true ∧ (s.bufDescTable i).refbit = true)
    (hpin : ∀ i, i < k → (s.bufDescTable i).pinCnt ≠ 0)
    (hk0 : (s.bufDescTable k).pinCnt = 0) :
    ∃ sx : BufMgr σ, ScanEq s sx ∧ sx.clockHand = k ∧
      allocBuf io s = (Res.ok k,
        (evictVictim io sx).2.setDesc k ((evictVictim io sx).2.bufDescTable k).Clear) := by
  have hn := hwf.1
  have hn32 := hwf.2.1
  have hle : s.numBufs ≤ 4294967296 := Nat.le_of_lt hn32
  obtain ⟨s1, a1, a2, a3, a4⟩ := scan_clear_run io s.numBufs (advanceClock s) 0 (2 * s.numBufs) 0
    (by show 0 + s.numBufs = s.numBufs; omega) hn hle
    (by
      show (s.clockHand + 1) % 4294967296 % s.numBufs = 0 % s.numBufs
      rw [hend, Nat.mod_eq_of_lt hn32, Nat.mod_self, Nat.zero_mod])
    (fun i _ hi => hall i hi) (by show s.numBufs ≤ 2 * s.numBufs; omega)
  have b1 : ScanEq s s1 := scanEq_trans (scanEq_advance s) a1
  have hs1n : s1.numBufs = s.numBufs := b1.1
  obtain ⟨s2, c1, c2, c3⟩ := scan_pinned_run io k s1 0 (2 * s.numBufs - s.numBufs) k
    (by omega) (by omega) (by omega) a2
    (by
      intro i hi
      obtain ⟨_, _, _, d4, _, d6, _⟩ := b1.2.2.2.2.2 i
      refine ⟨d6.trans (hall i (by omega)).1, a3 i (Nat.zero_le i) (by
        show i < s.numBufs
        omega), ?_⟩
      rw [d4]
      exact hpin i hi)
    (by omega)
  have b2 : ScanEq s s2 := scanEq_trans b1 c1
  have hwx : WellFormed s2 := wellFormed_of_scanEq hwf b2 (by rw [c2, b2.1]; exact hk)
  obtain ⟨d1, d2, d3, d4, d5, d6, d7⟩ := b2.2.2.2.2.2 k
  have hv : (s2.bufDescTable s2.clockHand).valid = true := by
    rw [c2, d6]; exact (hall k hk).1
  have hr : ¬ (s2.bufDescTable s2.clockHand).refbit = true := by
    rw [c2]
    intro hb
    have h1 := (c1.2.2.2.2.2 k).2.2.2.2.2.2 hb
    rw [a3 k (Nat.zero_le k) hk] at h1
    exact Bool.noConfusion h1
  have hp : ¬ (s2.bufDescTable s2.clockHand).pinCnt ≠ 0 := by
    rw [c2, d4, hk0]; simp
  obtain ⟨j, hj⟩ : ∃ j, 2 * s.numBufs - s.numBufs - k = j + 1 :=
    ⟨2 * s.numBufs - s.numBufs - k - 1, by omega⟩
  obtain ⟨f, _, _, hok, _, hc, _⟩ := evictVictim_wellFormed io s2 hwx hv
  refine ⟨s2, b2, c2, ?_⟩
  unfold allocBuf
  rw [a4, c3, hj, allocBufLoop_succ, if_pos hv, if_neg hr, if_neg hp]
  have : evictVictim io s2 = (Res.ok (), (evictVictim io s2).2) := by
    rw [← hok]
  rw [this]
  simp only [hc, c2]

/-! ## Loading a fresh manager -/

theorem loaded_construct (n : Nat) (A : FileId) (p : Nat → PageId) (pg : Nat → Page) (d : σ)
    (hn : 0 < n) (hn32 : n < 4294967296) : Loaded n A p pg d 0 (construct n d) := by
  have hmod : (n + 4294967296 - 1) % 4294967296 = n - 1 := by omega
  have hhand : (construct n d).clockHand = n - 1 := hmod
  refine ⟨rfl, ?_, ?_, rfl, ?_, ?_, ?_⟩
  · rw [hhand]; exact Nat.sub_lt hn Nat.one_pos
  · rw [hhand]
    have : n - 1 + 1 = n := by omega
    rw [this, Nat.mod_self, Nat.zero_mod]
  · intro i hi
    omega
  · intro i _
    rfl
  · intro e he
    simp [construct] at he

/-- One more readPage on a manager loaded with m < n pages: the page goes to
frame m. -/
theorem loaded_step (io : FileOps σ) (n : Nat) (A : FileId) (p : Nat → PageId)
    (pg : Nat → Page) (d : σ) (m : Nat) (s : BufMgr σ) (hl : Loaded n A p pg d m s)
    (hm : m < n) (hn32 : n ≤ 4294967296)
    (hinj : ∀ i, i < n → ∀ j, j < n → p i = p j → i = j)
    (hp : io.readPage d A (p m) = some (pg m)) :
    (readPage io s A (p m)).1 = Res.ok m ∧ Loaded n A p pg d (m + 1) (readPage io s A (p m)).2 := by
  obtain ⟨l1, l2, l3, l4, l5, l6, l7⟩ := hl
  have hn : 0 < s.numBufs := by omega
  have hmiss : hashLookup s.hashTable A (p m) = none := by
    cases h : hashLookup s.hashTable A (p m) with
    | none => rfl
    | some j =>
      obtain ⟨i, hi, he⟩ := l7 _ (hashLookup_mem h)
      have h1 : p m = p i := (Prod.mk.inj (Prod.mk.inj he).1).2
      have := hinj m hm i (by omega) h1
      omega
  have hH : (advanceClock s).clockHand = m := by
    show (s.clockHand + 1) % 4294967296 % s.numBufs = m
    rw [l1, advance_hand s.clockHand n l2 hn32, l3, Nat.mod_eq_of_lt hm]
  have hfree : (advanceClock s).bufDescTable m = { BufDesc.fresh with frameNo := m } :=
    l6 m (Nat.le_refl m)
  have halloc := allocBuf_free io s hn (by rw [hH, hfree]; rfl)
  rw [hH] at halloc
  have key := readPage_miss_eq io s _ A (p m) m (pg m) hmiss halloc hmiss
    (by
      show io.readPage s.disk A (p m) = some (pg m)
      rw [l4]; exact hp)
  rw [key]
  refine ⟨rfl, l1, ?_, ?_, l4, ?_, ?_, ?_⟩
  · show (advanceClock s).clockHand < n
    rw [hH]; exact hm
  · show ((advanceClock s).clockHand + 1) % n = (m + 1) % n
    rw [hH]
  · intro i hi
    by_cases him : i = m
    · subst him
      refine ⟨?_, ?_, ?_⟩
      · simp only [setDesc, setPool, emit, Function.update_same]
        have : s.bufDescTable i = { BufDesc.fresh with frameNo := i } := l6 i (Nat.le_refl i)
        simp [advanceClock, this, BufDesc.Set, BufDesc.Clear, BufDesc.fresh]
      · simp [setDesc, setPool, emit]
      · simp [setDesc, setPool, emit, hashLookup_cons]
    · have him2 : i < m := by omega
      obtain ⟨a1, a2, a3⟩ := l5 i him2
      refine ⟨?_, ?_, ?_⟩
      · simp only [setDesc, setPool, emit, Function.update_noteq him]
        exact a1
      · simp only [setDesc, setPool, emit, Function.update_noteq him]
        exact a2
      · have hne : ¬ p m = p i := by
          intro h
          have := hinj m hm i (by omega) h
          omega
        simp only [setDesc, setPool, emit, hashLookup_cons]
        rw [if_neg (by simpa using hne)]
        exact a3
  · intro i hi
    have him : i ≠ m := by omega
    simp only [setDesc, setPool, emit, Function.update_noteq him]
    exact l6 i (by omega)
  · intro e he
    have he2 : e = ((A, p m), m) ∨ e ∈ s.hashTable := by
      simpa [setDesc, setPool, emit, advanceClock] using he
    rcases he2 with h | h
    · exact ⟨m, by omega, h⟩
    · obtain ⟨i, hi, h2⟩ := l7 e h
      exact ⟨i, by omega, h2⟩

/-- Loading m ≤ n distinct pages into a fresh manager of n frames: the i-th
readPage returns frame i. -/
theorem loaded_readPages (io : FileOps σ) (n : Nat) (A : FileId) (p : Nat → PageId)
    (pg : Nat → Page) (d : σ) (hn : 0 < n) (hn32 : n < 4294967296)
    (hinj : ∀ i, i < n → ∀ j, j < n → p i = p j → i = j)
    (hp : ∀ i, i < n → io.readPage d A (p i) = some (pg i)) :
    ∀ m, m ≤ n → Loaded n A p pg d m (readPages io (construct n d) A p m) ∧
      (m < n → (readPage io (readPages io (construct n d) A p m) A (p m)).1 = Res.ok m) := by
  intro m
  induction m with
  | zero =>
    intro _
    have h0 := loaded_construct n A p pg d hn hn32
    exact ⟨h0, fun h => (loaded_step io n A p pg d 0 _ h0 h (Nat.le_of_lt hn32) hinj
      (hp 0 h)).1⟩
  | succ m ih =>
    intro hm
    have hm2 : m < n := by omega
    obtain ⟨h1, _⟩ := ih (by omega)
    have h2 := (loaded_step io n A p pg d m _ h1 hm2 (Nat.le_of_lt hn32) hinj (hp m hm2)).2
    exact ⟨h2, fun h => (loaded_step io n A p pg d (m + 1) _ h2 h (Nat.le_of_lt hn32) hinj
      (hp (m + 1) h)).1⟩

/-- A hand inside the table whose successor is 0 modulo the capacity is on the
last frame. -/
theorem hand_last (h n : Nat) (h1 : h < n) (h2 : (h + 1) % n = n % n) : h + 1 = n := by
  rw [Nat.mod_self] at h2
  by_contra hne
  have hlt : h + 1 < n := by omega
  rw [Nat.mod_eq_of_lt hlt] at h2
  omega

/-- The state after unPinPage of a resident page whose frame is pinned. -/
theorem unPinPage_ok_eq (s : BufMgr σ) (file : FileId) (pageNo : PageId) (markDirty : Bool)
    (f : FrameId) (hhit : hashLookup s.hashTable file pageNo = some f)
    (hpin : (s.bufDescTable f).pinCnt ≠ 0) :
    unPinPage s file pageNo markDirty = (Res.ok (), s.setDesc f
      { s.bufDescTable f with pinCnt := (s.bufDescTable f).pinCnt - 1,
                              dirty := ((s.bufDescTable f).dirty || markDirty) }) := by
  unfold unPinPage
  rw [hhit]
  cases markDirty <;> simp [hpin, setDesc]

/-- A manager loaded with n pages in n frames, after unPinPage of page p k: the
state is well-formed, the hand is on the last frame, every frame is valid with
its reference bit set, and frame k alone is not pinned. -/
theorem loaded_unpin (n : Nat) (A : FileId) (p : Nat → PageId) (pg : Nat → Page) (d : σ)
    (k : Nat) (markDirty : Bool) (s : BufMgr σ) (hl : Loaded n A p pg d n s) (hn : 0 < n)
    (hn32 : n < 4294967296) (hk : k < n) :
    (unPinPage s A (p k) markDirty).1 = Res.ok () ∧
    WellFormed (unPinPage s A (p k) markDirty).2 ∧
    (unPinPage s A (p k) markDirty).2.numBufs = n ∧
    (unPinPage s A (p k) markDirty).2.clockHand + 1 = n ∧
    (unPinPage s A (p k) markDirty).2.disk = d ∧
    (unPinPage s A (p k) markDirty).2.hashTable = s.hashTable ∧
    (unPinPage s A (p k) markDirty).2.bufPool k = pg k ∧
    (∀ i, i < n →
      ((unPinPage s A (p k) markDirty).2.bufDescTable i).file = some A ∧
      ((unPinPage s A (p k) markDirty).2.bufDescTable i).pageNo = p i ∧
      ((unPinPage s A (p k) markDirty).2.bufDescTable i).valid = true ∧
      ((unPinPage s A (p k) markDirty).2.bufDescTable i).refbit = true ∧
      ((unPinPage s A (p k) markDirty).2.bufDescTable i).pinCnt = (if i = k then 0 else 1) ∧
      hashLookup s.hashTable A (p i) = some i) ∧
    ((unPinPage s A (p k) markDirty).2.bufDescTable k).dirty = markDirty := by
  obtain ⟨l1, l2, l3, l4, l5, l6, l7⟩ := hl
  obtain ⟨k1, _, k3⟩ := l5 k hk
  have hpin : (s.bufDescTable k).pinCnt ≠ 0 := by rw [k1]; simp [BufDesc.Set]
  have hU := unPinPage_ok_eq s A (p k) markDirty k k3 hpin
  have hend : s.clockHand + 1 = n := hand_last s.clockHand n l2 l3
  have hdesc : ∀ i, i < n →
      ((unPinPage s A (p k) markDirty).2.bufDescTable i).file = some A ∧
      ((unPinPage s A (p k) markDirty).2.bufDescTable i).pageNo = p i ∧
      ((unPinPage s A (p k) markDirty).2.bufDescTable i).valid = true ∧
      ((unPinPage s A (p k) markDirty).2.bufDescTable i).refbit = true ∧
      ((unPinPage s A (p k) markDirty).2.bufDescTable i).pinCnt = (if i = k then 0 else 1) ∧
      hashLookup s.hashTable A (p i) = some i := by
    intro i hi
    obtain ⟨a1, _, a3⟩ := l5 i hi
    rw [hU]
    by_cases hik : i = k
    · subst hik
      simp [setDesc, a1, a3, BufDesc.Set]
    · simp [setDesc, Function.update_noteq hik, a1, a3, BufDesc.Set, hik]
  have hnum : (unPinPage s A (p k) markDirty).2.numBufs = s.numBufs := by rw [hU]; rfl
  have hhand : (unPinPage s A (p k) markDirty).2.clockHand = s.clockHand := by rw [hU]; rfl
  have hht : (unPinPage s A (p k) markDirty).2.hashTable = s.hashTable := by rw [hU]; rfl
  refine ⟨by rw [hU], ?_, hnum.trans l1, hhand ▸ hend, by rw [hU]; exact l4, hht,
    by rw [hU]; exact (l5 k hk).2.1, hdesc, ?_⟩
  · refine ⟨hnum ▸ l1 ▸ hn, hnum ▸ l1 ▸ hn32, ?_, ?_, ?_, ?_⟩
    · rw [hnum, hhand, l1]; exact l2
    · intro i hi hv
      have := (hdesc i (by rw [hnum, l1] at hi; exact hi)).2.2.1
      rw [this] at hv
      exact Bool.noConfusion hv
    · intro i hi _
      obtain ⟨b1, b2, _, _, _, b6⟩ := hdesc i (by rw [hnum, l1] at hi; exact hi)
      rw [b1, b2, hht]
      exact b6
    · intro e he
      rw [hht] at he
      obtain ⟨i, hi, rfl⟩ := l7 e he
      obtain ⟨b1, b2, b3, _, _, _⟩ := hdesc i hi
      exact ⟨by rw [hnum, l1]; exact hi, b3, b1, b2⟩
  · rw [hU]
    simp [setDesc, k1, BufDesc.Set]

/-! ## Claims about allocBuf -/

/-- C1: in a well-formed state a frame with a positive pin count is untouched
by allocBuf, whether allocBuf returns a frame or throws: its file, page
number, pin count, dirty bit and valid bit are the same after the call, its
pool slot is unchanged, the directory still maps its (file, page number) to
it, and its reference bit is set afterwards only if it was set before. -/
theorem allocBuf_keeps_pinned (io : FileOps σ) (s : BufMgr σ) (hwf : WellFormed s)
    (i : FrameId) (hi : i < s.numBufs) (hpin : 0 < (s.bufDescTable i).pinCnt) :
    ((allocBuf io s).2.bufDescTable i).file = (s.bufDescTable i).file ∧
    ((allocBuf io s).2.bufDescTable i).pageNo = (s.bufDescTable i).pageNo ∧
    ((allocBuf io s).2.bufDescTable i).pinCnt = (s.bufDescTable i).pinCnt ∧
    ((allocBuf io s).2.bufDescTable i).dirty = (s.bufDescTable i).dirty ∧
    ((allocBuf io s).2.bufDescTable i).valid = (s.bufDescTable i).valid ∧
    (allocBuf io s).2.bufPool i = s.bufPool i ∧
    (∃ f, (s.bufDescTable i).file = some f ∧
      hashLookup (allocBuf io s).2.hashTable f (s.bufDescTable i).pageNo = some i) ∧
    (((allocBuf io s).2.bufDescTable i).refbit = true → (s.bufDescTable i).refbit = true) := by
  obtain ⟨sx, px, tx, h0, e1, _, hwx, hcases⟩ := allocBuf_wellFormed_cases io s hwf
  obtain ⟨en, ep, eh, _, _, ed⟩ := e1
  obtain ⟨d1, d2, _, d4, d5, d6, d7⟩ := ed i
  have hvalid : (s.bufDescTable i).valid = true := by
    cases hv : (s.bufDescTable i).valid with
    | true => rfl
    | false =>
      have := (hwf.2.2.2.1 i hi hv).1
      omega
  -- the directory entry of frame i, in the state of the last iteration
  have hix : i < sx.numBufs := en ▸ hi
  have hlx := hwx.2.2.2.2.1 i hix (d6.trans hvalid)
  rw [d1, d2] at hlx
  cases hf : (s.bufDescTable i).file with
  | none => rw [hf] at hlx; simp at hlx
  | some f =>
    rw [hf] at hlx
    have hlx2 : hashLookup sx.hashTable f (s.bufDescTable i).pageNo = some i := by
      simpa using hlx
    rcases hcases with ⟨hv, h⟩ | ⟨_, _, _, _, h⟩ | ⟨hv, _, hp, h⟩
    · have hne : i ≠ sx.clockHand := by
        intro hc
        rw [← hc, d6, hvalid] at hv
        exact Bool.noConfusion hv
      rw [h]
      simp only [setDesc, Function.update_noteq hne]
      exact ⟨d1.trans hf, d2, d4, d5, d6, congrFun ep i, ⟨f, rfl, hlx2⟩, d7⟩
    · rw [h]
      exact ⟨d1.trans hf, d2, d4, d5, d6, congrFun ep i, ⟨f, rfl, hlx2⟩, d7⟩
    · have hne : i ≠ sx.clockHand := by
        intro hc
        rw [← hc, d4] at hp
        omega
      obtain ⟨g, hg, hgl, _, _, _, vp, vh, _, _, vd, _⟩ := evictVictim_wellFormed io sx hwx hv
      rw [h]
      simp only [setDesc, Function.update_noteq hne, vd i hne, vp, vh]
      refine ⟨d1.trans hf, d2, d4, d5, d6, congrFun ep i, ⟨f, rfl, ?_⟩, d7⟩
      rw [hashLookup_filter_ne _ _ _ _ _ ?_]
      · exact hlx2
      · intro hkey
        obtain ⟨hfg, hpp⟩ := Prod.mk.inj hkey
        rw [hfg, hpp, hgl] at hlx2
        exact hne (Option.some.inj hlx2).symm

theorem allocBuf_keeps_pinned_witness :
    ((allocBuf memFile exEvict).2.bufDescTable 0).file = (exEvict.bufDescTable 0).file ∧
    ((allocBuf memFile exEvict).2.bufDescTable 0).pageNo = (exEvict.bufDescTable 0).pageNo ∧
    ((allocBuf memFile exEvict).2.bufDescTable 0).pinCnt = (exEvict.bufDescTable 0).pinCnt ∧
    ((allocBuf memFile exEvict).2.bufDescTable 0).dirty = (exEvict.bufDescTable 0).dirty ∧
    ((allocBuf memFile exEvict).2.bufDescTable 0).valid = (exEvict.bufDescTable 0).valid ∧
    (allocBuf memFile exEvict).2.bufPool 0 = exEvict.bufPool 0 ∧
    (∃ f, (exEvict.bufDescTable 0).file = some f ∧
      hashLookup (allocBuf memFile exEvict).2.hashTable f (exEvict.bufDescTable 0).pageNo
        = some 0) ∧
    (((allocBuf memFile exEvict).2.bufDescTable 0).refbit = true →
      (exEvict.bufDescTable 0).refbit = true) :=
  allocBuf_keeps_pinned memFile exEvict (by decide) 0 (by decide) (by decide)

/-- C2: in a well-formed state, when allocBuf returns a frame v that was valid
at the call (the eviction victim), the calls it makes to the collaborators
are, in this order, one writePage of the slot of v to the file of v if v was
dirty (none if v was clean) and then the removal of the directory entry of v;
the file store is changed by that write only; afterwards frame v is neither
dirty nor valid and the directory has no entry for its old (file, page
number). -/
theorem allocBuf_evicts_victim (io : FileOps σ) (s : BufMgr σ) (hwf : WellFormed s)
    (v : FrameId) (hres : (allocBuf io s).1 = Res.ok v)
    (hvalid : (s.bufDescTable v).valid = true) :
    ∃ f, (s.bufDescTable v).file = some f ∧
      (allocBuf io s).2.log = s.log ++
        (if (s.bufDescTable v).dirty = true then [Event.writePage f (s.bufPool v)] else []) ++
        [Event.hashRemove f (s.bufDescTable v).pageNo] ∧
      (allocBuf io s).2.disk =
        (if (s.bufDescTable v).dirty = true then io.writePage s.disk f (s.bufPool v)
          else s.disk) ∧
      ((allocBuf io s).2.bufDescTable v).dirty = false ∧
      ((allocBuf io s).2.bufDescTable v).valid = false ∧
      hashLookup (allocBuf io s).2.hashTable f (s.bufDescTable v).pageNo = none := by
  obtain ⟨sx, px, tx, h0, e1, _, hwx, hcases⟩ := allocBuf_wellFormed_cases io s hwf
  obtain ⟨_, ep, _, edisk, elog, ed⟩ := e1
  rcases hcases with ⟨hv, h⟩ | ⟨_, _, _, _, h⟩ | ⟨hv, _, _, h⟩
  · rw [h] at hres
    have hvx : sx.clockHand = v := Res.ok.inj hres
    rw [hvx, (ed v).2.2.2.2.2.1, hvalid] at hv
    exact Bool.noConfusion hv
  · rw [h] at hres
    exact Res.noConfusion hres
  · rw [h] at hres
    have hvx : sx.clockHand = v := Res.ok.inj hres
    obtain ⟨f, hf, _, _, _, _, _, vh, vdisk, vlog, _, _⟩ := evictVictim_wellFormed io sx hwx hv
    rw [hvx] at hf vh vdisk vlog
    obtain ⟨d1, d2, _, _, d5, _, _⟩ := ed v
    rw [d1] at hf
    rw [d2] at vh vlog
    rw [d5, ep, edisk] at vdisk
    rw [d5, ep, elog] at vlog
    refine ⟨f, hf, ?_⟩
    rw [h, hvx]
    refine ⟨vlog, vdisk, ?_, ?_, ?_⟩
    · simp [setDesc, BufDesc.Clear]
    · simp [setDesc, BufDesc.Clear]
    · show hashLookup (evictVictim io sx).2.hashTable f (s.bufDescTable v).pageNo = none
      rw [vh]
      exact hashLookup_filter_self _ _ _

theorem allocBuf_evicts_victim_witness :
    ∃ f, (exEvict.bufDescTable 1).file = some f ∧
      (allocBuf memFile exEvict).2.log = exEvict.log ++
        (if (exEvict.bufDescTable 1).dirty = true
          then [Event.writePage f (exEvict.bufPool 1)] else []) ++
        [Event.hashRemove f (exEvict.bufDescTable 1).pageNo] ∧
      (allocBuf memFile exEvict).2.disk =
        (if (exEvict.bufDescTable 1).dirty = true
          then memFile.writePage exEvict.disk f (exEvict.bufPool 1) else exEvict.disk) ∧
      ((allocBuf memFile exEvict).2.bufDescTable 1).dirty = false ∧
      ((allocBuf memFile exEvict).2.bufDescTable 1).valid = false ∧
      hashLookup (allocBuf memFile exEvict).2.hashTable f (exEvict.bufDescTable 1).pageNo
        = none :=
  allocBuf_evicts_victim memFile exEvict (by decide) 1 (by decide) (by decide)

/-- C3: for a capacity of at least one frame and any state in which every
frame is valid and pinned, whatever the reference bits and the clock hand,
readPage of a page that is not in the directory and allocPage both throw
BufferExceededException (so neither returns a frame). -/
theorem readPage_allocPage_allPinned (io : FileOps σ) (s : BufMgr σ) (hn : 0 < s.numBufs)
    (hn32 : s.numBufs < 4294967296) (hall : AllPinned s) (file : FileId) (pageNo : PageId)
    (hmiss : hashLookup s.hashTable file pageNo = none) :
    (readPage io s file pageNo).1 = Res.throw Err.BufferExceededException ∧
    (allocPage io s file).1 = Res.throw Err.BufferExceededException := by
  constructor
  · obtain ⟨sx, _, _, h⟩ := allocBuf_allPinned io s hn hn32 hall
    unfold readPage
    rw [hmiss]
    simp only [h]
  · obtain ⟨sx, _, _, h⟩ := allocBuf_allPinned io
      (({ s with disk := (io.allocatePage s.disk file).2 }).emit (Event.allocatePage file))
      hn hn32 hall
    unfold allocPage
    simp only [h]

theorem readPage_allocPage_allPinned_witness :
    (readPage memFile exFull 7 4).1 = Res.throw Err.BufferExceededException ∧
    (allocPage memFile exFull 7).1 = Res.throw Err.BufferExceededException :=
  readPage_allocPage_allPinned memFile exFull (by decide) (by decide) (by decide) 7 4
    (by decide)

/-- C4: a run on which allocBuf gives up although a frame is not pinned.  With
two frames, after readPage (7, 1), readPage (7, 2), unPinPage (7, 2),
readPage (7, 3), unPinPage (7, 3) the state is well-formed and frame 1 has pin
count 0, yet allocBuf throws BufferExceededException: the counter of pinned
visits counts frame 0 twice. -/
theorem allocBuf_exceeded_with_unpinned_frame :
    WellFormed exSlip ∧ (exSlip.bufDescTable 1).valid = true ∧
    (exSlip.bufDescTable 1).pinCnt = 0 ∧
    (allocBuf memFile exSlip).1 = Res.throw Err.BufferExceededException ∧
    (readPage memFile exSlip 7 4).1 = Res.throw Err.BufferExceededException := by
  decide

/-- C5, as stated, fails: with both frames pinned and their reference bits
set, readPage of a page that is not resident throws BufferExceededException
and leaves the descriptor of frame 0 different from what it was (its reference
bit has been cleared by the scan). -/
theorem failed_readPage_alters_refbit :
    AllPinned exFull ∧ hashLookup exFull.hashTable 7 4 = none ∧
    (readPage memFile exFull 7 4).1 = Res.throw Err.BufferExceededException ∧
    (readPage memFile exFull 7 4).2.bufDescTable 0 ≠ exFull.bufDescTable 0 ∧
    (exFull.bufDescTable 0).refbit = true ∧
    ((readPage memFile exFull 7 4).2.bufDescTable 0).refbit = false := by
  decide

/-- C5, amended: when every frame is valid and pinned, the state left by the
failed readPage (of a page that is not resident) or by the failed allocPage has
every descriptor identical to what it was before the call in file, page
number, frame number, pin count, dirty bit and valid bit; the reference bit of
every frame of the table is clear after the call. -/
theorem failed_alloc_frame_table (io : FileOps σ) (s : BufMgr σ) (hn : 0 < s.numBufs)
    (hn32 : s.numBufs < 4294967296) (hall : AllPinned s) (file : FileId) (pageNo : PageId)
    (hmiss : hashLookup s.hashTable file pageNo = none) (s1 : BufMgr σ)
    (hs1 : s1 = (readPage io s file pageNo).2 ∨ s1 = (allocPage io s file).2) (i : FrameId) :
    (s1.bufDescTable i).file = (s.bufDescTable i).file ∧
    (s1.bufDescTable i).pageNo = (s.bufDescTable i).pageNo ∧
    (s1.bufDescTable i).frameNo = (s.bufDescTable i).frameNo ∧
    (s1.bufDescTable i).pinCnt = (s.bufDescTable i).pinCnt ∧
    (s1.bufDescTable i).dirty = (s.bufDescTable i).dirty ∧
    (s1.bufDescTable i).valid = (s.bufDescTable i).valid ∧
    (i < s.numBufs → (s1.bufDescTable i).refbit = false) := by
  rcases hs1 with hs1 | hs1
  · obtain ⟨sx, e1, hr, h⟩ := allocBuf_allPinned io s hn hn32 hall
    have : (readPage io s file pageNo).2 = sx := by
      unfold readPage
      rw [hmiss]
      simp only [h]
    rw [hs1, this]
    obtain ⟨d1, d2, d3, d4, d5, d6, _⟩ := e1.2.2.2.2.2 i
    exact ⟨d1, d2, d3, d4, d5, d6, hr i⟩
  · obtain ⟨sx, e1, hr, h⟩ := allocBuf_allPinned io
      (({ s with disk := (io.allocatePage s.disk file).2 }).emit (Event.allocatePage file))
      hn hn32 hall
    have : (allocPage io s file).2 = sx := by
      unfold allocPage
      simp only [h]
    rw [hs1, this]
    obtain ⟨d1, d2, d3, d4, d5, d6, _⟩ := e1.2.2.2.2.2 i
    exact ⟨d1, d2, d3, d4, d5, d6, hr i⟩

theorem failed_alloc_frame_table_witness :
    ((readPage memFile exFull 7 4).2.bufDescTable 1).file = (exFull.bufDescTable 1).file ∧
    ((readPage memFile exFull 7 4).2.bufDescTable 1).pageNo = (exFull.bufDescTable 1).pageNo ∧
    ((readPage memFile exFull 7 4).2.bufDescTable 1).frameNo
      = (exFull.bufDescTable 1).frameNo ∧
    ((readPage memFile exFull 7 4).2.bufDescTable 1).pinCnt = (exFull.bufDescTable 1).pinCnt ∧
    ((readPage memFile exFull 7 4).2.bufDescTable 1).dirty = (exFull.bufDescTable 1).dirty ∧
    ((readPage memFile exFull 7 4).2.bufDescTable 1).valid = (exFull.bufDescTable 1).valid ∧
    (1 < exFull.numBufs → ((readPage memFile exFull 7 4).2.bufDescTable 1).refbit = false) :=
  failed_alloc_frame_table memFile exFull (by decide) (by decide) (by decide) 7 4 (by decide)
    (readPage memFile exFull 7 4).2 (Or.inl rfl) 1

/-! ## Claims about readPage and unPinPage -/

/-- C6: in a well-formed state, for a page (file, pageNo) that is not in the
directory, if allocBuf returns frame f and the file then delivers the page pg
for pageNo, readPage returns the slot of frame f; afterwards the directory
maps (file, pageNo) to f, the descriptor of f holds that file and page
number, is valid, has pin count 1, reference bit set and dirty bit clear, and
slot f holds pg. -/
theorem readPage_miss (io : FileOps σ) (s : BufMgr σ) (hwf : WellFormed s)
    (file : FileId) (pageNo : PageId) (hmiss : hashLookup s.hashTable file pageNo = none)
    (f : FrameId) (hok : (allocBuf io s).1 = Res.ok f) (pg : Page)
    (hread : io.readPage (allocBuf io s).2.disk file pageNo = some pg) :
    (readPage io s file pageNo).1 = Res.ok f ∧
    hashLookup (readPage io s file pageNo).2.hashTable file pageNo = some f ∧
    ((readPage io s file pageNo).2.bufDescTable f).file = some file ∧
    ((readPage io s file pageNo).2.bufDescTable f).pageNo = pageNo ∧
    ((readPage io s file pageNo).2.bufDescTable f).valid = true ∧
    ((readPage io s file pageNo).2.bufDescTable f).pinCnt = 1 ∧
    ((readPage io s file pageNo).2.bufDescTable f).refbit = true ∧
    ((readPage io s file pageNo).2.bufDescTable f).dirty = false ∧
    (readPage io s file pageNo).2.bufPool f = pg := by
  have hl := allocBuf_hashLookup_none io s hwf file pageNo hmiss
  have hpair : allocBuf io s = (Res.ok f, (allocBuf io s).2) := by
    rw [← hok]
  have key := readPage_miss_eq io s (allocBuf io s).2 file pageNo f pg hmiss hpair hl hread
  rw [key]
  simp [setDesc, setPool, emit, BufDesc.Set, hashLookup_cons]

theorem readPage_miss_witness :
    (readPage memFile exEvict 7 3).1 = Res.ok 1 ∧
    hashLookup (readPage memFile exEvict 7 3).2.hashTable 7 3 = some 1 ∧
    ((readPage memFile exEvict 7 3).2.bufDescTable 1).file = some 7 ∧
    ((readPage memFile exEvict 7 3).2.bufDescTable 1).pageNo = 3 ∧
    ((readPage memFile exEvict 7 3).2.bufDescTable 1).valid = true ∧
    ((readPage memFile exEvict 7 3).2.bufDescTable 1).pinCnt = 1 ∧
    ((readPage memFile exEvict 7 3).2.bufDescTable 1).refbit = true ∧
    ((readPage memFile exEvict 7 3).2.bufDescTable 1).dirty = false ∧
    (readPage memFile exEvict 7 3).2.bufPool 1 = { page_number := 3, data := [13] } :=
  readPage_miss memFile exEvict (by decide) 7 3 (by decide) 1 (by decide)
    { page_number := 3, data := [13] } (by decide)

/-- C7: when the directory maps (file, pageNo) to frame f, readPage returns
the slot of frame f, raises the pin count of f by one and sets its reference
bit; it makes no call to a file (log and store unchanged), does not move the
clock hand, and leaves the directory, the other fields of f, every other
descriptor and the whole pool unchanged.  A second readPage of the same page
returns the same frame, with the pin count raised by two in total. -/
theorem readPage_hit (io : FileOps σ) (s : BufMgr σ) (file : FileId) (pageNo : PageId)
    (f : FrameId) (hhit : hashLookup s.hashTable file pageNo = some f) :
    (readPage io s file pageNo).1 = Res.ok f ∧
    ((readPage io s file pageNo).2.bufDescTable f).pinCnt = (s.bufDescTable f).pinCnt + 1 ∧
    ((readPage io s file pageNo).2.bufDescTable f).refbit = true ∧
    ((readPage io s file pageNo).2.bufDescTable f).file = (s.bufDescTable f).file ∧
    ((readPage io s file pageNo).2.bufDescTable f).pageNo = (s.bufDescTable f).pageNo ∧
    ((readPage io s file pageNo).2.bufDescTable f).frameNo = (s.bufDescTable f).frameNo ∧
    ((readPage io s file pageNo).2.bufDescTable f).dirty = (s.bufDescTable f).dirty ∧
    ((readPage io s file pageNo).2.bufDescTable f).valid = (s.bufDescTable f).valid ∧
    (readPage io s file pageNo).2.log = s.log ∧
    (readPage io s file pageNo).2.disk = s.disk ∧
    (readPage io s file pageNo).2.clockHand = s.clockHand ∧
    (readPage io s file pageNo).2.hashTable = s.hashTable ∧
    (readPage io s file pageNo).2.numBufs = s.numBufs ∧
    (∀ j, j ≠ f → (readPage io s file pageNo).2.bufDescTable j = s.bufDescTable j) ∧
    (readPage io s file pageNo).2.bufPool = s.bufPool ∧
    (readPage io (readPage io s file pageNo).2 file pageNo).1 = Res.ok f ∧
    ((readPage io (readPage io s file pageNo).2 file pageNo).2.bufDescTable f).pinCnt
      = (s.bufDescTable f).pinCnt + 2 := by
  have key : ∀ t : BufMgr σ, hashLookup t.hashTable file pageNo = some f →
      readPage io t file pageNo = (Res.ok f, t.setDesc f
        { t.bufDescTable f with refbit := true, pinCnt := (t.bufDescTable f).pinCnt + 1 }) := by
    intro t ht
    unfold readPage
    rw [ht]
  rw [key s hhit, key _ (show hashLookup (s.setDesc f _).hashTable file pageNo = some f from hhit)]
  refine ⟨rfl, ?_, ?_, ?_, ?_, ?_, ?_, ?_, rfl, rfl, rfl, rfl, rfl, ?_, rfl, rfl, ?_⟩
  any_goals simp [setDesc]
  intro j hj
  exact Function.update_noteq hj _ _

theorem readPage_hit_witness :
    (readPage memFile exEvict 7 2).1 = Res.ok 1 ∧
    ((readPage memFile exEvict 7 2).2.bufDescTable 1).pinCnt = (exEvict.bufDescTable 1).pinCnt + 1 ∧
    ((readPage memFile exEvict 7 2).2.bufDescTable 1).refbit = true ∧
    ((readPage memFile exEvict 7 2).2.bufDescTable 1).file = (exEvict.bufDescTable 1).file ∧
    ((readPage memFile exEvict 7 2).2.bufDescTable 1).pageNo = (exEvict.bufDescTable 1).pageNo ∧
    ((readPage memFile exEvict 7 2).2.bufDescTable 1).frameNo
      = (exEvict.bufDescTable 1).frameNo ∧
    ((readPage memFile exEvict 7 2).2.bufDescTable 1).dirty = (exEvict.bufDescTable 1).dirty ∧
    ((readPage memFile exEvict 7 2).2.bufDescTable 1).valid = (exEvict.bufDescTable 1).valid ∧
    (readPage memFile exEvict 7 2).2.log = exEvict.log ∧
    (readPage memFile exEvict 7 2).2.disk = exEvict.disk ∧
    (readPage memFile exEvict 7 2).2.clockHand = exEvict.clockHand ∧
    (readPage memFile exEvict 7 2).2.hashTable = exEvict.hashTable ∧
    (readPage memFile exEvict 7 2).2.numBufs = exEvict.numBufs ∧
    (∀ j, j ≠ 1 → (readPage memFile exEvict 7 2).2.bufDescTable j = exEvict.bufDescTable j) ∧
    (readPage memFile exEvict 7 2).2.bufPool = exEvict.bufPool ∧
    (readPage memFile (readPage memFile exEvict 7 2).2 7 2).1 = Res.ok 1 ∧
    ((readPage memFile (readPage memFile exEvict 7 2).2 7 2).2.bufDescTable 1).pinCnt
      = (exEvict.bufDescTable 1).pinCnt + 2 :=
  readPage_hit memFile exEvict 7 2 1 (by decide)

/-- C8: unPinPage throws if and only if (file, pageNo) is in the directory
with a frame whose pin count is 0, and then it throws PageNotPinnedException;
in that case, and when (file, pageNo) is not in the directory (the call then
returns normally), the state after the call is the state before it:
descriptors, directory, pool, clock hand, file store and log of calls, for
either value of the dirty flag. -/
theorem unPinPage_failure (s : BufMgr σ) (file : FileId) (pageNo : PageId) (dirty : Bool) :
    ((∃ e, (unPinPage s file pageNo dirty).1 = Res.throw e) ↔
      ∃ f, hashLookup s.hashTable file pageNo = some f ∧ (s.bufDescTable f).pinCnt = 0) ∧
    (∀ f, hashLookup s.hashTable file pageNo = some f → (s.bufDescTable f).pinCnt = 0 →
      unPinPage s file pageNo dirty
        = (Res.throw (Err.PageNotPinnedException file pageNo f), s)) ∧
    (hashLookup s.hashTable file pageNo = none →
      unPinPage s file pageNo dirty = (Res.ok (), s)) := by
  refine ⟨?_, ?_, ?_⟩
  · unfold unPinPage
    cases hl : hashLookup s.hashTable file pageNo with
    | none => simp
    | some f =>
      by_cases hp : (s.bufDescTable f).pinCnt = 0
      · simp [hp]
      · cases dirty <;> simp [hp]
  · intro f hl hp
    unfold unPinPage
    rw [hl]
    simp [hp]
  · intro hl
    unfold unPinPage
    rw [hl]

/-- C9: for a page (file, pageNo) that the directory maps to a frame f with a
positive pin count n, unPinPage returns normally and leaves f with pin count
n - 1 and dirty bit (old dirty or markDirty); valid bit, reference bit, file,
page number of f, every other descriptor, the directory, the pool, the clock
hand, the file store and the log of calls are unchanged. -/
theorem unPinPage_sticky_dirty (s : BufMgr σ) (file : FileId) (pageNo : PageId)
    (markDirty : Bool) (f : FrameId) (hhit : hashLookup s.hashTable file pageNo = some f)
    (hpin : 0 < (s.bufDescTable f).pinCnt) :
    (unPinPage s file pageNo markDirty).1 = Res.ok () ∧
    ((unPinPage s file pageNo markDirty).2.bufDescTable f).pinCnt
      = (s.bufDescTable f).pinCnt - 1 ∧
    ((unPinPage s file pageNo markDirty).2.bufDescTable f).dirty
      = ((s.bufDescTable f).dirty || markDirty) ∧
    ((unPinPage s file pageNo markDirty).2.bufDescTable f).valid = (s.bufDescTable f).valid ∧
    ((unPinPage s file pageNo markDirty).2.bufDescTable f).refbit = (s.bufDescTable f).refbit ∧
    ((unPinPage s file pageNo markDirty).2.bufDescTable f).file = (s.bufDescTable f).file ∧
    ((unPinPage s file pageNo markDirty).2.bufDescTable f).pageNo = (s.bufDescTable f).pageNo ∧
    ((unPinPage s file pageNo markDirty).2.bufDescTable f).frameNo
      = (s.bufDescTable f).frameNo ∧
    (∀ j, j ≠ f → (unPinPage s file pageNo markDirty).2.bufDescTable j = s.bufDescTable j) ∧
    (unPinPage s file pageNo markDirty).2.hashTable = s.hashTable ∧
    (unPinPage s file pageNo markDirty).2.bufPool = s.bufPool ∧
    (unPinPage s file pageNo markDirty).2.clockHand = s.clockHand ∧
    (unPinPage s file pageNo markDirty).2.numBufs = s.numBufs ∧
    (unPinPage s file pageNo markDirty).2.disk = s.disk ∧
    (unPinPage s file pageNo markDirty).2.log = s.log := by
  have hp : ¬ (s.bufDescTable f).pinCnt = 0 := by omega
  cases markDirty with
  | false =>
    have key : unPinPage s file pageNo false = (Res.ok (), s.setDesc f
        { s.bufDescTable f with pinCnt := (s.bufDescTable f).pinCnt - 1 }) := by
      unfold unPinPage
      rw [hhit]
      simp [hp]
    rw [key]
    refine ⟨rfl, ?_, ?_, ?_, ?_, ?_, ?_, ?_, ?_, rfl, rfl, rfl, rfl, rfl, rfl⟩
    any_goals simp [setDesc]
    intro j hj
    exact Function.update_noteq hj _ _
  | true =>
    have key : unPinPage s file pageNo true = (Res.ok (), s.setDesc f
        { s.bufDescTable f with pinCnt := (s.bufDescTable f).pinCnt - 1, dirty := true }) := by
      unfold unPinPage
      rw [hhit]
      simp [hp, setDesc]
    rw [key]
    refine ⟨rfl, ?_, ?_, ?_, ?_, ?_, ?_, ?_, ?_, rfl, rfl, rfl, rfl, rfl, rfl⟩
    any_goals simp [setDesc]
    intro j hj
    exact Function.update_noteq hj _ _

theorem unPinPage_sticky_dirty_witness :
    ((unPinPage exPinnedDirty 7 2 false).2.bufDescTable 1).pinCnt
      = (exPinnedDirty.bufDescTable 1).pinCnt - 1 ∧
    ((unPinPage exPinnedDirty 7 2 false).2.bufDescTable 1).dirty
      = ((exPinnedDirty.bufDescTable 1).dirty || false) ∧
    (exPinnedDirty.bufDescTable 1).dirty = true :=
  ⟨(unPinPage_sticky_dirty exPinnedDirty 7 2 false 1 (by decide) (by decide)).2.1,
   (unPinPage_sticky_dirty exPinnedDirty 7 2 false 1 (by decide) (by decide)).2.2.1,
   by decide⟩

/-! ## The eviction scenario -/

/-- C10: for every capacity n ≥ 1 and every k < n, on a freshly constructed
manager readPage of n distinct pages p 0, ..., p (n - 1) of file A puts page
p i in frame i with pin count 1; after unPinPage of (A, p k), with either
dirty flag, readPage of a further page q that is not resident returns frame k:
page p k is evicted, the directory has no entry for (A, p k) any more, frame
k holds (A, q) with pin count 1, and every other frame still holds its page
with pin count 1. -/
theorem eviction_scenario (io : FileOps σ) (d : σ) (n k : Nat) (A : FileId)
    (p : Nat → PageId) (pg : Nat → Page) (q : PageId) (pgq : Page) (markDirty : Bool)
    (hn : 0 < n) (hn32 : n < 4294967296) (hk : k < n)
    (hinj : ∀ i, i < n → ∀ j, j < n → p i = p j → i = j)
    (hq : ∀ i, i < n → p i ≠ q)
    (hp : ∀ i, i < n → io.readPage d A (p i) = some (pg i))
    (hqr : io.readPage (if markDirty = true then io.writePage d A (pg k) else d) A q = some pgq)
    (sN sU sF : BufMgr σ) (hN : sN = readPages io (construct n d) A p n)
    (hU : sU = (unPinPage sN A (p k) markDirty).2) (hF : sF = (readPage io sU A q).2) :
    (∀ i, i < n → (readPage io (readPages io (construct n d) A p i) A (p i)).1 = Res.ok i) ∧
    (∀ i, i < n → (sN.bufDescTable i).file = some A ∧ (sN.bufDescTable i).pageNo = p i ∧
      (sN.bufDescTable i).valid = true ∧ (sN.bufDescTable i).pinCnt = 1 ∧
      hashLookup sN.hashTable A (p i) = some i) ∧
    (unPinPage sN A (p k) markDirty).1 = Res.ok () ∧
    (readPage io sU A q).1 = Res.ok k ∧
    hashLookup sF.hashTable A (p k) = none ∧
    hashLookup sF.hashTable A q = some k ∧
    (sF.bufDescTable k).file = some A ∧ (sF.bufDescTable k).pageNo = q ∧
    (sF.bufDescTable k).valid = true ∧ (sF.bufDescTable k).pinCnt = 1 ∧
    (∀ i, i < n → i ≠ k → (sF.bufDescTable i).file = some A ∧
      (sF.bufDescTable i).pageNo = p i ∧ (sF.bufDescTable i).valid = true ∧
      (sF.bufDescTable i).pinCnt = 1 ∧ hashLookup sF.hashTable A (p i) = some i) := by
  have hload := loaded_readPages io n A p pg d hn hn32 hinj hp
  have hL : Loaded n A p pg d n sN := hN ▸ (hload n (Nat.le_refl n)).1
  obtain ⟨u1, uwf, unum, uend, udisk, uht, upool, udesc, udirty⟩ :=
    loaded_unpin n A p pg d k markDirty sN hL hn hn32 hk
  rw [← hU] at uwf unum uend udisk uht upool udesc udirty
  -- the eviction of frame k
  obtain ⟨sx, e1, e2, halloc⟩ := allocBuf_second_sweep io sU k uwf (by rw [unum]; exact uend)
    (by rw [unum]; exact hk)
    (fun i hi => ⟨(udesc i (unum ▸ hi)).2.2.1, (udesc i (unum ▸ hi)).2.2.2.1⟩)
    (fun i hi => by
      rw [(udesc i (by omega)).2.2.2.2.1, if_neg (by omega)]
      exact Nat.one_ne_zero)
    (by rw [(udesc k hk).2.2.2.2.1, if_pos rfl])
  obtain ⟨xn, xp, xh, xdisk, _, xd⟩ := e1
  have hwx : WellFormed sx :=
    wellFormed_of_scanEq uwf ⟨xn, xp, xh, xdisk, by assumption, xd⟩
      (by rw [e2, xn, unum]; exact hk)
  have hv : (sx.bufDescTable sx.clockHand).valid = true := by
    rw [e2, (xd k).2.2.2.2.2.1]
    exact (udesc k hk).2.2.1
  obtain ⟨f, hf, _, _, _, _, vpool, vht, vdisk, _, vd, _⟩ := evictVictim_wellFormed io sx hwx hv
  rw [e2] at hf vht vdisk vd
  have hfA : f = A := by
    rw [(xd k).1, (udesc k hk).1] at hf
    exact (Option.some.inj hf).symm
  subst hfA
  rw [(xd k).2.1, (udesc k hk).2.1] at vht
  rw [(xd k).2.2.2.2.1, udirty, xdisk, udisk, xp, upool] at vdisk
  -- the page q is not resident
  have hmissq : hashLookup sU.hashTable f q = none := by
    cases h : hashLookup sU.hashTable f q with
    | none => rfl
    | some j =>
      rw [uht] at h
      obtain ⟨i, hi, he⟩ := hL.2.2.2.2.2.2 _ (hashLookup_mem h)
      exact absurd (Prod.mk.inj (Prod.mk.inj he).1).2.symm (hq i hi)
  have hl := allocBuf_hashLookup_none io sU uwf f q hmissq
  rw [halloc] at hl
  have key := readPage_miss_eq io sU _ f q k pgq hmissq halloc hl (by
    show io.readPage (evictVictim io sx).2.disk f q = some pgq
    rw [vdisk]; exact hqr)
  rw [key] at hF
  have hFht : sF.hashTable = ((f, q), k) :: (evictVictim io sx).2.hashTable := by
    rw [hF]; rfl
  have hFk : sF.bufDescTable k
      = ((((evictVictim io sx).2.bufDescTable k).Clear).Set f q) := by
    rw [hF]
    simp [setDesc, setPool, emit]
  have hFi : ∀ i, i ≠ k → sF.bufDescTable i = sx.bufDescTable i := by
    intro i hi
    rw [hF]
    simp only [setDesc, setPool, emit, Function.update_noteq hi]
    exact vd i hi
  refine ⟨fun i hi => (hload i (Nat.le_of_lt hi)).2 hi, ?_, u1, by rw [key], ?_, ?_, ?_, ?_,
    ?_, ?_, ?_⟩
  · intro i hi
    obtain ⟨a1, _, a3⟩ := hL.2.2.2.2.1 i hi
    rw [a1]
    exact ⟨rfl, rfl, rfl, rfl, a3⟩
  · rw [hFht, hashLookup_cons, if_neg (by
      intro h
      exact hq k hk (Prod.mk.inj h).2.symm), vht]
    exact hashLookup_filter_self _ _ _
  · rw [hFht, hashLookup_cons, if_pos rfl]
  · rw [hFk]; rfl
  · rw [hFk]; rfl
  · rw [hFk]; rfl
  · rw [hFk]; rfl
  · intro i hi hik
    obtain ⟨b1, b2, b3, _, b5, b6⟩ := udesc i hi
    obtain ⟨d1, d2, _, d4, _, d6, _⟩ := xd i
    rw [hFi i hik, d1, d2, d4, d6, b5, if_neg hik]
    refine ⟨b1, b2, b3, rfl, ?_⟩
    rw [hFht, hashLookup_cons, if_neg (by
      intro h
      exact hq i hi (Prod.mk.inj h).2.symm), vht, hashLookup_filter_ne _ _ _ _ _ (by
      intro h
      exact hik (hinj i hi k hk (Prod.mk.inj h).2)), xh, uht]
    exact b6

theorem eviction_scenario_witness :
    (∀ i, i < 3 → (readPage memFile (readPages memFile (construct 3 exDisk) 7
      (fun i => i + 1) i) 7 (i + 1)).1 = Res.ok i) ∧
    (∀ i, i < 3 →
      ((readPages memFile (construct 3 exDisk) 7 (fun i => i + 1) 3).bufDescTable i).file
        = some 7 ∧
      ((readPages memFile (construct 3 exDisk) 7 (fun i => i + 1) 3).bufDescTable i).pageNo
        = i + 1 ∧
      ((readPages memFile (construct 3 exDisk) 7 (fun i => i + 1) 3).bufDescTable i).valid
        = true ∧
      ((readPages memFile (construct 3 exDisk) 7 (fun i => i + 1) 3).bufDescTable i).pinCnt
        = 1 ∧
      hashLookup (readPages memFile (construct 3 exDisk) 7 (fun i => i + 1) 3).hashTable 7
        (i + 1) = some i) ∧
    (unPinPage (readPages memFile (construct 3 exDisk) 7 (fun i => i + 1) 3) 7 1 false).1
      = Res.ok () ∧
    (readPage memFile exScenario 7 4).1 = Res.ok 0 ∧
    hashLookup (readPage memFile exScenario 7 4).2.hashTable 7 1 = none ∧
    hashLookup (readPage memFile exScenario 7 4).2.hashTable 7 4 = some 0 ∧
    ((readPage memFile exScenario 7 4).2.bufDescTable 0).file = some 7 ∧
    ((readPage memFile exScenario 7 4).2.bufDescTable 0).pageNo = 4 ∧
    ((readPage memFile exScenario 7 4).2.bufDescTable 0).valid = true ∧
    ((readPage memFile exScenario 7 4).2.bufDescTable 0).pinCnt = 1 ∧
    (∀ i, i < 3 → i ≠ 0 → ((readPage memFile exScenario 7 4).2.bufDescTable i).file = some 7 ∧
      ((readPage memFile exScenario 7 4).2.bufDescTable i).pageNo = i + 1 ∧
      ((readPage memFile exScenario 7 4).2.bufDescTable i).valid = true ∧
      ((readPage memFile exScenario 7 4).2.bufDescTable i).pinCnt = 1 ∧
      hashLookup (readPage memFile exScenario 7 4).2.hashTable 7 (i + 1) = some i) :=
  eviction_scenario memFile exDisk 3 0 7 (fun i => i + 1)
    (fun i => { page_number := i + 1, data := [i + 11] }) 4 { page_number := 4, data := [14] }
    false (by decide) (by decide) (by decide) (by decide) (by decide) (by decide) (by decide)
    (readPages memFile (construct 3 exDisk) 7 (fun i => i + 1) 3) exScenario
    (readPage memFile exScenario 7 4).2 rfl rfl rfl

/-! ## disposePage and the destructor -/

theorem writesOf_append (l l' : List Event) : writesOf (l ++ l') = writesOf l ++ writesOf l' := by
  simp [writesOf, List.filterMap_append]

/-- C13: disposePage returns normally.  If the page is resident in frame f,
the directory has no entry for it afterwards and f is free (not valid, pin
count 0, not dirty) whatever its pin count and dirty bit were, the other
descriptors are unchanged, and the calls made are the removal of the directory
entry and one deletePage.  If the page is not resident, the frame table and
the directory are unchanged and the only call is one deletePage.  In both
cases no writePage is issued and the pool is unchanged. -/
theorem disposePage_effect (io : FileOps σ) (s : BufMgr σ) (file : FileId) (pageNo : PageId) :
    (disposePage io s file pageNo).1 = Res.ok () ∧
    (∀ f, hashLookup s.hashTable file pageNo = some f →
      hashLookup (disposePage io s file pageNo).2.hashTable file pageNo = none ∧
      ((disposePage io s file pageNo).2.bufDescTable f).valid = false ∧
      ((disposePage io s file pageNo).2.bufDescTable f).pinCnt = 0 ∧
      ((disposePage io s file pageNo).2.bufDescTable f).dirty = false ∧
      (∀ j, j ≠ f → (disposePage io s file pageNo).2.bufDescTable j = s.bufDescTable j) ∧
      (disposePage io s file pageNo).2.log
        = s.log ++ [Event.hashRemove file pageNo, Event.deletePage file pageNo]) ∧
    (hashLookup s.hashTable file pageNo = none →
      (disposePage io s file pageNo).2.bufDescTable = s.bufDescTable ∧
      (disposePage io s file pageNo).2.hashTable = s.hashTable ∧
      (disposePage io s file pageNo).2.log = s.log ++ [Event.deletePage file pageNo]) ∧
    writesOf (disposePage io s file pageNo).2.log = writesOf s.log ∧
    (disposePage io s file pageNo).2.disk = io.deletePage s.disk file pageNo ∧
    (disposePage io s file pageNo).2.bufPool = s.bufPool ∧
    (disposePage io s file pageNo).2.numBufs = s.numBufs ∧
    (disposePage io s file pageNo).2.clockHand = s.clockHand := by
  cases hl : hashLookup s.hashTable file pageNo with
  | none =>
    have key : disposePage io s file pageNo = (Res.ok (),
        ({ s with disk := io.deletePage s.disk file pageNo }).emit
          (Event.deletePage file pageNo)) := by
      unfold disposePage
      simp only [hl]
    rw [key]
    refine ⟨rfl, ?_, ?_, ?_, rfl, rfl, rfl, rfl⟩
    · intro f hf
      exact Option.noConfusion hf
    · intro _
      exact ⟨rfl, rfl, rfl⟩
    · simp [emit, writesOf_append, writesOf]
  | some g =>
    have key : disposePage io s file pageNo = (Res.ok (),
        ({ ((({ s with hashTable := (s.hashTable.filter
              (fun e => !decide (e.1 = (file, pageNo)))) }).emit
            (Event.hashRemove file pageNo)).setDesc g (s.bufDescTable g).Clear) with
          disk := io.deletePage s.disk file pageNo }).emit (Event.deletePage file pageNo)) := by
      unfold disposePage
      simp only [hl, hashRemove]
      rfl
    rw [key]
    refine ⟨rfl, ?_, ?_, ?_, rfl, rfl, rfl, rfl⟩
    · intro f hf
      have hfg : g = f := Option.some.inj hf
      subst hfg
      refine ⟨hashLookup_filter_self _ _ _, ?_, ?_, ?_, ?_, ?_⟩
      · simp [setDesc, emit, BufDesc.Clear]
      · simp [setDesc, emit, BufDesc.Clear]
      · simp [setDesc, emit, BufDesc.Clear]
      · intro j hj
        simp [setDesc, emit, Function.update_noteq hj]
      · simp [setDesc, emit]
    · intro h
      exact Option.noConfusion h
    · simp [setDesc, emit, writesOf_append, writesOf]

/-- Selecting with a test and a partial map that is defined wherever the test
holds yields as many elements as the test selects. -/
theorem filterMap_if_length {α β : Type} (p : α → Bool) (g : α → Option β) :
    ∀ l : List α, (∀ a ∈ l, p a = true → g a ≠ none) →
      (l.filterMap (fun a => if p a = true then g a else none)).length
        = (l.filter p).length := by
  intro l
  induction l with
  | nil => intro _; rfl
  | cons a l ih =>
    intro h
    have ihl := ih (fun b hb => h b (List.mem_cons_of_mem a hb))
    cases hp : p a with
    | false =>
      rw [List.filterMap_cons, List.filter_cons_of_neg (by rw [hp]; simp)]
      simp only [hp, Bool.false_eq_true, if_false]
      exact ihl
    | true =>
      rw [List.filterMap_cons, List.filter_cons_of_pos hp]
      cases hg : g a with
      | none => exact absurd hg (h a (List.mem_cons_self a l) hp)
      | some b =>
        simp only [hp, if_true, hg, List.length_cons]
        rw [ihl]

/-- The destructor loop over the frames i, ..., i + k - 1, each dirty valid one
of which names a file: the loop runs to its end and writes the slots of these
frames in ascending order. -/
theorem destructLoop_writes (io : FileOps σ) :
    ∀ (k i : Nat) (s : BufMgr σ),
      (∀ j, i ≤ j → j < i + k → (s.bufDescTable j).dirty = true →
        (s.bufDescTable j).valid = true → (s.bufDescTable j).file ≠ none) →
      (destructLoop io k i s).1 = Res.ok () ∧
      writesOf (destructLoop io k i s).2.log = writesOf s.log ++
        (List.range' i k).filterMap (fun j =>
          if ((s.bufDescTable j).dirty && (s.bufDescTable j).valid) = true
          then (s.bufDescTable j).file.map (fun f => (f, s.bufPool j)) else none) ∧
      (destructLoop io k i s).2.disk = applyWrites io s.disk
        ((List.range' i k).filterMap (fun j =>
          if ((s.bufDescTable j).dirty && (s.bufDescTable j).valid) = true
          then (s.bufDescTable j).file.map (fun f => (f, s.bufPool j)) else none)) := by
  intro k
  induction k with
  | zero =>
    intro i s _
    simp [destructLoop, applyWrites]
  | succ k ih =>
    intro i s hown
    have hcongr : ∀ (d : BufDesc) (s1 : BufMgr σ), s1.bufPool = s.bufPool →
        s1.bufDescTable = Function.update s.bufDescTable i d →
        (List.range' (i + 1) k).filterMap (fun j =>
          if ((s1.bufDescTable j).dirty && (s1.bufDescTable j).valid) = true
          then (s1.bufDescTable j).file.map (fun f => (f, s1.bufPool j)) else none)
        = (List.range' (i + 1) k).filterMap (fun j =>
          if ((s.bufDescTable j).dirty && (s.bufDescTable j).valid) = true
          then (s.bufDescTable j).file.map (fun f => (f, s.bufPool j)) else none) := by
      intro d s1 hp hd
      apply List.filterMap_congr
      intro j hj
      have h1 : i + 1 ≤ j := (List.mem_range'_1.mp hj).1
      have hji : j ≠ i := by
        intro h
        rw [h] at h1
        exact absurd h1 (Nat.not_succ_le_self i)
      rw [hp, hd, Function.update_noteq hji]
    rw [List.range'_succ, List.filterMap_cons, destructLoop]
    by_cases hdv : ((s.bufDescTable i).dirty && (s.bufDescTable i).valid) = true
    · cases hf : (s.bufDescTable i).file with
      | some f =>
        simp only [hdv, if_true, hf, Option.map_some']
        have hnext : ∀ j, i + 1 ≤ j → j < i + 1 + k →
            (((({ s with disk := io.writePage s.disk f (s.bufPool i) }).emit
              (Event.writePage f (s.bufPool i))).setDesc i
                (s.bufDescTable i).Clear).bufDescTable j).dirty = true →
            (((({ s with disk := io.writePage s.disk f (s.bufPool i) }).emit
              (Event.writePage f (s.bufPool i))).setDesc i
                (s.bufDescTable i).Clear).bufDescTable j).valid = true →
            (((({ s with disk := io.writePage s.disk f (s.bufPool i) }).emit
              (Event.writePage f (s.bufPool i))).setDesc i
                (s.bufDescTable i).Clear).bufDescTable j).file ≠ none := by
          intro j h1 h2
          have hji : j ≠ i := by
            intro h
            rw [h] at h1
            exact absurd h1 (Nat.not_succ_le_self i)
          have hsame : Function.update s.bufDescTable i (s.bufDescTable i).Clear j
              = s.bufDescTable j := Function.update_noteq hji _ _
          show (Function.update s.bufDescTable i (s.bufDescTable i).Clear j).dirty = true →
            (Function.update s.bufDescTable i (s.bufDescTable i).Clear j).valid = true →
            (Function.update s.bufDescTable i (s.bufDescTable i).Clear j).file ≠ none
          rw [hsame]
          exact hown j (Nat.le_of_succ_le h1) (by omega)
        obtain ⟨h0, h1, h2⟩ := ih (i + 1)
          ((({ s with disk := io.writePage s.disk f (s.bufPool i) }).emit
            (Event.writePage f (s.bufPool i))).setDesc i (s.bufDescTable i).Clear) hnext
        have hc := hcongr (s.bufDescTable i).Clear
          ((({ s with disk := io.writePage s.disk f (s.bufPool i) }).emit
            (Event.writePage f (s.bufPool i))).setDesc i (s.bufDescTable i).Clear) rfl rfl
        rw [hc] at h1 h2
        rw [h1, h2]
        refine ⟨h0, ?_, ?_⟩
        · simp [setDesc, emit, writesOf_append, writesOf]
        · simp [setDesc, emit, applyWrites]
      | none =>
        have hb := Bool.and_eq_true_iff.mp hdv
        exact absurd hf (hown i (Nat.le_refl i) (by omega) hb.1 hb.2)
    · simp only [hdv, if_false, Bool.false_eq_true]
      exact ih (i + 1) s (fun j h1 h2 => hown j (Nat.le_of_succ_le h1) (by omega))

/-- C14: for every manager state in which each frame that is valid and dirty
names a file, the destructor raises no error and issues, in ascending frame
order, exactly one writePage for each frame of the table that is both valid
and dirty, whatever its pin count, to the file of the frame and with the
contents of its slot, and no other writePage: the writes are as many as the
valid dirty frames, and the file store is the result of these writes. -/
theorem destruct_writes (io : FileOps σ) (s : BufMgr σ)
    (hown : ∀ j, j < s.numBufs → (s.bufDescTable j).dirty = true →
      (s.bufDescTable j).valid = true → (s.bufDescTable j).file ≠ none) :
    (destruct io s).1 = Res.ok () ∧
    writesOf (destruct io s).2.log = writesOf s.log ++
      (List.range s.numBufs).filterMap (fun j =>
        if ((s.bufDescTable j).dirty && (s.bufDescTable j).valid) = true
        then (s.bufDescTable j).file.map (fun f => (f, s.bufPool j)) else none) ∧
    (destruct io s).2.disk = applyWrites io s.disk
      ((List.range s.numBufs).filterMap (fun j =>
        if ((s.bufDescTable j).dirty && (s.bufDescTable j).valid) = true
        then (s.bufDescTable j).file.map (fun f => (f, s.bufPool j)) else none)) ∧
    ((List.range s.numBufs).filterMap (fun j =>
        if ((s.bufDescTable j).dirty && (s.bufDescTable j).valid) = true
        then (s.bufDescTable j).file.map (fun f => (f, s.bufPool j)) else none)).length
      = ((List.range s.numBufs).filter (fun j =>
        (s.bufDescTable j).dirty && (s.bufDescTable j).valid)).length := by
  obtain ⟨h0, h1, h2⟩ := destructLoop_writes io s.numBufs 0 s
    (fun j _ hj => hown j (by rw [Nat.zero_add] at hj; exact hj))
  rw [← List.range_eq_range'] at h1 h2
  refine ⟨h0, h1, h2, ?_⟩
  refine filterMap_if_length
    (fun j => (s.bufDescTable j).dirty && (s.bufDescTable j).valid)
    (fun j => (s.bufDescTable j).file.map (fun f => (f, s.bufPool j)))
    (List.range s.numBufs) ?_
  intro j hj hp
  have hb := Bool.and_eq_true_iff.mp hp
  have hne := hown j (List.mem_range.mp hj) hb.1 hb.2
  cases hf : (s.bufDescTable j).file with
  | none => exact absurd hf hne
  | some f =>
    show Option.map (fun f => (f, s.bufPool j)) (s.bufDescTable j).file ≠ none
    rw [hf]
    exact Option.noConfusion

/-- The hypothesis of destruct_writes holds in exPinnedDirty, where frame 1 is
dirty and pinned: the destructor writes its slot and nothing else. -/
theorem destruct_writes_witness :
    (exPinnedDirty.bufDescTable 1).pinCnt = 1 ∧
    (destruct memFile exPinnedDirty).1 = Res.ok () ∧
    writesOf (destruct memFile exPinnedDirty).2.log
      = writesOf exPinnedDirty.log ++ [(7, exPinnedDirty.bufPool 1)] :=
  have h := destruct_writes memFile exPinnedDirty (by decide)
  ⟨by decide, h.1, h.2.1.trans (by decide)⟩

/-! ## Termination and length of the scan -/

/-- More fuel does not change the outcome of a scan that left its loop. -/
theorem allocBufLoop_mono (io : FileOps σ) :
    ∀ (k : Nat) (s : BufMgr σ) (p : Nat), (allocBufLoop io k s p).1 ≠ Res.throw Err.fuel →
      ∀ j, allocBufLoop io (k + j) s p = allocBufLoop io k s p := by
  intro k
  induction k with
  | zero =>
    intro s p h
    rw [allocBufLoop_zero] at h
    exact absurd rfl h
  | succ k ih =>
    intro s p h j
    have hk : k + 1 + j = (k + j) + 1 := by omega
    rw [hk, allocBufLoop_succ, allocBufLoop_succ]
    rw [allocBufLoop_succ] at h
    by_cases hv : (s.bufDescTable s.clockHand).valid = true
    · by_cases hr : (s.bufDescTable s.clockHand).refbit = true
      · simp only [if_pos hv, if_pos hr] at h ⊢
        exact ih _ _ h j
      · by_cases hp : (s.bufDescTable s.clockHand).pinCnt ≠ 0
        · by_cases hfull : p + 1 = s.numBufs
          · simp only [if_pos hv, if_neg hr, if_pos hp, if_pos hfull]
          · simp only [if_pos hv, if_neg hr, if_pos hp, if_neg hfull] at h ⊢
            exact ih _ _ h j
        · simp only [if_pos hv, if_neg hr, if_neg hp]
    · simp only [if_neg hv]

/-- With one frame that is valid, dirty, not pinned and has a null file
pointer, allocBuf selects the frame and calls writePage through the null
pointer. -/
theorem allocBuf_null_victim :
    ¬ ValidOwned exNullVictim ∧
    (allocBuf memFile exNullVictim).1 = Res.throw Err.nullFile := by
  decide

/-- C18, as stated, fails: in the well-formed state of the eviction scenario
(capacity 3, every reference bit set, frame 0 alone not pinned) the scan of
allocBuf has not left its loop after inspecting 3 frames; it needs a fourth
inspection, after which allocBuf returns frame 0. -/
theorem scan_exceeds_one_sweep :
    WellFormed exScenario ∧ exScenario.numBufs = 3 ∧
    ¬ scanWithin memFile exScenario 3 ∧ scanWithin memFile exScenario 4 ∧
    (allocBuf memFile exScenario).1 = Res.ok 0 := by
  decide

/-- C18, amended: for every well-formed state a call of allocBuf inspects at
most 2 * numBufs frames (two sweeps of the table) before it returns a frame or
fails: the scan leaves its loop within 2 * numBufs evaluations of the loop
condition, and allowing more changes nothing. -/
theorem scan_within_two_sweeps (io : FileOps σ) (s : BufMgr σ) (hwf : WellFormed s) :
    scanWithin io s (2 * s.numBufs) ∧
    ∀ m, 2 * s.numBufs ≤ m →
      allocBufLoop io m (advanceClock s) 0
        = allocBufLoop io (2 * s.numBufs) (advanceClock s) 0 := by
  have h1 : scanWithin io s (2 * s.numBufs) := by
    obtain ⟨sx, px, tx, h0, _, _, e3, e4⟩ := allocBuf_scan io s hwf.1 (Nat.le_of_lt hwf.2.1)
    unfold scanWithin
    rw [e3]
    exact e4
  refine ⟨h1, ?_⟩
  intro m hm
  obtain ⟨j, rfl⟩ : ∃ j, m = 2 * s.numBufs + j := ⟨m - 2 * s.numBufs, by omega⟩
  exact allocBufLoop_mono io _ _ _ h1 j

theorem scan_within_two_sweeps_witness :
    scanWithin memFile exScenario (2 * exScenario.numBufs) ∧
    ∀ m, 2 * exScenario.numBufs ≤ m →
      allocBufLoop memFile m (advanceClock exScenario) 0
        = allocBufLoop memFile (2 * exScenario.numBufs) (advanceClock exScenario) 0 :=
  scan_within_two_sweeps memFile exScenario (by decide)

/-! ## Eviction of a frame and the invariants -/

/-- In a well-formed state, the state in which allocBuf returns after choosing
the valid frame at the hand as victim is the eviction of that frame. -/
theorem evicted_of_victim (io : FileOps σ) (s : BufMgr σ) (hwf : WellFormed s)
    (hv : (s.bufDescTable s.clockHand).valid = true) :
    ∃ f, Evicted io s s.clockHand f ((evictVictim io s).2.setDesc s.clockHand
      ((evictVictim io s).2.bufDescTable s.clockHand).Clear) := by
  obtain ⟨f, hf, _, _, vn, vh, vp, vht, vdisk, vlog, vd, vdk⟩ := evictVictim_wellFormed io s hwf hv
  refine ⟨f, hf, vn, vh, vp, vht, vdisk, vlog, ?_, ?_⟩
  · intro j hj
    simp only [setDesc, Function.update_noteq hj]
    exact vd j hj
  · simp only [setDesc, Function.update_same, vdk]
    rfl

/-- Evicting a valid frame of a well-formed state leaves a well-formed state. -/
theorem wellFormed_evicted (io : FileOps σ) (s s' : BufMgr σ) (i : FrameId) (f : FileId)
    (hwf : WellFormed s) (hi : i < s.numBufs) (hv : (s.bufDescTable i).valid = true)
    (he : Evicted io s i f s') : WellFormed s' := by
  obtain ⟨w1, w2, w3, w4, w5, w6⟩ := hwf
  obtain ⟨hf, en, eh, _, eht, _, _, ed, edi⟩ := he
  have hli : hashLookup s.hashTable f (s.bufDescTable i).pageNo = some i := by
    have := w5 i hi hv
    rw [hf] at this
    simpa using this
  refine ⟨en ▸ w1, en ▸ w2, by rw [eh, en]; exact w3, ?_, ?_, ?_⟩
  · intro j hj hvj
    by_cases hji : j = i
    · rw [hji, edi]
      exact ⟨rfl, rfl⟩
    · rw [ed j hji] at hvj ⊢
      exact w4 j (en ▸ hj) hvj
  · intro j hj hvj
    by_cases hji : j = i
    · rw [hji, edi] at hvj
      exact Bool.noConfusion hvj
    · rw [ed j hji] at hvj ⊢
      have h5 := w5 j (en ▸ hj) hvj
      cases hg : (s.bufDescTable j).file with
      | none => rw [hg] at h5; simp at h5
      | some g =>
        rw [hg] at h5
        have hlj : hashLookup s.hashTable g (s.bufDescTable j).pageNo = some j := by
          simpa using h5
        show hashLookup s'.hashTable g (s.bufDescTable j).pageNo = some j
        rw [eht, hashLookup_filter_ne _ _ _ _ _ ?_]
        · exact hlj
        · intro hk
          obtain ⟨h1, h2⟩ := Prod.mk.inj hk
          rw [h1, h2, hli] at hlj
          exact hji (Option.some.inj hlj).symm
  · intro e he
    rw [eht] at he
    obtain ⟨hmem, hne⟩ := List.mem_filter.mp he
    obtain ⟨a1, a2, a3, a4⟩ := w6 e hmem
    have hei : e.2 ≠ i := by
      intro h
      rw [h, hf] at a3
      rw [h] at a4
      have : e.1 = (f, (s.bufDescTable i).pageNo) :=
        Prod.ext (Option.some.inj a3).symm a4.symm
      simp [this] at hne
    rw [en, ed e.2 hei]
    exact ⟨a1, a2, a3, a4⟩

/-- The outcome of allocBuf in a well-formed state, with the state it leaves:
the scan gives up, or a free frame is cleared again, or the victim at the hand
is evicted. -/
theorem allocBuf_wellFormed_outcome (io : FileOps σ) (s : BufMgr σ) (hwf : WellFormed s) :
    ∃ sx : BufMgr σ, ScanEq s sx ∧ WellFormed sx ∧
      (allocBuf io s = (Res.throw Err.BufferExceededException, sx) ∨
      ((sx.bufDescTable sx.clockHand).valid = false ∧
        allocBuf io s = (Res.ok sx.clockHand,
          sx.setDesc sx.clockHand (sx.bufDescTable sx.clockHand).Clear)) ∨
      ((sx.bufDescTable sx.clockHand).valid = true ∧
        (sx.bufDescTable sx.clockHand).pinCnt = 0 ∧
        (sx.bufDescTable sx.clockHand).refbit = false ∧
        (allocBuf io s).1 = Res.ok sx.clockHand ∧
        ∃ f, Evicted io sx sx.clockHand f (allocBuf io s).2)) := by
  obtain ⟨sx, px, tx, h0, e1, _, hwx, h⟩ := allocBuf_wellFormed_cases io s hwf
  refine ⟨sx, e1, hwx, ?_⟩
  rcases h with ⟨hv, h⟩ | ⟨_, _, _, _, h⟩ | ⟨hv, hr, hp, h⟩
  · exact Or.inr (Or.inl ⟨hv, h⟩)
  · exact Or.inl h
  · refine Or.inr (Or.inr ⟨hv, hp, hr, by rw [h], ?_⟩)
    obtain ⟨f, hf⟩ := evicted_of_victim io sx hwx hv
    exact ⟨f, by rw [h]; exact hf⟩

/-! ## A sufficient condition for allocBuf to return a frame -/

/-- An iteration that finds the hand on a free frame, or on a valid frame with
a clear reference bit and pin count 0, is the last one. -/
theorem allocBufLoop_exit_here (io : FileOps σ) (k : Nat) (s : BufMgr σ) (p : Nat)
    (h : (s.bufDescTable s.clockHand).valid = false ∨
      ((s.bufDescTable s.clockHand).valid = true ∧
        (s.bufDescTable s.clockHand).refbit = false ∧
        (s.bufDescTable s.clockHand).pinCnt = 0)) :
    allocBufLoop io (k + 1) s p = allocBufLoop io 1 s p := by
  rw [allocBufLoop_succ, allocBufLoop_succ]
  rcases h with hv | ⟨hv, hr, hp⟩
  · simp [hv]
  · simp [hv, hr, hp]

/-- A scan that started at h0 and will reach, within the first sweep, a frame
g that is free or is not pinned with a clear reference bit leaves its loop at
g or before, at a frame that is free or is evicted: the counter of pinned
visits cannot reach the capacity before. -/
theorem scan_candidate (io : FileOps σ) (h0 g : Nat) :
    ∀ (d : Nat) (s : BufMgr σ) (t p fuel : Nat), 0 < s.numBufs →
      s.numBufs ≤ 4294967296 → s.clockHand = (h0 + t) % s.numBufs →
      (h0 + (t + d)) % s.numBufs = g → t + d < s.numBufs → p ≤ t → d < fuel →
      ((s.bufDescTable g).valid = false ∨
        ((s.bufDescTable g).pinCnt = 0 ∧ (s.bufDescTable g).refbit = false)) →
      ∃ (sx : BufMgr σ) (px : Nat), ScanEq s sx ∧ sx.clockHand < sx.numBufs ∧
        allocBufLoop io fuel s p = allocBufLoop io 1 sx px ∧
        ((sx.bufDescTable sx.clockHand).valid = false ∨
          ((sx.bufDescTable sx.clockHand).valid = true ∧
            (sx.bufDescTable sx.clockHand).refbit = false ∧
            (sx.bufDescTable sx.clockHand).pinCnt = 0)) := by
  intro d
  induction d with
  | zero =>
    intro s t p fuel hn _ hhand hg _ _ hfuel hgood
    obtain ⟨k, rfl⟩ : ∃ k, fuel = k + 1 := ⟨fuel - 1, by omega⟩
    have hlt : s.clockHand < s.numBufs := by rw [hhand]; exact Nat.mod_lt _ hn
    have hgh : g = s.clockHand := by rw [hhand, ← hg]; rfl
    rw [hgh] at hgood
    have hex : (s.bufDescTable s.clockHand).valid = false ∨
        ((s.bufDescTable s.clockHand).valid = true ∧
          (s.bufDescTable s.clockHand).refbit = false ∧
          (s.bufDescTable s.clockHand).pinCnt = 0) := by
      cases hv : (s.bufDescTable s.clockHand).valid with
      | false => exact Or.inl rfl
      | true =>
        rcases hgood with h | ⟨h1, h2⟩
        · rw [hv] at h
          exact Bool.noConfusion h
        · exact Or.inr ⟨rfl, h2, h1⟩
    exact ⟨s, p, scanEq_refl s, hlt, allocBufLoop_exit_here io k s p hex, hex⟩
  | succ d ih =>
    intro s t p fuel hn hn32 hhand hg htd hpt hfuel hgood
    obtain ⟨k, rfl⟩ : ∃ k, fuel = k + 1 := ⟨fuel - 1, by omega⟩
    have hlt : s.clockHand < s.numBufs := by rw [hhand]; exact Nat.mod_lt _ hn
    have hnext : (s.clockHand + 1) % 4294967296 % s.numBufs = (h0 + (t + 1)) % s.numBufs := by
      rw [advance_hand _ _ hlt hn32, hhand, Nat.mod_add_mod]; rfl
    have hg2 : (h0 + (t + 1 + d)) % s.numBufs = g := by
      have : t + 1 + d = t + (d + 1) := by omega
      rw [this]; exact hg
    by_cases hv : (s.bufDescTable s.clockHand).valid = true
    · by_cases hr : (s.bufDescTable s.clockHand).refbit = true
      · have hne : g ≠ s.clockHand := by
          intro h
          rw [h] at hgood
          rcases hgood with h1 | ⟨_, h2⟩
          · rw [hv] at h1
            exact Bool.noConfusion h1
          · rw [hr] at h2
            exact Bool.noConfusion h2
        obtain ⟨sx, px, e1, e2, e3, e4⟩ := ih (advanceClock (s.setDesc s.clockHand
            { s.bufDescTable s.clockHand with refbit := false })) (t + 1) p k hn hn32 hnext hg2
          (by show t + 1 + d < s.numBufs; omega) (by omega) (by omega)
          (by
            show (Function.update s.bufDescTable s.clockHand _ g).valid = false ∨
              ((Function.update s.bufDescTable s.clockHand _ g).pinCnt = 0 ∧
                (Function.update s.bufDescTable s.clockHand _ g).refbit = false)
            rw [Function.update_noteq hne]
            exact hgood)
        refine ⟨sx, px, scanEq_trans (scanEq_clearRef s) e1, e2, ?_, e4⟩
        rw [allocBufLoop_succ, if_pos hv, if_pos hr]
        exact e3
      · by_cases hp : (s.bufDescTable s.clockHand).pinCnt ≠ 0
        · have hfull : ¬ p + 1 = s.numBufs := by omega
          obtain ⟨sx, px, e1, e2, e3, e4⟩ := ih (advanceClock s) (t + 1) (p + 1) k hn hn32
            hnext hg2 (by show t + 1 + d < s.numBufs; omega) (by omega) (by omega) hgood
          refine ⟨sx, px, scanEq_trans (scanEq_advance s) e1, e2, ?_, e4⟩
          rw [allocBufLoop_succ, if_pos hv, if_neg hr, if_pos hp, if_neg hfull]
          exact e3
        · have hex : (s.bufDescTable s.clockHand).valid = false ∨
              ((s.bufDescTable s.clockHand).valid = true ∧
                (s.bufDescTable s.clockHand).refbit = false ∧
                (s.bufDescTable s.clockHand).pinCnt = 0) :=
            Or.inr ⟨hv, by simpa using hr, by simpa using hp⟩
          exact ⟨s, p, scanEq_refl s, hlt, allocBufLoop_exit_here io k s p hex, hex⟩
    · have hex : (s.bufDescTable s.clockHand).valid = false ∨
          ((s.bufDescTable s.clockHand).valid = true ∧
            (s.bufDescTable s.clockHand).refbit = false ∧
            (s.bufDescTable s.clockHand).pinCnt = 0) :=
        Or.inl (by simpa using hv)
      exact ⟨s, p, scanEq_refl s, hlt, allocBufLoop_exit_here io k s p hex, hex⟩

/-- Every frame of the table is reached from the hand h0 within one sweep. -/
theorem offset_exists (h0 g n : Nat) (hh : h0 < n) (hg : g < n) :
    ∃ m, m < n ∧ (h0 + m) % n = g := by
  by_cases hle : h0 ≤ g
  · refine ⟨g - h0, by omega, ?_⟩
    have : h0 + (g - h0) = g := by omega
    rw [this, Nat.mod_eq_of_lt hg]
  · refine ⟨g + n - h0, by omega, ?_⟩
    have : h0 + (g + n - h0) = g + n := by omega
    rw [this, Nat.add_mod_right, Nat.mod_eq_of_lt hg]

/-- C20, as stated, fails for a state that is not well-formed: with one frame
that is valid, not pinned and has a clear reference bit, but whose page is not
in the directory, the condition of the claim holds and allocBuf returns no
frame. -/
theorem allocBuf_candidate_needs_wellFormed :
    0 < exOrphan.numBufs ∧ HasCandidate exOrphan ∧
    ¬ ∃ f, (allocBuf memFile exOrphan).1 = Res.ok f := by
  have h : (allocBuf memFile exOrphan).1 = Res.throw Err.HashNotFoundException := by decide
  refine ⟨by decide, by decide, ?_⟩
  rw [h]
  simp

/-- C20, amended: in every well-formed state in which at least one frame is
free or is valid with pin count 0 and a clear reference bit, allocBuf returns
a frame; the frame returned is the clock hand after the call, lies in the
table, its descriptor is in the free state and no directory entry points to
it. -/
theorem allocBuf_candidate (io : FileOps σ) (s : BufMgr σ) (hwf : WellFormed s)
    (hc : HasCandidate s) :
    ∃ f, (allocBuf io s).1 = Res.ok f ∧ f = (allocBuf io s).2.clockHand ∧ f < s.numBufs ∧
      ((allocBuf io s).2.bufDescTable f).valid = false ∧
      ((allocBuf io s).2.bufDescTable f).pinCnt = 0 ∧
      ((allocBuf io s).2.bufDescTable f).dirty = false ∧
      ((allocBuf io s).2.bufDescTable f).refbit = false ∧
      ((allocBuf io s).2.bufDescTable f).file = none ∧
      (∀ e ∈ (allocBuf io s).2.hashTable, e.2 ≠ f) := by
  obtain ⟨g, hg, hgood⟩ := hc
  have hn := hwf.1
  have hle : s.numBufs ≤ 4294967296 := Nat.le_of_lt hwf.2.1
  have hlt : (advanceClock s).clockHand < s.numBufs := Nat.mod_lt _ hn
  obtain ⟨m, hm, hmg⟩ := offset_exists (advanceClock s).clockHand g s.numBufs hlt hg
  obtain ⟨sx, px, e1, e2, e3, e4⟩ := scan_candidate io (advanceClock s).clockHand g m
    (advanceClock s) 0 0 (2 * s.numBufs) hn hle (Nat.mod_eq_of_lt hlt).symm
    (by rw [Nat.zero_add]; exact hmg) (by rw [Nat.zero_add]; exact hm) (Nat.le_refl 0)
    (by show m < 2 * s.numBufs; omega) hgood
  have b1 : ScanEq s sx := scanEq_trans (scanEq_advance s) e1
  have hwx : WellFormed sx := wellFormed_of_scanEq hwf b1 e2
  have hhn : sx.clockHand < s.numBufs := b1.1 ▸ e2
  rcases e4 with hv | ⟨hv, hr, hp⟩
  · have hall : allocBuf io s = (Res.ok sx.clockHand,
        sx.setDesc sx.clockHand (sx.bufDescTable sx.clockHand).Clear) := by
      unfold allocBuf
      rw [e3, allocBufLoop_succ]
      simp [hv]
    rw [hall]
    refine ⟨sx.clockHand, rfl, rfl, hhn, ?_, ?_, ?_, ?_, ?_, ?_⟩
    any_goals simp [setDesc, BufDesc.Clear]
    intro a b c hmem hc
    have := (hwx.2.2.2.2.2 _ hmem).2.1
    rw [hc, hv] at this
    exact Bool.noConfusion this
  · have hall : allocBuf io s = (Res.ok sx.clockHand,
        (evictVictim io sx).2.setDesc sx.clockHand
          ((evictVictim io sx).2.bufDescTable sx.clockHand).Clear) := by
      obtain ⟨f, _, _, hok, _, hc, _⟩ := evictVictim_wellFormed io sx hwx hv
      unfold allocBuf
      rw [e3, allocBufLoop_succ]
      simp only [hv, hr, hp, if_true, Bool.false_eq_true, if_false, ne_eq, not_true_eq_false]
      have : evictVictim io sx = (Res.ok (), (evictVictim io sx).2) := by
        rw [← hok]
      rw [this]
      simp only [hc]
    obtain ⟨f, hev⟩ := evicted_of_victim io sx hwx hv
    have hwf2 := wellFormed_evicted io sx _ sx.clockHand f hwx e2 hv hev
    rw [hall]
    refine ⟨sx.clockHand, rfl, ?_, hhn, ?_, ?_, ?_, ?_, ?_, ?_⟩
    · exact hev.2.2.1.symm
    any_goals simp [setDesc, BufDesc.Clear]
    intro a b c hmem hc
    have := (hwf2.2.2.2.2.2 _ hmem).2.1
    rw [hc] at this
    simp [setDesc, BufDesc.Clear] at this

theorem allocBuf_candidate_witness :
    ∃ f, (allocBuf memFile exEvict).1 = Res.ok f ∧ f = (allocBuf memFile exEvict).2.clockHand ∧
      f < exEvict.numBufs ∧
      ((allocBuf memFile exEvict).2.bufDescTable f).valid = false ∧
      ((allocBuf memFile exEvict).2.bufDescTable f).pinCnt = 0 ∧
      ((allocBuf memFile exEvict).2.bufDescTable f).dirty = false ∧
      ((allocBuf memFile exEvict).2.bufDescTable f).refbit = false ∧
      ((allocBuf memFile exEvict).2.bufDescTable f).file = none ∧
      (∀ e ∈ (allocBuf memFile exEvict).2.hashTable, e.2 ≠ f) :=
  allocBuf_candidate memFile exEvict (by decide) (by decide)

/-! ## The steps of flushFile -/

theorem flushFileLoop_skip (io : FileOps σ) (file : FileId) (k : Nat) (i : FrameId)
    (s : BufMgr σ) (hf : ¬ (s.bufDescTable i).file = some file) :
    flushFileLoop io file (k + 1) i s = flushFileLoop io file k (i + 1) s := by
  rw [flushFileLoop]
  simp only [hf, if_false]

theorem flushFileLoop_pinned (io : FileOps σ) (file : FileId) (k : Nat) (i : FrameId)
    (s : BufMgr σ) (hf : (s.bufDescTable i).file = some file)
    (hp : (s.bufDescTable i).pinCnt ≠ 0) :
    flushFileLoop io file (k + 1) i s
      = (Res.throw (Err.PagePinnedException file (s.bufDescTable i).pageNo i), s) := by
  rw [flushFileLoop]
  simp only [hf, if_true, hp, ne_eq, not_false_eq_true]

theorem flushFileLoop_bad (io : FileOps σ) (file : FileId) (k : Nat) (i : FrameId)
    (s : BufMgr σ) (hf : (s.bufDescTable i).file = some file)
    (hp : (s.bufDescTable i).pinCnt = 0) (hv : (s.bufDescTable i).valid = false) :
    flushFileLoop io file (k + 1) i s
      = (Res.throw (Err.BadBufferException i (s.bufDescTable i).dirty false
          (s.bufDescTable i).refbit), s) := by
  rw [flushFileLoop]
  simp [hf, hp, hv]

/-- An iteration of flushFile on a valid frame of the file that is not pinned,
in a well-formed state, evicts the frame and goes on. -/
theorem flushFileLoop_step (io : FileOps σ) (file : FileId) (i : FrameId)
    (s : BufMgr σ) (hwf : WellFormed s) (hi : i < s.numBufs)
    (hf : (s.bufDescTable i).file = some file) (hp : (s.bufDescTable i).pinCnt = 0)
    (hv : (s.bufDescTable i).valid = true) :
    ∃ sN : BufMgr σ, Evicted io s i file sN ∧
      ∀ k, flushFileLoop io file (k + 1) i s = flushFileLoop io file k (i + 1) sN := by
  have hl : hashLookup s.hashTable file (s.bufDescTable i).pageNo = some i := by
    have := hwf.2.2.2.2.1 i hi hv
    rw [hf] at this
    simpa using this
  cases hd : (s.bufDescTable i).dirty with
  | true =>
    refine ⟨((({ (((({ s with disk := io.writePage s.disk file (s.bufPool i) }).emit
          (Event.writePage file (s.bufPool i))).setDesc i
            { s.bufDescTable i with dirty := false })) with
          hashTable := (s.hashTable.filter
            (fun e => !decide (e.1 = (file, (s.bufDescTable i).pageNo)))) }).emit
        (Event.hashRemove file (s.bufDescTable i).pageNo)).setDesc i
          (s.bufDescTable i).Clear), ?_, ?_⟩
    · refine ⟨hf, rfl, rfl, rfl, rfl, ?_, ?_, ?_, ?_⟩
      · simp [setDesc, emit, hd]
      · simp [setDesc, emit, hd]
      · intro j hj
        simp [setDesc, emit, Function.update_noteq hj]
      · simp [setDesc, emit]
    · intro k
      rw [flushFileLoop]
      simp only [hf, hp, hv, hd, if_true, ne_eq, not_true_eq_false, if_false,
        Bool.true_eq_false]
      simp only [setDesc, emit, hashRemove, hl, Function.update_same]
      rfl
  | false =>
    refine ⟨((({ s with
          hashTable := (s.hashTable.filter
            (fun e => !decide (e.1 = (file, (s.bufDescTable i).pageNo)))) }).emit
        (Event.hashRemove file (s.bufDescTable i).pageNo)).setDesc i
          (s.bufDescTable i).Clear), ?_, ?_⟩
    · refine ⟨hf, rfl, rfl, rfl, rfl, ?_, ?_, ?_, ?_⟩
      · simp [setDesc, emit, hd]
      · simp [setDesc, emit, hd]
      · intro j hj
        simp [setDesc, emit, Function.update_noteq hj]
      · simp [setDesc, emit]
    · intro k
      rw [flushFileLoop]
      simp only [hf, hp, hv, hd, if_true, ne_eq, not_true_eq_false, if_false,
        Bool.true_eq_false, Bool.false_eq_true]
      simp only [setDesc, emit, hashRemove, hl]

/-! ## Properties kept by allocBuf and by flushFile -/

/-- A property of well-formed states that is kept by the clearing of reference
bits and the moves of the hand, by the clearing of a free frame at the hand
and by the eviction of the frame at the hand is kept by allocBuf, whatever
its outcome. -/
theorem allocBuf_preserves (io : FileOps σ) (R : BufMgr σ → Prop)
    (hRwf : ∀ s, R s → WellFormed s)
    (hscan : ∀ s sx, R s → ScanEq s sx → sx.clockHand < sx.numBufs → R sx)
    (hclear : ∀ s, R s → (s.bufDescTable s.clockHand).valid = false →
      R (s.setDesc s.clockHand (s.bufDescTable s.clockHand).Clear))
    (hevict : ∀ s s' f, R s → (s.bufDescTable s.clockHand).valid = true →
      Evicted io s s.clockHand f s' → R s')
    (s : BufMgr σ) (hR : R s) : R (allocBuf io s).2 := by
  obtain ⟨sx, e1, hwx, h⟩ := allocBuf_wellFormed_outcome io s (hRwf s hR)
  have hRx : R sx := hscan s sx hR e1 hwx.2.2.1
  rcases h with h | ⟨hv, h⟩ | ⟨hv, _, _, _, f, hev⟩
  · rw [h]; exact hRx
  · rw [h]; exact hclear sx hRx hv
  · exact hevict sx _ f hRx hv hev

/-- A property of well-formed states that is kept by the eviction of a valid
frame is kept by the loop of flushFile, whatever its outcome. -/
theorem flushFileLoop_preserves (io : FileOps σ) (file : FileId) (R : BufMgr σ → Prop)
    (hRwf : ∀ s, R s → WellFormed s)
    (hevict : ∀ s s' i, R s → i < s.numBufs → (s.bufDescTable i).valid = true →
      Evicted io s i file s' → R s') :
    ∀ (k i : Nat) (s : BufMgr σ), R s → i + k ≤ s.numBufs →
      R (flushFileLoop io file k i s).2 := by
  intro k
  induction k with
  | zero =>
    intro i s hR _
    rw [flushFileLoop]
    exact hR
  | succ k ih =>
    intro i s hR hik
    have hi : i < s.numBufs := by omega
    by_cases hf : (s.bufDescTable i).file = some file
    · by_cases hp : (s.bufDescTable i).pinCnt = 0
      · cases hv : (s.bufDescTable i).valid with
        | false =>
          rw [flushFileLoop_bad io file k i s hf hp hv]
          exact hR
        | true =>
          obtain ⟨sN, hev, hstep⟩ := flushFileLoop_step io file i s (hRwf s hR) hi hf hp hv
          rw [hstep k]
          have hn : sN.numBufs = s.numBufs := hev.2.1
          exact ih (i + 1) sN (hevict s sN i hR hi hv hev) (by rw [hn]; omega)
      · rw [flushFileLoop_pinned io file k i s hf hp]
        exact hR
    · rw [flushFileLoop_skip io file k i s hf]
      exact ih (i + 1) s hR (by omega)

/-- Well-formedness depends on the capacity, the hand, the directory and, for
each frame, on the valid bit, on file and page number when valid, and on pin
count and dirty bit when not valid. -/
theorem wellFormed_congr {s s' : BufMgr σ} (hwf : WellFormed s)
    (hn : s'.numBufs = s.numBufs) (hh : s'.clockHand < s'.numBufs)
    (hht : s'.hashTable = s.hashTable)
    (hd : ∀ j, j < s.numBufs →
      (s'.bufDescTable j).valid = (s.bufDescTable j).valid ∧
      ((s.bufDescTable j).valid = true →
        (s'.bufDescTable j).file = (s.bufDescTable j).file ∧
        (s'.bufDescTable j).pageNo = (s.bufDescTable j).pageNo) ∧
      ((s'.bufDescTable j).valid = false →
        (s'.bufDescTable j).pinCnt = 0 ∧ (s'.bufDescTable j).dirty = false)) :
    WellFormed s' := by
  obtain ⟨w1, w2, _, _, w5, w6⟩ := hwf
  refine ⟨hn ▸ w1, hn ▸ w2, hh, ?_, ?_, ?_⟩
  · intro j hj hv
    exact (hd j (hn ▸ hj)).2.2 hv
  · intro j hj hv
    obtain ⟨d1, d2, _⟩ := hd j (hn ▸ hj)
    rw [d1] at hv
    rw [(d2 hv).1, (d2 hv).2, hht]
    exact w5 j (hn ▸ hj) hv
  · intro e he
    rw [hht] at he
    obtain ⟨a1, a2, a3, a4⟩ := w6 e he
    obtain ⟨d1, d2, _⟩ := hd e.2 a1
    rw [hn, d1, (d2 a2).1, (d2 a2).2]
    exact ⟨a1, a2, a3, a4⟩

/-- A new directory entry for a page loaded into a free frame keeps the state
well-formed (the end of the miss path of readPage and of allocPage). -/
theorem wellFormed_insert {s s' : BufMgr σ} (hwf : WellFormed s) (f : FrameId)
    (file : FileId) (pageNo : PageId) (hf : f < s.numBufs)
    (hv : (s.bufDescTable f).valid = false)
    (hl : hashLookup s.hashTable file pageNo = none)
    (hn : s'.numBufs = s.numBufs) (hh : s'.clockHand = s.clockHand)
    (hht : s'.hashTable = ((file, pageNo), f) :: s.hashTable)
    (hd : s'.bufDescTable = Function.update s.bufDescTable f
      ((s.bufDescTable f).Set file pageNo)) : WellFormed s' := by
  obtain ⟨w1, w2, w3, w4, w5, w6⟩ := hwf
  refine ⟨hn ▸ w1, hn ▸ w2, by rw [hh, hn]; exact w3, ?_, ?_, ?_⟩
  · intro j hj hvj
    rw [hd] at hvj ⊢
    by_cases hjf : j = f
    · rw [hjf, Function.update_same] at hvj
      exact Bool.noConfusion hvj
    · rw [Function.update_noteq hjf] at hvj ⊢
      exact w4 j (hn ▸ hj) hvj
  · intro j hj hvj
    rw [hd] at hvj ⊢
    by_cases hjf : j = f
    · rw [hjf, Function.update_same, hht]
      simp [BufDesc.Set, hashLookup_cons]
    · rw [Function.update_noteq hjf] at hvj ⊢
      have h5 := w5 j (hn ▸ hj) hvj
      cases hg : (s.bufDescTable j).file with
      | none => rw [hg] at h5; simp at h5
      | some g =>
        rw [hg] at h5
        have hlj : hashLookup s.hashTable g (s.bufDescTable j).pageNo = some j := by
          simpa using h5
        show hashLookup s'.hashTable g (s.bufDescTable j).pageNo = some j
        rw [hht, hashLookup_cons, if_neg ?_]
        · exact hlj
        · intro hk
          obtain ⟨h1, h2⟩ := Prod.mk.inj hk
          rw [← h1, ← h2, hl] at hlj
          exact Option.noConfusion hlj
  · intro e he
    rw [hht] at he
    rcases List.mem_cons.mp he with h | h
    · rw [h, hd, hn]
      simp [BufDesc.Set, hf]
    · obtain ⟨a1, a2, a3, a4⟩ := w6 e h
      have hef : e.2 ≠ f := by
        intro hc
        rw [hc, hv] at a2
        exact Bool.noConfusion a2
      rw [hn, hd, Function.update_noteq hef]
      exact ⟨a1, a2, a3, a4⟩

/-- The frame allocBuf returns in a well-formed state lies in the table and
its descriptor is cleared. -/
theorem allocBuf_ok_frame (io : FileOps σ) (s : BufMgr σ) (hwf : WellFormed s) (f : FrameId)
    (hok : (allocBuf io s).1 = Res.ok f) :
    f < (allocBuf io s).2.numBufs ∧
    (allocBuf io s).2.bufDescTable f = ((allocBuf io s).2.bufDescTable f).Clear ∧
    ((allocBuf io s).2.bufDescTable f).valid = false := by
  obtain ⟨sx, e1, hwx, h⟩ := allocBuf_wellFormed_outcome io s hwf
  rcases h with h | ⟨hv, h⟩ | ⟨hv, _, _, h1, g, hev⟩
  · rw [h] at hok
    exact Res.noConfusion hok
  · rw [h] at hok ⊢
    have hf : sx.clockHand = f := Res.ok.inj hok
    subst hf
    refine ⟨hwx.2.2.1, ?_, ?_⟩ <;> simp [setDesc, BufDesc.Clear]
  · rw [h1] at hok
    have hf : sx.clockHand = f := Res.ok.inj hok
    subst hf
    obtain ⟨_, en, _, _, _, _, _, _, edi⟩ := hev
    refine ⟨by rw [en]; exact hwx.2.2.1, ?_, ?_⟩
    · rw [edi]; rfl
    · rw [edi]; rfl

/-! ## The invariants of the reachable states -/

theorem setDesc_same (s : BufMgr σ) (i : FrameId) (d : BufDesc) :
    (s.setDesc i d).bufDescTable i = d := by
  simp [setDesc]

theorem setDesc_other (s : BufMgr σ) (i : FrameId) (d : BufDesc) (j : FrameId) (h : j ≠ i) :
    (s.setDesc i d).bufDescTable j = s.bufDescTable j := by
  simp [setDesc, Function.update_noteq h]

/-- The two invariants depend only on capacity, hand, directory and
descriptors. -/
theorem inv_fields {s s' : BufMgr σ} (h1 : s'.numBufs = s.numBufs)
    (h2 : s'.clockHand = s.clockHand) (h3 : s'.hashTable = s.hashTable)
    (h4 : s'.bufDescTable = s.bufDescTable) (h : WellFormed s ∧ FreeUnowned s) :
    WellFormed s' ∧ FreeUnowned s' := by
  constructor
  · refine wellFormed_congr h.1 h1 (by rw [h1, h2]; exact h.1.2.2.1) h3 ?_
    intro j hj
    rw [h4]
    exact ⟨rfl, fun _ => ⟨rfl, rfl⟩, fun hv => h.1.2.2.2.1 j hj hv⟩
  · intro j hj hv
    rw [h4] at hv ⊢
    exact h.2 j (h1 ▸ hj) hv

/-- A change of a valid descriptor that keeps it valid with the same file and
page number keeps the invariants. -/
theorem inv_setDesc_valid {s : BufMgr σ} (h : WellFormed s ∧ FreeUnowned s) (f : FrameId)
    (d : BufDesc) (hv : (s.bufDescTable f).valid = true) (dv : d.valid = true)
    (df : d.file = (s.bufDescTable f).file) (dp : d.pageNo = (s.bufDescTable f).pageNo) :
    WellFormed (s.setDesc f d) ∧ FreeUnowned (s.setDesc f d) := by
  constructor
  · refine wellFormed_congr h.1 rfl h.1.2.2.1 rfl ?_
    intro j hj
    by_cases hjf : j = f
    · rw [hjf, setDesc_same]
      refine ⟨dv.trans hv.symm, fun _ => ⟨df, dp⟩, fun hc => ?_⟩
      rw [dv] at hc
      exact Bool.noConfusion hc
    · rw [setDesc_other s f d j hjf]
      exact ⟨rfl, fun _ => ⟨rfl, rfl⟩, fun hc => h.1.2.2.2.1 j hj hc⟩
  · intro j hj hc
    by_cases hjf : j = f
    · rw [hjf, setDesc_same, dv] at hc
      exact Bool.noConfusion hc
    · rw [setDesc_other s f d j hjf] at hc ⊢
      exact h.2 j hj hc

/-- The eviction of a valid frame keeps the invariants. -/
theorem inv_evicted (io : FileOps σ) (s s' : BufMgr σ) (i : FrameId) (f : FileId)
    (h : WellFormed s ∧ FreeUnowned s) (hi : i < s.numBufs)
    (hv : (s.bufDescTable i).valid = true) (he : Evicted io s i f s') :
    WellFormed s' ∧ FreeUnowned s' := by
  refine ⟨wellFormed_evicted io s s' i f h.1 hi hv he, ?_⟩
  obtain ⟨_, en, _, _, _, _, _, ed, edi⟩ := he
  intro j hj hc
  by_cases hji : j = i
  · rw [hji, edi]; rfl
  · rw [ed j hji] at hc ⊢
    exact h.2 j (en ▸ hj) hc

/-- The new directory entry and descriptor of a page loaded into a free frame
keep the invariants. -/
theorem inv_insert {s s' : BufMgr σ} (h : WellFormed s ∧ FreeUnowned s) (f : FrameId)
    (file : FileId) (pageNo : PageId) (hf : f < s.numBufs)
    (hv : (s.bufDescTable f).valid = false)
    (hl : hashLookup s.hashTable file pageNo = none)
    (hn : s'.numBufs = s.numBufs) (hh : s'.clockHand = s.clockHand)
    (hht : s'.hashTable = ((file, pageNo), f) :: s.hashTable)
    (hd : s'.bufDescTable = Function.update s.bufDescTable f
      ((s.bufDescTable f).Set file pageNo)) :
    WellFormed s' ∧ FreeUnowned s' := by
  refine ⟨wellFormed_insert h.1 f file pageNo hf hv hl hn hh hht hd, ?_⟩
  intro j hj hc
  rw [hd] at hc ⊢
  by_cases hjf : j = f
  · rw [hjf, Function.update_same] at hc
    exact Bool.noConfusion hc
  · rw [Function.update_noteq hjf] at hc ⊢
    exact h.2 j (hn ▸ hj) hc

theorem inv_allocBuf (io : FileOps σ) (s : BufMgr σ) (h : WellFormed s ∧ FreeUnowned s) :
    WellFormed (allocBuf io s).2 ∧ FreeUnowned (allocBuf io s).2 := by
  refine allocBuf_preserves io (fun t => WellFormed t ∧ FreeUnowned t) (fun _ ht => ht.1)
    ?_ ?_ ?_ s h
  · intro t tx ht e hh
    refine ⟨wellFormed_of_scanEq ht.1 e hh, ?_⟩
    intro j hj hc
    obtain ⟨d1, _, _, _, _, d6, _⟩ := e.2.2.2.2.2 j
    rw [d1]
    exact ht.2 j (e.1 ▸ hj) (d6 ▸ hc)
  · intro t ht hv
    constructor
    · refine wellFormed_congr ht.1 rfl ht.1.2.2.1 rfl ?_
      intro j hj
      by_cases hjf : j = t.clockHand
      · rw [hjf, setDesc_same]
        refine ⟨hv.symm, fun hc => ?_, fun _ => ⟨rfl, rfl⟩⟩
        rw [hv] at hc
        exact Bool.noConfusion hc
      · rw [setDesc_other t _ _ j hjf]
        exact ⟨rfl, fun _ => ⟨rfl, rfl⟩, fun hc => ht.1.2.2.2.1 j hj hc⟩
    · intro j hj hc
      by_cases hjf : j = t.clockHand
      · rw [hjf, setDesc_same]; rfl
      · rw [setDesc_other t _ _ j hjf] at hc ⊢
        exact ht.2 j hj hc
  · intro t t' f ht hv hev
    exact inv_evicted io t t' t.clockHand f ht ht.1.2.2.1 hv hev

theorem inv_flushFile (io : FileOps σ) (s : BufMgr σ) (file : FileId)
    (h : WellFormed s ∧ FreeUnowned s) :
    WellFormed (flushFile io s file).2 ∧ FreeUnowned (flushFile io s file).2 :=
  flushFileLoop_preserves io file (fun t => WellFormed t ∧ FreeUnowned t) (fun _ ht => ht.1)
    (fun t t' i ht hi hv hev => inv_evicted io t t' i file ht hi hv hev)
    s.numBufs 0 s h (by omega)

theorem inv_unPinPage (s : BufMgr σ) (file : FileId) (pageNo : PageId) (dirty : Bool)
    (h : WellFormed s ∧ FreeUnowned s) :
    WellFormed (unPinPage s file pageNo dirty).2 ∧ FreeUnowned (unPinPage s file pageNo dirty).2 := by
  cases hl : hashLookup s.hashTable file pageNo with
  | none =>
    have : unPinPage s file pageNo dirty = (Res.ok (), s) := by
      unfold unPinPage; rw [hl]
    rw [this]; exact h
  | some f =>
    by_cases hp : (s.bufDescTable f).pinCnt = 0
    · have : unPinPage s file pageNo dirty
          = (Res.throw (Err.PageNotPinnedException file pageNo f), s) := by
        unfold unPinPage; rw [hl]; simp [hp]
      rw [this]; exact h
    · rw [unPinPage_ok_eq s file pageNo dirty f hl hp]
      have hv := (h.1.2.2.2.2.2 _ (hashLookup_mem hl)).2.1
      exact inv_setDesc_valid h f _ hv hv rfl rfl

theorem inv_readPage (io : FileOps σ) (s : BufMgr σ) (file : FileId) (pageNo : PageId)
    (h : WellFormed s ∧ FreeUnowned s) :
    WellFormed (readPage io s file pageNo).2 ∧ FreeUnowned (readPage io s file pageNo).2 := by
  cases hl : hashLookup s.hashTable file pageNo with
  | some f =>
    have : readPage io s file pageNo = (Res.ok f, s.setDesc f
        { s.bufDescTable f with refbit := true, pinCnt := (s.bufDescTable f).pinCnt + 1 }) := by
      unfold readPage; rw [hl]
    rw [this]
    have hv := (h.1.2.2.2.2.2 _ (hashLookup_mem hl)).2.1
    exact inv_setDesc_valid h f _ hv hv rfl rfl
  | none =>
    have hA := inv_allocBuf io s h
    have hlA := allocBuf_hashLookup_none io s h.1 file pageNo hl
    rcases hr : (allocBuf io s).1 with f | e
    · have hpair : allocBuf io s = (Res.ok f, (allocBuf io s).2) := by rw [← hr]
      obtain ⟨hfn, _, hfv⟩ := allocBuf_ok_frame io s h.1 f hr
      cases hrd : io.readPage (allocBuf io s).2.disk file pageNo with
      | none =>
        have : readPage io s file pageNo = (Res.throw Err.fileError,
            (allocBuf io s).2.emit (Event.readPage file pageNo)) := by
          unfold readPage
          rw [hl]
          dsimp only
          rw [hpair]
          dsimp only
          rw [hrd]
        rw [this]
        exact inv_fields rfl rfl rfl rfl hA
      | some pg =>
        rw [readPage_miss_eq io s _ file pageNo f pg hl hpair hlA hrd]
        exact inv_insert hA f file pageNo hfn hfv hlA rfl rfl rfl rfl
    · have hpair : allocBuf io s = (Res.throw e, (allocBuf io s).2) := by rw [← hr]
      have : readPage io s file pageNo = (Res.throw e, (allocBuf io s).2) := by
        unfold readPage
        rw [hl]
        dsimp only
        rw [hpair]
      rw [this]
      exact hA

theorem inv_allocPage (io : FileOps σ) (s : BufMgr σ) (file : FileId)
    (h : WellFormed s ∧ FreeUnowned s) :
    WellFormed (allocPage io s file).2 ∧ FreeUnowned (allocPage io s file).2 := by
  have h0 : WellFormed (({ s with disk := (io.allocatePage s.disk file).2 }).emit
        (Event.allocatePage file)) ∧
      FreeUnowned (({ s with disk := (io.allocatePage s.disk file).2 }).emit
        (Event.allocatePage file)) := inv_fields rfl rfl rfl rfl h
  have hA := inv_allocBuf io _ h0
  rcases hr : (allocBuf io (({ s with disk := (io.allocatePage s.disk file).2 }).emit
      (Event.allocatePage file))).1 with f | e
  · have hpair : allocBuf io (({ s with disk := (io.allocatePage s.disk file).2 }).emit
        (Event.allocatePage file)) = (Res.ok f, (allocBuf io
          (({ s with disk := (io.allocatePage s.disk file).2 }).emit
            (Event.allocatePage file))).2) := by rw [← hr]
    obtain ⟨hfn, _, hfv⟩ := allocBuf_ok_frame io _ h0.1 f hr
    cases hl : hashLookup (allocBuf io (({ s with disk := (io.allocatePage s.disk file).2 }).emit
        (Event.allocatePage file))).2.hashTable file (io.allocatePage s.disk file).1.page_number with
    | some g =>
      have : allocPage io s file = (Res.throw Err.HashAlreadyPresentException,
          (allocBuf io (({ s with disk := (io.allocatePage s.disk file).2 }).emit
            (Event.allocatePage file))).2) := by
        unfold allocPage
        dsimp only
        rw [hpair]
        simp only [hashInsert, hl]
      rw [this]
      exact hA
    | none =>
      have : allocPage io s file = (Res.ok ((io.allocatePage s.disk file).1.page_number, f),
          (((({ (allocBuf io (({ s with disk := (io.allocatePage s.disk file).2 }).emit
              (Event.allocatePage file))).2 with
            hashTable := ((file, (io.allocatePage s.disk file).1.page_number), f) ::
              (allocBuf io (({ s with disk := (io.allocatePage s.disk file).2 }).emit
                (Event.allocatePage file))).2.hashTable }).emit
            (Event.hashInsert file (io.allocatePage s.disk file).1.page_number f)).setPool f
              (io.allocatePage s.disk file).1).setDesc f
            (((allocBuf io (({ s with disk := (io.allocatePage s.disk file).2 }).emit
              (Event.allocatePage file))).2.bufDescTable f).Set file
                (io.allocatePage s.disk file).1.page_number))) := by
        unfold allocPage
        dsimp only
        rw [hpair]
        simp only [hashInsert, hl]
        rfl
      rw [this]
      exact inv_insert hA f file _ hfn hfv hl rfl rfl rfl rfl
  · have hpair : allocBuf io (({ s with disk := (io.allocatePage s.disk file).2 }).emit
        (Event.allocatePage file)) = (Res.throw e, (allocBuf io
          (({ s with disk := (io.allocatePage s.disk file).2 }).emit
            (Event.allocatePage file))).2) := by rw [← hr]
    have : allocPage io s file = (Res.throw e, (allocBuf io
        (({ s with disk := (io.allocatePage s.disk file).2 }).emit
          (Event.allocatePage file))).2) := by
      unfold allocPage
      dsimp only
      rw [hpair]
    rw [this]
    exact hA

theorem inv_disposePage (io : FileOps σ) (s : BufMgr σ) (file : FileId) (pageNo : PageId)
    (h : WellFormed s ∧ FreeUnowned s) :
    WellFormed (disposePage io s file pageNo).2 ∧
      FreeUnowned (disposePage io s file pageNo).2 := by
  cases hl : hashLookup s.hashTable file pageNo with
  | none =>
    have key : disposePage io s file pageNo = (Res.ok (),
        ({ s with disk := io.deletePage s.disk file pageNo }).emit
          (Event.deletePage file pageNo)) := by
      unfold disposePage
      simp only [hl]
    rw [key]
    exact inv_fields rfl rfl rfl rfl h
  | some g =>
    have key : disposePage io s file pageNo = (Res.ok (),
        ({ ((({ s with hashTable := (s.hashTable.filter
              (fun e => !decide (e.1 = (file, pageNo)))) }).emit
            (Event.hashRemove file pageNo)).setDesc g (s.bufDescTable g).Clear) with
          disk := io.deletePage s.disk file pageNo }).emit (Event.deletePage file pageNo)) := by
      unfold disposePage
      simp only [hl, hashRemove]
      rfl
    rw [key]
    obtain ⟨a1, a2, a3, a4⟩ := h.1.2.2.2.2.2 _ (hashLookup_mem hl)
    have hev : Evicted io s g file
        { numBufs := s.numBufs
          bufDescTable := Function.update s.bufDescTable g (s.bufDescTable g).Clear
          bufPool := s.bufPool
          hashTable := s.hashTable.filter (fun e => !decide (e.1 = (file, pageNo)))
          clockHand := s.clockHand
          disk := (if (s.bufDescTable g).dirty = true
            then io.writePage s.disk file (s.bufPool g) else s.disk)
          log := s.log ++ (if (s.bufDescTable g).dirty = true
            then [Event.writePage file (s.bufPool g)] else []) ++
            [Event.hashRemove file (s.bufDescTable g).pageNo] } := by
      refine ⟨a3, rfl, rfl, rfl, ?_, rfl, rfl, ?_, ?_⟩
      · have hp : (s.bufDescTable g).pageNo = pageNo := a4
        rw [hp]
      · intro j hj
        exact Function.update_noteq hj _ _
      · exact Function.update_same _ _ _
    have h2 := inv_evicted io s _ g file h a1 a2 hev
    exact inv_fields rfl rfl rfl rfl h2

theorem inv_construct (n : Nat) (d : σ) (hn : 0 < n) (hn32 : n < 4294967296) :
    WellFormed (construct n d) ∧ FreeUnowned (construct n d) := by
  have hmod : (n + 4294967296 - 1) % 4294967296 = n - 1 := by omega
  have hhand : (construct n d).clockHand = n - 1 := hmod
  refine ⟨⟨hn, hn32, ?_, ?_, ?_, ?_⟩, ?_⟩
  · rw [hhand]; exact Nat.sub_lt hn Nat.one_pos
  · intro i _ _
    exact ⟨rfl, rfl⟩
  · intro i _ hv
    exact Bool.noConfusion hv
  · intro e he
    simp [construct] at he
  · intro i _ _
    rfl

theorem inv_step (io : FileOps σ) (s : BufMgr σ) (op : Op) (h : WellFormed s ∧ FreeUnowned s) :
    WellFormed (step io s op) ∧ FreeUnowned (step io s op) := by
  cases op with
  | readPage file pageNo => exact inv_readPage io s file pageNo h
  | unPinPage file pageNo dirty => exact inv_unPinPage s file pageNo dirty h
  | allocPage file => exact inv_allocPage io s file h
  | disposePage file pageNo => exact inv_disposePage io s file pageNo h
  | flushFile file => exact inv_flushFile io s file h

/-- Every sequence of calls of the interface keeps the invariants, whether the
calls return or throw. -/
theorem inv_run (io : FileOps σ) :
    ∀ (ops : List Op) (s : BufMgr σ), WellFormed s ∧ FreeUnowned s →
      WellFormed (run io s ops) ∧ FreeUnowned (run io s ops) := by
  intro ops
  induction ops with
  | nil =>
    intro s h
    exact h
  | cons op ops ih =>
    intro s h
    exact ih (step io s op) (inv_step io s op h)

/-- C15: in every state reached from a freshly constructed manager by a
sequence of readPage, unPinPage, allocPage, disposePage and flushFile calls,
whatever each call returns or throws, the directory contains the entry
(file, pageNo) -> f if and only if frame f is valid and holds (file, pageNo),
looking a page up finds exactly these entries, and no two valid frames hold
the same (file, pageNo).  No assumption on the page numbers the file
allocates is needed: allocPage of a number that is resident throws before it
writes the directory or a descriptor. -/
theorem run_directory_consistent (io : FileOps σ) (n : Nat) (d : σ) (ops : List Op)
    (hn : 0 < n) (hn32 : n < 4294967296) (s : BufMgr σ)
    (hs : s = run io (construct n d) ops) :
    (∀ file pageNo f, ((file, pageNo), f) ∈ s.hashTable ↔
      (f < s.numBufs ∧ (s.bufDescTable f).valid = true ∧
        (s.bufDescTable f).file = some file ∧ (s.bufDescTable f).pageNo = pageNo)) ∧
    (∀ file pageNo f, hashLookup s.hashTable file pageNo = some f ↔
      ((file, pageNo), f) ∈ s.hashTable) ∧
    (∀ i j, i < s.numBufs → j < s.numBufs → (s.bufDescTable i).valid = true →
      (s.bufDescTable j).valid = true → (s.bufDescTable i).file = (s.bufDescTable j).file →
      (s.bufDescTable i).pageNo = (s.bufDescTable j).pageNo → i = j) := by
  have hwf : WellFormed s := hs ▸ (inv_run io ops _ (inv_construct n d hn hn32)).1
  obtain ⟨_, _, _, _, w5, w6⟩ := hwf
  have hfind : ∀ f, f < s.numBufs → (s.bufDescTable f).valid = true → ∀ file,
      (s.bufDescTable f).file = some file →
      hashLookup s.hashTable file (s.bufDescTable f).pageNo = some f := by
    intro f hf hv file hfile
    have := w5 f hf hv
    rw [hfile] at this
    simpa using this
  refine ⟨?_, ?_, ?_⟩
  · intro file pageNo f
    constructor
    · intro hmem
      exact w6 _ hmem
    · rintro ⟨hf, hv, hfile, hp⟩
      have := hfind f hf hv file hfile
      rw [hp] at this
      exact hashLookup_mem this
  · intro file pageNo f
    constructor
    · exact hashLookup_mem
    · intro hmem
      obtain ⟨hf, hv, hfile, hp⟩ := w6 _ hmem
      have := hfind f hf hv file hfile
      rw [hp] at this
      exact this
  · intro i j hi hj hvi hvj hfile hp
    cases hfi : (s.bufDescTable i).file with
    | none =>
      have := w5 i hi hvi
      rw [hfi] at this
      simp at this
    | some file =>
      have h1 := hfind i hi hvi file hfi
      have h2 := hfind j hj hvj file (hfile ▸ hfi)
      rw [hp, h2] at h1
      exact (Option.some.inj h1).symm

theorem run_directory_consistent_witness :
    (∀ file pageNo f, ((file, pageNo), f) ∈ exRun.hashTable ↔
      (f < exRun.numBufs ∧ (exRun.bufDescTable f).valid = true ∧
        (exRun.bufDescTable f).file = some file ∧ (exRun.bufDescTable f).pageNo = pageNo)) ∧
    (∀ file pageNo f, hashLookup exRun.hashTable file pageNo = some f ↔
      ((file, pageNo), f) ∈ exRun.hashTable) ∧
    (∀ i j, i < exRun.numBufs → j < exRun.numBufs → (exRun.bufDescTable i).valid = true →
      (exRun.bufDescTable j).valid = true →
      (exRun.bufDescTable i).file = (exRun.bufDescTable j).file →
      (exRun.bufDescTable i).pageNo = (exRun.bufDescTable j).pageNo → i = j) :=
  run_directory_consistent memFile 2 exDisk exOps (by decide) (by decide) exRun rfl

/-- C16: in every state reached from a freshly constructed manager by a
sequence of readPage, unPinPage, allocPage, disposePage and flushFile calls,
returning or throwing, every frame that is not valid has pin count 0 and is
not dirty; equivalently every frame with a positive pin count or a set dirty
bit is valid. -/
theorem run_free_frames (io : FileOps σ) (n : Nat) (d : σ) (ops : List Op)
    (hn : 0 < n) (hn32 : n < 4294967296) (s : BufMgr σ)
    (hs : s = run io (construct n d) ops) :
    ∀ i, i < s.numBufs →
      ((s.bufDescTable i).valid = false →
        (s.bufDescTable i).pinCnt = 0 ∧ (s.bufDescTable i).dirty = false) ∧
      ((0 < (s.bufDescTable i).pinCnt ∨ (s.bufDescTable i).dirty = true) →
        (s.bufDescTable i).valid = true) := by
  have hwf : WellFormed s := hs ▸ (inv_run io ops _ (inv_construct n d hn hn32)).1
  intro i hi
  have h4 := hwf.2.2.2.1 i hi
  refine ⟨h4, ?_⟩
  intro h
  cases hv : (s.bufDescTable i).valid with
  | true => rfl
  | false =>
    obtain ⟨h1, h2⟩ := h4 hv
    rcases h with h | h
    · omega
    · rw [h2] at h
      exact Bool.noConfusion h

/-- The run exRun of a manager of two frames over exDisk: frame 1 of the state
it reaches satisfies both forms of the statement. -/
theorem run_free_frames_witness :
    (0 < 2 ∧ exRun = run memFile (construct 2 exDisk) exOps) ∧
    ((exRun.bufDescTable 1).valid = false →
      (exRun.bufDescTable 1).pinCnt = 0 ∧ (exRun.bufDescTable 1).dirty = false) ∧
    ((0 < (exRun.bufDescTable 1).pinCnt ∨ (exRun.bufDescTable 1).dirty = true) →
      (exRun.bufDescTable 1).valid = true) :=
  ⟨⟨by decide, rfl⟩,
    run_free_frames memFile 2 exDisk exOps (by decide) (by decide) exRun rfl 1 (by decide)⟩

/-! ## flushFile -/

/-- The pages written by a range of iterations of flushFile depend only on
the descriptors and slots of the frames of the range. -/
theorem flushWrites_congr (file : FileId) (s t : BufMgr σ) (i k : Nat)
    (hp : t.bufPool = s.bufPool)
    (hd : ∀ j, i ≤ j → t.bufDescTable j = s.bufDescTable j) :
    ((List.range' i k).filter (fun j =>
      decide ((t.bufDescTable j).file = some file) && (t.bufDescTable j).dirty)).map
      (fun j => (file, t.bufPool j))
    = ((List.range' i k).filter (fun j =>
      decide ((s.bufDescTable j).file = some file) && (s.bufDescTable j).dirty)).map
      (fun j => (file, s.bufPool j)) := by
  rw [hp]
  congr 1
  apply List.filter_congr
  intro j hj
  rw [hd j (List.mem_range'_1.mp hj).1]

/-- The iterations i, ..., i + k - 1 of flushFile in a well-formed state in
which every frame of the file in that range is valid and not pinned: the loop
returns normally, in a well-formed state, with the effect FlushedRange. -/
theorem flushFileLoop_ok (io : FileOps σ) (file : FileId) :
    ∀ (k i : Nat) (s : BufMgr σ), WellFormed s → i + k ≤ s.numBufs →
      (∀ j, i ≤ j → j < i + k → (s.bufDescTable j).file = some file →
        (s.bufDescTable j).valid = true ∧ (s.bufDescTable j).pinCnt = 0) →
      (flushFileLoop io file k i s).1 = Res.ok () ∧
      WellFormed (flushFileLoop io file k i s).2 ∧
      FlushedRange io file s i k (flushFileLoop io file k i s).2 := by
  intro k
  induction k with
  | zero =>
    intro i s hwf _ _
    rw [flushFileLoop]
    refine ⟨rfl, hwf, rfl, rfl, rfl, ?_, fun _ _ => rfl, ?_, ?_, ?_⟩
    · intro j h1 h2
      omega
    · intro e
      constructor
      · intro he
        refine ⟨he, ?_⟩
        rintro ⟨j, h1, h2, _⟩
        omega
      · exact fun h => h.1
    · simp
    · simp [applyWrites]
  | succ k ih =>
    intro i s hwf hik hyp
    have hi : i < s.numBufs := by omega
    by_cases hf : (s.bufDescTable i).file = some file
    · obtain ⟨hv, hp⟩ := hyp i (Nat.le_refl i) (by omega) hf
      obtain ⟨sN, hev, hstep⟩ := flushFileLoop_step io file i s hwf hi hf hp hv
      have hwN := wellFormed_evicted io s sN i file hwf hi hv hev
      obtain ⟨_, en, eh, ep, eht, edisk, elog, ed, edi⟩ := hev
      have hdN : ∀ j, i + 1 ≤ j → sN.bufDescTable j = s.bufDescTable j := by
        intro j hj
        exact ed j (Nat.ne_of_gt hj)
      obtain ⟨r1, r2, q1, q2, q3, q4, q5, q6, q7, q8⟩ := ih (i + 1) sN hwN (by rw [en]; omega)
        (by
          intro j h1 h2 h3
          rw [hdN j h1] at h3 ⊢
          exact hyp j (by omega) (by omega) h3)
      rw [hstep k]
      rw [flushWrites_congr file s sN (i + 1) k ep hdN] at q7 q8
      have hW : ((List.range' i (k + 1)).filter (fun j =>
            decide ((s.bufDescTable j).file = some file) && (s.bufDescTable j).dirty)).map
            (fun j => (file, s.bufPool j))
          = (if (s.bufDescTable i).dirty = true then [(file, s.bufPool i)] else []) ++
            ((List.range' (i + 1) k).filter (fun j =>
              decide ((s.bufDescTable j).file = some file) && (s.bufDescTable j).dirty)).map
              (fun j => (file, s.bufPool j)) := by
        rw [List.range'_succ, List.filter_cons]
        cases hd : (s.bufDescTable i).dirty <;> simp [hf, hd]
      refine ⟨r1, r2, q1.trans en, q2.trans eh, q3.trans ep, ?_, ?_, ?_, ?_, ?_⟩
      · intro j h1 h2 h3
        by_cases hji : j = i
        · rw [hji, q5 i (fun h => absurd h.1 (Nat.not_succ_le_self i)), edi]
        · have h4 : i + 1 ≤ j := by omega
          rw [q4 j h4 (by omega) (by rw [hdN j h4]; exact h3), hdN j h4]
      · intro j hj
        have hji : j ≠ i := by
          intro h
          exact hj ⟨by omega, by omega, h ▸ hf⟩
        rw [q5 j ?_, ed j hji]
        rintro ⟨h1, h2, h3⟩
        rw [hdN j h1] at h3
        exact hj ⟨by omega, by omega, h3⟩
      · intro e
        rw [q6 e, eht, List.mem_filter]
        constructor
        · rintro ⟨⟨hm, hne⟩, hnot⟩
          refine ⟨hm, ?_⟩
          rintro ⟨j, h1, h2, h3, h4⟩
          by_cases hji : j = i
          · rw [hji] at h4
            simp [h4] at hne
          · have h5 : i + 1 ≤ j := by omega
            exact hnot ⟨j, h5, by omega, by rw [hdN j h5]; exact h3, by rw [hdN j h5]; exact h4⟩
        · rintro ⟨hm, hnot⟩
          refine ⟨⟨hm, ?_⟩, ?_⟩
          · have : ¬ e.1 = (file, (s.bufDescTable i).pageNo) := by
              intro h
              exact hnot ⟨i, Nat.le_refl i, by omega, hf, h⟩
            simp [this]
          · rintro ⟨j, h1, h2, h3, h4⟩
            rw [hdN j h1] at h3 h4
            exact hnot ⟨j, by omega, by omega, h3, h4⟩
      · rw [q7, elog, hW]
        cases hd : (s.bufDescTable i).dirty <;>
          simp [writesOf_append, writesOf]
      · rw [q8, edisk, hW]
        cases hd : (s.bufDescTable i).dirty <;>
          simp [applyWrites]
    · rw [flushFileLoop_skip io file k i s hf]
      obtain ⟨r1, r2, q1, q2, q3, q4, q5, q6, q7, q8⟩ := ih (i + 1) s hwf (by omega)
        (fun j h1 h2 h3 => hyp j (by omega) (by omega) h3)
      have hW : ((List.range' i (k + 1)).filter (fun j =>
            decide ((s.bufDescTable j).file = some file) && (s.bufDescTable j).dirty)).map
            (fun j => (file, s.bufPool j))
          = ((List.range' (i + 1) k).filter (fun j =>
              decide ((s.bufDescTable j).file = some file) && (s.bufDescTable j).dirty)).map
              (fun j => (file, s.bufPool j)) := by
        rw [List.range'_succ, List.filter_cons]
        simp [hf]
      refine ⟨r1, r2, q1, q2, q3, ?_, ?_, ?_, ?_, ?_⟩
      · intro j h1 h2 h3
        have hji : j ≠ i := by
          intro h
          exact hf (h ▸ h3)
        exact q4 j (by omega) (by omega) h3
      · intro j hj
        refine q5 j ?_
        rintro ⟨h1, h2, h3⟩
        exact hj ⟨by omega, by omega, h3⟩
      · intro e
        rw [q6 e]
        constructor
        · rintro ⟨hm, hnot⟩
          refine ⟨hm, ?_⟩
          rintro ⟨j, h1, h2, h3, h4⟩
          have hji : j ≠ i := by
            intro h
            exact hf (h ▸ h3)
          exact hnot ⟨j, by omega, by omega, h3, h4⟩
        · rintro ⟨hm, hnot⟩
          refine ⟨hm, ?_⟩
          rintro ⟨j, h1, h2, h3, h4⟩
          exact hnot ⟨j, by omega, by omega, h3, h4⟩
      · rw [q7, hW]
      · rw [q8, hW]

/-- The loop of flushFile stops at the first pinned frame of the file: the
iterations before it have run, the exception names that frame. -/
theorem flushFileLoop_stops (io : FileOps σ) (file : FileId) :
    ∀ (a i : Nat) (s : BufMgr σ) (b : Nat), WellFormed s → i + a < s.numBufs →
      (∀ j, i ≤ j → j < i + a → (s.bufDescTable j).file = some file →
        (s.bufDescTable j).valid = true ∧ (s.bufDescTable j).pinCnt = 0) →
      (s.bufDescTable (i + a)).file = some file → (s.bufDescTable (i + a)).pinCnt ≠ 0 →
      flushFileLoop io file (a + 1 + b) i s
        = (Res.throw (Err.PagePinnedException file (s.bufDescTable (i + a)).pageNo (i + a)),
            (flushFileLoop io file a i s).2) := by
  intro a
  induction a with
  | zero =>
    intro i s b _ _ _ hf hp
    have h1 : 0 + 1 + b = b + 1 := by omega
    rw [h1, flushFileLoop_pinned io file b i s hf hp]
    rfl
  | succ a ih =>
    intro i s b hwf hia hyp hf hp
    have h1 : a + 1 + 1 + b = (a + 1 + b) + 1 := by omega
    have h2 : i + 1 + a = i + (a + 1) := by omega
    rw [h1]
    by_cases hfi : (s.bufDescTable i).file = some file
    · have hin : i < s.numBufs := Nat.lt_of_le_of_lt (Nat.le_add_right i (a + 1)) hia
      obtain ⟨hv, hpi⟩ := hyp i (Nat.le_refl i) (by omega) hfi
      obtain ⟨sN, hev, hstep⟩ := flushFileLoop_step io file i s hwf hin hfi hpi hv
      have hwN := wellFormed_evicted io s sN i file hwf hin hv hev
      obtain ⟨_, en, _, _, _, _, _, ed, _⟩ := hev
      have hdN : ∀ j, i + 1 ≤ j → sN.bufDescTable j = s.bufDescTable j := by
        intro j hj
        exact ed j (Nat.ne_of_gt hj)
      have hlast : sN.bufDescTable (i + 1 + a) = s.bufDescTable (i + (a + 1)) := by
        rw [h2]
        exact hdN _ (by omega)
      rw [hstep (a + 1 + b), hstep a]
      rw [ih (i + 1) sN b hwN (by rw [en]; omega)
        (by
          intro j h3 h4 h5
          rw [hdN j h3] at h5 ⊢
          exact hyp j (by omega) (by omega) h5)
        (by rw [hlast]; exact hf) (by rw [hlast]; exact hp), hlast, h2]
    · rw [flushFileLoop_skip io file (a + 1 + b) i s hfi, flushFileLoop_skip io file a i s hfi]
      have hlast : s.bufDescTable (i + 1 + a) = s.bufDescTable (i + (a + 1)) := by rw [h2]
      rw [ih (i + 1) s b hwf (by omega)
        (fun j h3 h4 h5 => hyp j (by omega) (by omega) h5)
        (by rw [hlast]; exact hf) (by rw [hlast]; exact hp), h2]

/-- After the iterations of a range of flushFile, a frame that was untouched
and valid is still found in the directory under its page. -/
theorem flushed_lookup_keep (io : FileOps σ) (file : FileId) (s s' : BufMgr σ) (i k : Nat)
    (hwf : WellFormed s) (hwf' : WellFormed s') (hfl : FlushedRange io file s i k s')
    (hyp : ∀ j, i ≤ j → j < i + k → (s.bufDescTable j).file = some file →
      (s.bufDescTable j).valid = true ∧ j < s.numBufs)
    (j : Nat) (hj : j < s.numBufs)
    (hout : ¬ (i ≤ j ∧ j < i + k ∧ (s.bufDescTable j).file = some file))
    (hv : (s.bufDescTable j).valid = true) (f : FileId)
    (hf : (s.bufDescTable j).file = some f) :
    hashLookup s'.hashTable f (s.bufDescTable j).pageNo = some j := by
  obtain ⟨qn, _, _, _, q5, q6, _, _⟩ := hfl
  have hfind : ∀ m, m < s.numBufs → (s.bufDescTable m).valid = true → ∀ g,
      (s.bufDescTable m).file = some g →
      hashLookup s.hashTable g (s.bufDescTable m).pageNo = some m := by
    intro m hm hvm g hg
    have := hwf.2.2.2.2.1 m hm hvm
    rw [hg] at this
    simpa using this
  have hmem : ((f, (s.bufDescTable j).pageNo), j) ∈ s'.hashTable := by
    rw [q6]
    refine ⟨hashLookup_mem (hfind j hj hv f hf), ?_⟩
    rintro ⟨m, h1, h2, h3, h4⟩
    obtain ⟨hvm, hmn⟩ := hyp m h1 h2 h3
    have hlm := hfind m hmn hvm file h3
    have hlj := hfind j hj hv f hf
    obtain ⟨e1, e2⟩ := Prod.mk.inj h4
    rw [e1, e2, hlm] at hlj
    have : m = j := Option.some.inj hlj
    exact hout ⟨this ▸ h1, this ▸ h2, this ▸ h3⟩
  have h5 := hwf'.2.2.2.2.1 j (by rw [qn]; exact hj)
    (by rw [q5 j hout]; exact hv)
  rw [q5 j hout, hf] at h5
  simpa using h5

/-- After the iterations of a range of flushFile, the page of a frame of the
file in the range is not in the directory. -/
theorem flushed_lookup_none (io : FileOps σ) (file : FileId) (s s' : BufMgr σ) (i k : Nat)
    (hfl : FlushedRange io file s i k s') (j : Nat) (h1 : i ≤ j) (h2 : j < i + k)
    (h3 : (s.bufDescTable j).file = some file) :
    hashLookup s'.hashTable file (s.bufDescTable j).pageNo = none := by
  cases hl : hashLookup s'.hashTable file (s.bufDescTable j).pageNo with
  | none => rfl
  | some g =>
    have hmem := hashLookup_mem hl
    rw [hfl.2.2.2.2.2.1] at hmem
    exact absurd ⟨j, h1, h2, h3, rfl⟩ hmem.2

/-- C11: in a well-formed state whose free frames own no file, when no frame
of the file is pinned, flushFile returns normally; afterwards no descriptor of
the table refers to the file and the directory has no entry for a page of the
file; the pages written are exactly the slots of the dirty frames of the file,
one each in ascending frame order, and the disk is the result of these writes;
the slots are unchanged, and a frame of another file keeps its descriptor and,
when valid, its directory entry. -/
theorem flushFile_success (io : FileOps σ) (s : BufMgr σ) (file : FileId)
    (hwf : WellFormed s) (hfree : FreeUnowned s)
    (hpin : ∀ i, i < s.numBufs → (s.bufDescTable i).file = some file →
      (s.bufDescTable i).pinCnt = 0) :
    (flushFile io s file).1 = Res.ok () ∧
    (∀ i, i < s.numBufs → ((flushFile io s file).2.bufDescTable i).file ≠ some file) ∧
    (∀ pageNo, hashLookup (flushFile io s file).2.hashTable file pageNo = none) ∧
    writesOf (flushFile io s file).2.log = writesOf s.log ++
      ((List.range s.numBufs).filter (fun i =>
        decide ((s.bufDescTable i).file = some file) && (s.bufDescTable i).dirty)).map
        (fun i => (file, s.bufPool i)) ∧
    (flushFile io s file).2.disk = applyWrites io s.disk
      (((List.range s.numBufs).filter (fun i =>
        decide ((s.bufDescTable i).file = some file) && (s.bufDescTable i).dirty)).map
        (fun i => (file, s.bufPool i))) ∧
    (flushFile io s file).2.bufPool = s.bufPool ∧
    (∀ i, i < s.numBufs → (s.bufDescTable i).file ≠ some file →
      (flushFile io s file).2.bufDescTable i = s.bufDescTable i ∧
      ∀ f, (s.bufDescTable i).valid = true → (s.bufDescTable i).file = some f →
        hashLookup (flushFile io s file).2.hashTable f (s.bufDescTable i).pageNo = some i) := by
  have hyp : ∀ j, 0 ≤ j → j < 0 + s.numBufs → (s.bufDescTable j).file = some file →
      (s.bufDescTable j).valid = true ∧ (s.bufDescTable j).pinCnt = 0 := by
    intro j _ hj hf
    rw [Nat.zero_add] at hj
    refine ⟨?_, hpin j hj hf⟩
    cases hv : (s.bufDescTable j).valid with
    | true => rfl
    | false =>
      have := hfree j hj hv
      rw [hf] at this
      exact absurd this (by simp)
  obtain ⟨hok, hwf', hfl⟩ := flushFileLoop_ok io file s.numBufs 0 s hwf
    (by rw [Nat.zero_add]) hyp
  have hfl0 := hfl
  obtain ⟨qn, _, qp, q4, q5, _, q7, q8⟩ := hfl
  have hnone : ∀ i, i < s.numBufs →
      ((flushFile io s file).2.bufDescTable i).file ≠ some file := by
    intro i hi
    by_cases hf : (s.bufDescTable i).file = some file
    · have := q4 i (Nat.zero_le i) (by rw [Nat.zero_add]; exact hi) hf
      show ((flushFileLoop io file s.numBufs 0 s).2.bufDescTable i).file ≠ some file
      rw [this]
      simp [BufDesc.Clear]
    · have := q5 i (fun h => hf h.2.2)
      show ((flushFileLoop io file s.numBufs 0 s).2.bufDescTable i).file ≠ some file
      rw [this]
      exact hf
  rw [← List.range_eq_range'] at q7 q8
  refine ⟨hok, hnone, ?_, q7, q8, qp, ?_⟩
  · intro pageNo
    cases hl : hashLookup (flushFile io s file).2.hashTable file pageNo with
    | none => rfl
    | some g =>
      have hm := hwf'.2.2.2.2.2 _ (hashLookup_mem hl)
      exact absurd hm.2.2.1 (hnone g (by rw [← qn]; exact hm.1))
  · intro i hi hf
    refine ⟨q5 i (fun h => hf h.2.2), ?_⟩
    intro f hv hff
    exact flushed_lookup_keep io file s _ 0 s.numBufs hwf hwf' hfl0
      (fun j h1 h2 h3 => ⟨(hyp j h1 h2 h3).1, by rw [Nat.zero_add] at h2; exact h2⟩)
      i hi (fun h => hf h.2.2) hv f hff

/-- The hypotheses of flushFile_success hold in exFlush, where frame 1 of file
7 is dirty: flushFile writes that one slot. -/
theorem flushFile_success_witness :
    (flushFile memFile exFlush 7).1 = Res.ok () ∧
    (∀ i, i < exFlush.numBufs →
      ((flushFile memFile exFlush 7).2.bufDescTable i).file ≠ some 7) ∧
    writesOf (flushFile memFile exFlush 7).2.log
      = writesOf exFlush.log ++ [(7, exFlush.bufPool 1)] :=
  have h := flushFile_success memFile exFlush 7 (by decide) (by decide) (by decide)
  ⟨h.1, h.2.1, h.2.2.2.1.trans (by decide)⟩

/-- C12: flushFile goes through the frames in ascending index.  In a well-formed
state whose free frames own no file, let i be the lowest frame of the file that
is pinned: flushFile fails with PagePinnedException for the page of frame i and
frame i; every frame of the file below i has been reset and its page is out of
the directory, the pages written are the slots of the dirty ones among them in
ascending order; frame i, every frame above i and the frames of other files
keep their descriptor and, when valid, their directory entry; the slots are
unchanged. -/
theorem flushFile_pinned (io : FileOps σ) (s : BufMgr σ) (file : FileId) (i : Nat)
    (hwf : WellFormed s) (hfree : FreeUnowned s) (hi : i < s.numBufs)
    (hf : (s.bufDescTable i).file = some file) (hp : (s.bufDescTable i).pinCnt ≠ 0)
    (hlow : ∀ j, j < i → (s.bufDescTable j).file = some file →
      (s.bufDescTable j).pinCnt = 0) :
    (flushFile io s file).1
      = Res.throw (Err.PagePinnedException file (s.bufDescTable i).pageNo i) ∧
    (∀ j, j < i → (s.bufDescTable j).file = some file →
      (flushFile io s file).2.bufDescTable j = (s.bufDescTable j).Clear ∧
      hashLookup (flushFile io s file).2.hashTable file (s.bufDescTable j).pageNo = none) ∧
    writesOf (flushFile io s file).2.log = writesOf s.log ++
      ((List.range i).filter (fun j =>
        decide ((s.bufDescTable j).file = some file) && (s.bufDescTable j).dirty)).map
        (fun j => (file, s.bufPool j)) ∧
    (flushFile io s file).2.disk = applyWrites io s.disk
      (((List.range i).filter (fun j =>
        decide ((s.bufDescTable j).file = some file) && (s.bufDescTable j).dirty)).map
        (fun j => (file, s.bufPool j))) ∧
    (flushFile io s file).2.bufPool = s.bufPool ∧
    (∀ j, j < s.numBufs → (i ≤ j ∨ (s.bufDescTable j).file ≠ some file) →
      (flushFile io s file).2.bufDescTable j = s.bufDescTable j ∧
      ∀ f, (s.bufDescTable j).valid = true → (s.bufDescTable j).file = some f →
        hashLookup (flushFile io s file).2.hashTable f (s.bufDescTable j).pageNo = some j) := by
  have hyp : ∀ j, 0 ≤ j → j < 0 + i → (s.bufDescTable j).file = some file →
      (s.bufDescTable j).valid = true ∧ (s.bufDescTable j).pinCnt = 0 := by
    intro j _ hj hfj
    rw [Nat.zero_add] at hj
    refine ⟨?_, hlow j hj hfj⟩
    cases hv : (s.bufDescTable j).valid with
    | true => rfl
    | false =>
      have := hfree j (Nat.lt_trans hj hi) hv
      rw [hfj] at this
      exact absurd this (by simp)
  have hn : s.numBufs = i + 1 + (s.numBufs - i - 1) := by omega
  have hstop := flushFileLoop_stops io file i 0 s (s.numBufs - i - 1) hwf
    (by rw [Nat.zero_add]; exact hi) hyp (by rw [Nat.zero_add]; exact hf)
    (by rw [Nat.zero_add]; exact hp)
  rw [← hn, Nat.zero_add] at hstop
  obtain ⟨_, hwf', hfl⟩ := flushFileLoop_ok io file i 0 s hwf
    (by rw [Nat.zero_add]; exact Nat.le_of_lt hi) hyp
  have hfl0 := hfl
  obtain ⟨_, _, qp, q4, q5, _, q7, q8⟩ := hfl
  rw [← List.range_eq_range'] at q7 q8
  have hst : (flushFile io s file).2 = (flushFileLoop io file i 0 s).2 := by
    show (flushFileLoop io file s.numBufs 0 s).2 = _
    rw [hstop]
  have hres : (flushFile io s file).1
      = Res.throw (Err.PagePinnedException file (s.bufDescTable i).pageNo i) := by
    show (flushFileLoop io file s.numBufs 0 s).1 = _
    rw [hstop]
  rw [hst]
  refine ⟨hres, ?_, q7, q8, qp, ?_⟩
  · intro j hj hfj
    exact ⟨q4 j (Nat.zero_le j) (by rw [Nat.zero_add]; exact hj) hfj,
      flushed_lookup_none io file s _ 0 i hfl0 j (Nat.zero_le j)
        (by rw [Nat.zero_add]; exact hj) hfj⟩
  · intro j hj hcase
    have hout : ¬ (0 ≤ j ∧ j < 0 + i ∧ (s.bufDescTable j).file = some file) := by
      rintro ⟨_, h2, h3⟩
      rw [Nat.zero_add] at h2
      rcases hcase with h | h
      · exact absurd h2 (Nat.not_lt.mpr h)
      · exact h h3
    refine ⟨q5 j hout, ?_⟩
    intro f hv hff
    exact flushed_lookup_keep io file s _ 0 i hwf hwf' hfl0
      (fun m h1 h2 h3 => ⟨(hyp m h1 h2 h3).1,
        by rw [Nat.zero_add] at h2; exact Nat.lt_trans h2 hi⟩)
      j hj hout hv f hff

/-- The hypotheses of flushFile_pinned hold in exPartial with i = 1: the dirty
frame 0 is written and reset, the dirty frame 2 behind the pinned frame is as
before. -/
theorem flushFile_pinned_witness :
    (flushFile memFile exPartial 7).1 = Res.throw (Err.PagePinnedException 7 2 1) ∧
    writesOf (flushFile memFile exPartial 7).2.log = [(7, exPartial.bufPool 0)] ∧
    (flushFile memFile exPartial 7).2.bufDescTable 2 = exPartial.bufDescTable 2 :=
  have h := flushFile_pinned memFile exPartial 7 1 (by decide) (by decide) (by decide)
    (by decide) (by decide) (by decide)
  ⟨h.1, h.2.2.1.trans (by decide), (h.2.2.2.2.2 2 (by decide) (by decide)).1⟩

/-! ## The slots carry the page number of their frame -/

/-- The numbering of the slots is kept when the slots stay and every frame
that is valid afterwards was valid with the same page number. -/
theorem numbered_congr {s s' : BufMgr σ} (h : SlotsNumbered s) (hn : s'.numBufs = s.numBufs)
    (hp : s'.bufPool = s.bufPool)
    (hd : ∀ j, j < s.numBufs → (s'.bufDescTable j).valid = true →
      (s.bufDescTable j).valid = true ∧
      (s'.bufDescTable j).pageNo = (s.bufDescTable j).pageNo) :
    SlotsNumbered s' := by
  intro j hj hv
  rw [hn] at hj
  obtain ⟨a, b⟩ := hd j hj hv
  rw [hp, b]
  exact h j hj a

theorem numbered_evicted (io : FileOps σ) (s s' : BufMgr σ) (i : Nat) (f : FileId)
    (h : SlotsNumbered s) (he : Evicted io s i f s') : SlotsNumbered s' := by
  obtain ⟨_, en, _, ep, _, _, _, eo, ei⟩ := he
  refine numbered_congr h en ep ?_
  intro j _ hv
  by_cases hji : j = i
  · rw [hji, ei] at hv
    exact absurd hv (by simp [BufDesc.Clear])
  · rw [eo j hji] at hv ⊢
    exact ⟨hv, rfl⟩

theorem numbered_insert {s s' : BufMgr σ} (h : SlotsNumbered s) (f : Nat) (file : FileId)
    (pageNo : PageId) (pg : Page) (hpn : pg.page_number = pageNo)
    (hn : s'.numBufs = s.numBufs)
    (hd : s'.bufDescTable = Function.update s.bufDescTable f
      ((s.bufDescTable f).Set file pageNo))
    (hp : s'.bufPool = Function.update s.bufPool f pg) : SlotsNumbered s' := by
  intro j hj hv
  rw [hn] at hj
  rw [hd] at hv ⊢
  rw [hp]
  by_cases hjf : j = f
  · rw [hjf, Function.update_same, Function.update_same]
    exact hpn
  · rw [Function.update_noteq hjf] at hv ⊢
    rw [Function.update_noteq hjf]
    exact h j hj hv

/-- Clearing the descriptor of a free frame keeps a state well-formed. -/
theorem wellFormed_clear_free {s : BufMgr σ} (hwf : WellFormed s) (f : Nat)
    (hv : (s.bufDescTable f).valid = false) :
    WellFormed (s.setDesc f (s.bufDescTable f).Clear) := by
  refine wellFormed_congr hwf rfl hwf.2.2.1 rfl ?_
  intro j hj
  by_cases hjf : j = f
  · rw [hjf, setDesc_same]
    exact ⟨hv.symm, fun h0 => absurd (hv.symm.trans h0) (by simp), fun _ => ⟨rfl, rfl⟩⟩
  · rw [setDesc_other s _ _ j hjf]
    exact ⟨rfl, fun _ => ⟨rfl, rfl⟩, hwf.2.2.2.1 j hj⟩

theorem numbered_allocBuf (io : FileOps σ) (s : BufMgr σ)
    (h : WellFormed s ∧ SlotsNumbered s) :
    WellFormed (allocBuf io s).2 ∧ SlotsNumbered (allocBuf io s).2 := by
  refine allocBuf_preserves io (fun t => WellFormed t ∧ SlotsNumbered t) (fun _ ht => ht.1)
    ?_ ?_ ?_ s h
  · intro t tx ht e hh
    refine ⟨wellFormed_of_scanEq ht.1 e hh, numbered_congr ht.2 e.1 e.2.1 ?_⟩
    intro j _ hv
    have hd := e.2.2.2.2.2 j
    exact ⟨hd.2.2.2.2.2.1 ▸ hv, hd.2.1⟩
  · intro t ht hv
    refine ⟨wellFormed_clear_free ht.1 t.clockHand hv, numbered_congr ht.2 rfl rfl ?_⟩
    intro j _ hvj
    by_cases hjf : j = t.clockHand
    · rw [hjf, setDesc_same] at hvj
      exact absurd hvj (by simp [BufDesc.Clear])
    · rw [setDesc_other t _ _ j hjf] at hvj ⊢
      exact ⟨hvj, rfl⟩
  · intro t t' f ht hv hev
    exact ⟨wellFormed_evicted io t t' t.clockHand f ht.1 ht.1.2.2.1 hv hev,
      numbered_evicted io t t' t.clockHand f ht.2 hev⟩

theorem numbered_flushFile (io : FileOps σ) (s : BufMgr σ) (file : FileId)
    (h : WellFormed s ∧ SlotsNumbered s) : SlotsNumbered (flushFile io s file).2 :=
  (flushFileLoop_preserves io file (fun t => WellFormed t ∧ SlotsNumbered t) (fun _ ht => ht.1)
    (fun t t' i ht hi hv hev => ⟨wellFormed_evicted io t t' i file ht.1 hi hv hev,
      numbered_evicted io t t' i file ht.2 hev⟩)
    s.numBufs 0 s h (by rw [Nat.zero_add])).2

theorem numbered_unPinPage (s : BufMgr σ) (file : FileId) (pageNo : PageId) (dirty : Bool)
    (h : WellFormed s ∧ SlotsNumbered s) : SlotsNumbered (unPinPage s file pageNo dirty).2 := by
  cases hl : hashLookup s.hashTable file pageNo with
  | none =>
    have : unPinPage s file pageNo dirty = (Res.ok (), s) := by
      unfold unPinPage; rw [hl]
    rw [this]; exact h.2
  | some f =>
    by_cases hp : (s.bufDescTable f).pinCnt = 0
    · have : unPinPage s file pageNo dirty
          = (Res.throw (Err.PageNotPinnedException file pageNo f), s) := by
        unfold unPinPage; rw [hl]; simp [hp]
      rw [this]; exact h.2
    · rw [unPinPage_ok_eq s file pageNo dirty f hl hp]
      have hv := (h.1.2.2.2.2.2 _ (hashLookup_mem hl)).2.1
      refine numbered_congr h.2 rfl rfl ?_
      intro j _ hvj
      by_cases hjf : j = f
      · rw [hjf, setDesc_same]
        exact ⟨hv, rfl⟩
      · rw [setDesc_other s f _ j hjf] at hvj ⊢
        exact ⟨hvj, rfl⟩

theorem numbered_readPage (io : FileOps σ)
    (hread : ∀ d f p pg, io.readPage d f p = some pg → pg.page_number = p)
    (s : BufMgr σ) (file : FileId) (pageNo : PageId)
    (h : WellFormed s ∧ SlotsNumbered s) : SlotsNumbered (readPage io s file pageNo).2 := by
  cases hl : hashLookup s.hashTable file pageNo with
  | some f =>
    have : readPage io s file pageNo = (Res.ok f, s.setDesc f
        { s.bufDescTable f with refbit := true, pinCnt := (s.bufDescTable f).pinCnt + 1 }) := by
      unfold readPage; rw [hl]
    rw [this]
    have hv := (h.1.2.2.2.2.2 _ (hashLookup_mem hl)).2.1
    refine numbered_congr h.2 rfl rfl ?_
    intro j _ hvj
    by_cases hjf : j = f
    · rw [hjf, setDesc_same]
      exact ⟨hv, rfl⟩
    · rw [setDesc_other s f _ j hjf] at hvj ⊢
      exact ⟨hvj, rfl⟩
  | none =>
    have hA := numbered_allocBuf io s h
    have hlA := allocBuf_hashLookup_none io s h.1 file pageNo hl
    rcases hr : (allocBuf io s).1 with f | e
    · have hpair : allocBuf io s = (Res.ok f, (allocBuf io s).2) := by rw [← hr]
      cases hrd : io.readPage (allocBuf io s).2.disk file pageNo with
      | none =>
        have : readPage io s file pageNo = (Res.throw Err.fileError,
            (allocBuf io s).2.emit (Event.readPage file pageNo)) := by
          unfold readPage
          rw [hl]
          dsimp only
          rw [hpair]
          dsimp only
          rw [hrd]
        rw [this]
        exact numbered_congr hA.2 rfl rfl (fun j _ hvj => ⟨hvj, rfl⟩)
      | some pg =>
        rw [readPage_miss_eq io s _ file pageNo f pg hl hpair hlA hrd]
        exact numbered_insert hA.2 f file pageNo pg (hread _ _ _ _ hrd) rfl rfl rfl
    · have hpair : allocBuf io s = (Res.throw e, (allocBuf io s).2) := by rw [← hr]
      have : readPage io s file pageNo = (Res.throw e, (allocBuf io s).2) := by
        unfold readPage
        rw [hl]
        dsimp only
        rw [hpair]
      rw [this]
      exact hA.2

theorem numbered_allocPage (io : FileOps σ) (s : BufMgr σ) (file : FileId)
    (h : WellFormed s ∧ SlotsNumbered s) : SlotsNumbered (allocPage io s file).2 := by
  have h0 : WellFormed (({ s with disk := (io.allocatePage s.disk file).2 }).emit
        (Event.allocatePage file)) ∧
      SlotsNumbered (({ s with disk := (io.allocatePage s.disk file).2 }).emit
        (Event.allocatePage file)) :=
    ⟨wellFormed_congr h.1 rfl h.1.2.2.1 rfl
        (fun j hj => ⟨rfl, fun _ => ⟨rfl, rfl⟩, h.1.2.2.2.1 j hj⟩),
      numbered_congr h.2 rfl rfl (fun j _ hvj => ⟨hvj, rfl⟩)⟩
  unfold allocPage
  dsimp only
  generalize (({ s with disk := (io.allocatePage s.disk file).2 }).emit
    (Event.allocatePage file)) = s0 at h0 ⊢
  generalize (io.allocatePage s.disk file).1 = newPage
  have hA := numbered_allocBuf io s0 h0
  rcases hpair : allocBuf io s0 with ⟨f | e, s1⟩
  · rw [hpair] at hA
    dsimp only
    cases hl : hashLookup s1.hashTable file newPage.page_number with
    | some g =>
      simp only [hashInsert, hl]
      exact hA.2
    | none =>
      simp only [hashInsert, hl]
      exact numbered_insert hA.2 f file newPage.page_number newPage rfl rfl rfl rfl
  · rw [hpair] at hA
    exact hA.2

theorem numbered_disposePage (io : FileOps σ) (s : BufMgr σ) (file : FileId)
    (pageNo : PageId) (h : SlotsNumbered s) :
    SlotsNumbered (disposePage io s file pageNo).2 := by
  cases hl : hashLookup s.hashTable file pageNo with
  | none =>
    have key : disposePage io s file pageNo = (Res.ok (),
        ({ s with disk := io.deletePage s.disk file pageNo }).emit
          (Event.deletePage file pageNo)) := by
      unfold disposePage
      simp only [hl]
    rw [key]
    exact numbered_congr h rfl rfl (fun j _ hvj => ⟨hvj, rfl⟩)
  | some g =>
    have key : disposePage io s file pageNo = (Res.ok (),
        ({ ((({ s with hashTable := (s.hashTable.filter
              (fun e => !decide (e.1 = (file, pageNo)))) }).emit
            (Event.hashRemove file pageNo)).setDesc g (s.bufDescTable g).Clear) with
          disk := io.deletePage s.disk file pageNo }).emit (Event.deletePage file pageNo)) := by
      unfold disposePage
      simp only [hl, hashRemove]
      rfl
    rw [key]
    refine numbered_congr h rfl rfl ?_
    intro j _ hvj
    by_cases hjg : j = g
    · rw [hjg] at hvj
      exact absurd hvj (by simp [setDesc, emit, BufDesc.Clear])
    · have hsame : ∀ d : BufDesc, Function.update s.bufDescTable g d j = s.bufDescTable j :=
        fun d => Function.update_noteq hjg _ _
      exact ⟨(hsame _) ▸ hvj, congrArg BufDesc.pageNo (hsame _)⟩

/-- Over a file whose readPage delivers the page with the number asked for,
every state reached from a freshly constructed manager by a sequence of calls
of the interface, returning or throwing, has in every valid slot the page
number of its frame. -/
theorem run_slotsNumbered (io : FileOps σ)
    (hread : ∀ d f p pg, io.readPage d f p = some pg → pg.page_number = p) (n : Nat) (d : σ)
    (hn : 0 < n) (hn32 : n < 4294967296) (ops : List Op) :
    SlotsNumbered (run io (construct n d) ops) := by
  have key : ∀ (ops : List Op) (s : BufMgr σ),
      (WellFormed s ∧ FreeUnowned s) ∧ SlotsNumbered s → SlotsNumbered (run io s ops) := by
    intro ops
    induction ops with
    | nil =>
      intro s h
      exact h.2
    | cons op ops ih =>
      intro s h
      refine ih (step io s op) ⟨inv_step io s op h.1, ?_⟩
      cases op with
      | readPage file pageNo => exact numbered_readPage io hread s file pageNo ⟨h.1.1, h.2⟩
      | unPinPage file pageNo dirty => exact numbered_unPinPage s file pageNo dirty ⟨h.1.1, h.2⟩
      | allocPage file => exact numbered_allocPage io s file ⟨h.1.1, h.2⟩
      | disposePage file pageNo => exact numbered_disposePage io s file pageNo h.2
      | flushFile file => exact numbered_flushFile io s file ⟨h.1.1, h.2⟩
  refine key ops _ ⟨inv_construct n d hn hn32, ?_⟩
  intro i _ hv
  exact Bool.noConfusion hv

/-! ## The pool as a write-back cache -/

/-- The in-memory file store behaves as a map from (file, page number) to
pages. -/
theorem memFile_laws : PageMapLaws memFile where
  read_number := by
    intro d f p pg h
    have h' : (d.find? (fun e => e.1 = f ∧ e.2.page_number = p)).map Prod.snd = some pg := h
    cases hfind : d.find? (fun e => e.1 = f ∧ e.2.page_number = p) with
    | none =>
      rw [hfind] at h'
      exact absurd h' (by simp)
    | some e =>
      have hp := List.find?_some hfind
      simp only [decide_eq_true_eq] at hp
      rw [hfind] at h'
      have he : e.2 = pg := Option.some.inj h'
      rw [← he]
      exact hp.2
  read_write := by
    intro d f pg f' p
    have hfilter : ∀ l : MemDisk,
        (l.filter (fun e => ¬ (e.1 = f ∧ e.2.page_number = pg.page_number))).find?
            (fun e => e.1 = f' ∧ e.2.page_number = p)
          = (if f' = f ∧ p = pg.page_number then none
              else l.find? (fun e => e.1 = f' ∧ e.2.page_number = p)) := by
      intro l
      induction l with
      | nil => simp
      | cons a l ih =>
        by_cases ha : a.1 = f ∧ a.2.page_number = pg.page_number
        · rw [List.filter_cons_of_neg (by simp only [decide_eq_true_eq]; exact not_not.mpr ha), ih]
          by_cases hc : f' = f ∧ p = pg.page_number
          · rw [if_pos hc, if_pos hc]
          · rw [if_neg hc, if_neg hc, List.find?_cons_of_neg]
            simp only [decide_eq_true_eq]
            rintro ⟨h1, h2⟩
            exact hc ⟨h1 ▸ ha.1, h2 ▸ ha.2⟩
        · rw [List.filter_cons_of_pos (by simp only [decide_eq_true_eq]; exact ha)]
          by_cases hb : a.1 = f' ∧ a.2.page_number = p
          · rw [List.find?_cons_of_pos _ (by simp only [decide_eq_true_eq]; exact hb),
              List.find?_cons_of_pos _ (by simp only [decide_eq_true_eq]; exact hb), if_neg]
            rintro ⟨h1, h2⟩
            exact ha ⟨hb.1.trans h1, hb.2.trans h2⟩
          · rw [List.find?_cons_of_neg _ (by simp only [decide_eq_true_eq]; exact hb),
              List.find?_cons_of_neg _ (by simp only [decide_eq_true_eq]; exact hb)]
            exact ih
    show (((f, pg) :: d.filter (fun e => ¬ (e.1 = f ∧ e.2.page_number = pg.page_number))).find?
      (fun e => e.1 = f' ∧ e.2.page_number = p)).map Prod.snd
      = if f' = f ∧ p = pg.page_number then some pg
        else (d.find? (fun e => e.1 = f' ∧ e.2.page_number = p)).map Prod.snd
    by_cases hc : f' = f ∧ p = pg.page_number
    · rw [if_pos hc, List.find?_cons_of_pos]
      · rfl
      · simp [hc.1, hc.2]
    · rw [if_neg hc, List.find?_cons_of_neg, hfilter, if_neg hc]
      simp only [decide_eq_true_eq]
      rintro ⟨h1, h2⟩
      exact hc ⟨h1.symm, h2.symm⟩

/-- A state of the cache stays one when the descriptors change without
touching the validity, the file and the page of a valid frame, and without
clearing a dirty flag. -/
theorem transparent_congr (io : FileOps σ) (L : FileId → PageId → Option Page)
    {s s' : BufMgr σ} (h : Transparent io L s) (hwf : WellFormed s')
    (hn : s'.numBufs = s.numBufs) (hht : s'.hashTable = s.hashTable)
    (hp : s'.bufPool = s.bufPool) (hd : s'.disk = s.disk)
    (hdesc : ∀ j, j < s.numBufs → (s'.bufDescTable j).valid = true →
      (s.bufDescTable j).valid = true ∧
      (s'.bufDescTable j).file = (s.bufDescTable j).file ∧
      (s'.bufDescTable j).pageNo = (s.bufDescTable j).pageNo ∧
      ((s'.bufDescTable j).dirty = false → (s.bufDescTable j).dirty = false)) :
    Transparent io L s' := by
  obtain ⟨_, hnum, hco, hlog⟩ := h
  refine ⟨hwf, ?_, ?_, ?_⟩
  · intro j hj hv
    rw [hn] at hj
    obtain ⟨a, _, c, _⟩ := hdesc j hj hv
    rw [hp, c]
    exact hnum j hj a
  · intro j hj hv hdy
    rw [hn] at hj
    obtain ⟨a, b, c, d⟩ := hdesc j hj hv
    rw [hp, hd, b, c]
    exact hco j hj a (d hdy)
  · intro f p
    rw [← hlog f p]
    unfold logical
    rw [hht, hp, hd]

/-- The eviction of a valid frame keeps the state of the cache: the page of
the frame is now read from the file, which holds the slot. -/
theorem transparent_evicted (io : FileOps σ) (hio : PageMapLaws io)
    (L : FileId → PageId → Option Page) (s s' : BufMgr σ) (i : Nat) (f : FileId)
    (h : Transparent io L s) (hi : i < s.numBufs) (hv : (s.bufDescTable i).valid = true)
    (he : Evicted io s i f s') : Transparent io L s' := by
  have hwf' := wellFormed_evicted io s s' i f h.1 hi hv he
  obtain ⟨hwf, hnum, hco, hlog⟩ := h
  obtain ⟨ef, en, _, ep, eh, ed, _, eo, ei⟩ := he
  have hpn : (s.bufPool i).page_number = (s.bufDescTable i).pageNo := hnum i hi hv
  have hself : hashLookup s.hashTable f (s.bufDescTable i).pageNo = some i := by
    have := hwf.2.2.2.2.1 i hi hv
    rw [ef] at this
    simpa using this
  have hread : ∀ f' p', (f', p') ≠ (f, (s.bufDescTable i).pageNo) →
      io.readPage s'.disk f' p' = io.readPage s.disk f' p' := by
    intro f' p' hne
    rw [ed]
    by_cases hdy : (s.bufDescTable i).dirty = true
    · rw [if_pos hdy, hio.read_write, if_neg]
      rintro ⟨h1, h2⟩
      exact hne (by rw [h1, h2, hpn])
    · rw [if_neg hdy]
  have hreadself : io.readPage s'.disk f (s.bufDescTable i).pageNo = some (s.bufPool i) := by
    rw [ed]
    cases hdy : (s.bufDescTable i).dirty with
    | true =>
      rw [if_pos rfl, hio.read_write, if_pos ⟨rfl, hpn.symm⟩]
    | false =>
      simp only [Bool.false_eq_true, if_false]
      have := hco i hi hv hdy
      rw [ef] at this
      simpa using this
  refine ⟨hwf', ?_, ?_, ?_⟩
  · intro j hj hvj
    rw [en] at hj
    by_cases hji : j = i
    · rw [hji, ei] at hvj
      simp [BufDesc.Clear] at hvj
    · rw [eo j hji] at hvj ⊢
      rw [ep]
      exact hnum j hj hvj
  · intro j hj hvj hdj
    rw [en] at hj
    by_cases hji : j = i
    · rw [hji, ei] at hvj
      simp [BufDesc.Clear] at hvj
    · rw [eo j hji] at hvj hdj ⊢
      rw [ep]
      have hc := hco j hj hvj hdj
      cases hfj : (s.bufDescTable j).file with
      | none => rw [hfj] at hc; simp at hc
      | some g =>
        rw [hfj] at hc
        have hne : (g, (s.bufDescTable j).pageNo) ≠ (f, (s.bufDescTable i).pageNo) := by
          intro heq
          obtain ⟨e1, e2⟩ := Prod.mk.inj heq
          have hlj := hwf.2.2.2.2.1 j hj hvj
          rw [hfj] at hlj
          have hlj2 : hashLookup s.hashTable g (s.bufDescTable j).pageNo = some j := by
            simpa using hlj
          rw [e1, e2, hself] at hlj2
          exact hji (Option.some.inj hlj2).symm
        show io.readPage s'.disk g (s.bufDescTable j).pageNo = some (s.bufPool j)
        rw [hread g _ hne]
        exact hc
  · intro f' p'
    rw [← hlog f' p']
    unfold logical
    rw [eh, ep]
    by_cases hk : (f', p') = (f, (s.bufDescTable i).pageNo)
    · obtain ⟨e1, e2⟩ := Prod.mk.inj hk
      rw [e1, e2, hashLookup_filter_self, hself]
      exact hreadself
    · rw [hashLookup_filter_ne _ _ _ _ _ hk]
      cases hashLookup s.hashTable f' p' with
      | some g => rfl
      | none => exact hread f' p' hk

/-- Loading the page read from the file into a free frame keeps the state of
the cache. -/
theorem transparent_insert (io : FileOps σ) (hio : PageMapLaws io)
    (L : FileId → PageId → Option Page) {s s' : BufMgr σ} (h : Transparent io L s)
    (f : Nat) (file : FileId) (pageNo : PageId) (pg : Page) (hf : f < s.numBufs)
    (hv : (s.bufDescTable f).valid = false)
    (hl : hashLookup s.hashTable file pageNo = none)
    (hrd : io.readPage s.disk file pageNo = some pg)
    (hn : s'.numBufs = s.numBufs) (hh : s'.clockHand = s.clockHand)
    (hht : s'.hashTable = ((file, pageNo), f) :: s.hashTable)
    (hd : s'.bufDescTable = Function.update s.bufDescTable f
      ((s.bufDescTable f).Set file pageNo))
    (hp : s'.bufPool = Function.update s.bufPool f pg) (hdk : s'.disk = s.disk) :
    Transparent io L s' := by
  have hwf' : WellFormed s' := wellFormed_insert h.1 f file pageNo hf hv hl hn hh hht hd
  obtain ⟨hwf, hnum, hco, hlog⟩ := h
  refine ⟨hwf', ?_, ?_, ?_⟩
  · intro j hj hvj
    rw [hn] at hj
    rw [hd] at hvj ⊢
    rw [hp]
    by_cases hjf : j = f
    · rw [hjf, Function.update_same, Function.update_same]
      exact hio.read_number _ _ _ _ hrd
    · rw [Function.update_noteq hjf] at hvj ⊢
      rw [Function.update_noteq hjf]
      exact hnum j hj hvj
  · intro j hj hvj hdj
    rw [hn] at hj
    rw [hd] at hvj hdj ⊢
    rw [hp, hdk]
    by_cases hjf : j = f
    · rw [hjf, Function.update_same, Function.update_same]
      exact hrd
    · rw [Function.update_noteq hjf] at hvj hdj ⊢
      rw [Function.update_noteq hjf]
      exact hco j hj hvj hdj
  · intro f' p'
    rw [← hlog f' p']
    unfold logical
    rw [hht, hp, hdk, hashLookup_cons]
    by_cases hk : (file, pageNo) = (f', p')
    · obtain ⟨e1, e2⟩ := Prod.mk.inj hk
      rw [if_pos hk, ← e1, ← e2, hl]
      show some (Function.update s.bufPool f pg f) = io.readPage s.disk file pageNo
      rw [Function.update_same, hrd]
    · rw [if_neg hk]
      cases hc : hashLookup s.hashTable f' p' with
      | none => rfl
      | some g =>
        have hg := (hwf.2.2.2.2.2 _ (hashLookup_mem hc)).2.1
        have hgf : g ≠ f := by
          intro e
          rw [e, hv] at hg
          exact Bool.noConfusion hg
        show some (Function.update s.bufPool f pg g) = some (s.bufPool g)
        rw [Function.update_noteq hgf]

/-- Replacing the descriptor of a valid frame by one of the same page that is
valid, and dirty if the old one was, keeps the state of the cache. -/
theorem transparent_setDesc (io : FileOps σ) (L : FileId → PageId → Option Page)
    {s : BufMgr σ} (h : Transparent io L s) (f : Nat) (d : BufDesc)
    (hv : (s.bufDescTable f).valid = true) (dv : d.valid = true)
    (df : d.file = (s.bufDescTable f).file) (dp : d.pageNo = (s.bufDescTable f).pageNo)
    (dd : d.dirty = false → (s.bufDescTable f).dirty = false) :
    Transparent io L (s.setDesc f d) := by
  have hwf : WellFormed (s.setDesc f d) := by
    refine wellFormed_congr h.1 rfl h.1.2.2.1 rfl ?_
    intro j _
    by_cases hjf : j = f
    · rw [hjf, setDesc_same]
      exact ⟨dv.trans hv.symm, fun _ => ⟨df, dp⟩, fun h0 => absurd (dv.symm.trans h0) (by simp)⟩
    · rw [setDesc_other s f d j hjf]
      exact ⟨rfl, fun _ => ⟨rfl, rfl⟩, h.1.2.2.2.1 j ‹_›⟩
  refine transparent_congr io L h hwf rfl rfl rfl rfl ?_
  intro j _ hvj
  by_cases hjf : j = f
  · rw [hjf, setDesc_same]
    exact ⟨hv, df, dp, dd⟩
  · rw [setDesc_other s f d j hjf] at hvj ⊢
    exact ⟨hvj, rfl, rfl, id⟩

/-- On a state of the cache, allocBuf leaves a state of the cache with the same
logical content, whatever its outcome. -/
theorem transparent_allocBuf (io : FileOps σ) (hio : PageMapLaws io)
    (L : FileId → PageId → Option Page) (s : BufMgr σ) (h : Transparent io L s) :
    Transparent io L (allocBuf io s).2 := by
  refine allocBuf_preserves io (Transparent io L) (fun s h => h.1) ?_ ?_ ?_ s h
  · intro s sx h he hh
    refine transparent_congr io L h (wellFormed_of_scanEq h.1 he hh) he.1 he.2.2.1 he.2.1
      he.2.2.2.1 ?_
    intro j _ hvj
    have hd := he.2.2.2.2.2 j
    exact ⟨hd.2.2.2.2.2.1 ▸ hvj, hd.1, hd.2.1, fun h0 => hd.2.2.2.2.1 ▸ h0⟩
  · intro s h hv
    have hwf : WellFormed (s.setDesc s.clockHand (s.bufDescTable s.clockHand).Clear) := by
      refine wellFormed_congr h.1 rfl h.1.2.2.1 rfl ?_
      intro j hj
      by_cases hjf : j = s.clockHand
      · rw [hjf, setDesc_same]
        exact ⟨hv.symm, fun h0 => absurd (hv.symm.trans h0) (by simp), fun _ => ⟨rfl, rfl⟩⟩
      · rw [setDesc_other s _ _ j hjf]
        exact ⟨rfl, fun _ => ⟨rfl, rfl⟩, h.1.2.2.2.1 j hj⟩
    refine transparent_congr io L h hwf rfl rfl rfl rfl ?_
    intro j _ hvj
    by_cases hjf : j = s.clockHand
    · rw [hjf, setDesc_same] at hvj
      exact absurd hvj (by simp [BufDesc.Clear])
    · rw [setDesc_other s _ _ j hjf] at hvj ⊢
      exact ⟨hvj, rfl, rfl, id⟩
  · intro s s' f h hv he
    exact transparent_evicted io hio L s s' s.clockHand f h h.1.2.2.1 hv he

/-- On a state of the cache, flushFile leaves a state of the cache with the
same logical content, whatever its outcome. -/
theorem transparent_flushFile (io : FileOps σ) (hio : PageMapLaws io)
    (L : FileId → PageId → Option Page) (s : BufMgr σ) (file : FileId)
    (h : Transparent io L s) : Transparent io L (flushFile io s file).2 :=
  flushFileLoop_preserves io file (Transparent io L) (fun s h => h.1)
    (fun s s' i h hi hv he => transparent_evicted io hio L s s' i file h hi hv he)
    s.numBufs 0 s h (by rw [Nat.zero_add])

/-- On a state of the cache, unPinPage leaves a state of the cache with the
same logical content, whatever its outcome and whatever the flag. -/
theorem transparent_unPinPage (io : FileOps σ) (L : FileId → PageId → Option Page)
    (s : BufMgr σ) (file : FileId) (pageNo : PageId) (dirty : Bool)
    (h : Transparent io L s) : Transparent io L (unPinPage s file pageNo dirty).2 := by
  cases hl : hashLookup s.hashTable file pageNo with
  | none =>
    have : unPinPage s file pageNo dirty = (Res.ok (), s) := by
      unfold unPinPage; rw [hl]
    rw [this]; exact h
  | some f =>
    by_cases hp : (s.bufDescTable f).pinCnt = 0
    · have : unPinPage s file pageNo dirty
          = (Res.throw (Err.PageNotPinnedException file pageNo f), s) := by
        unfold unPinPage; rw [hl]; simp [hp]
      rw [this]; exact h
    · rw [unPinPage_ok_eq s file pageNo dirty f hl hp]
      have hv := (h.1.2.2.2.2.2 _ (hashLookup_mem hl)).2.1
      refine transparent_setDesc io L h f _ hv hv rfl rfl ?_
      intro h0
      cases hd : (s.bufDescTable f).dirty with
      | false => rfl
      | true => simp [hd] at h0

/-- On a state of the cache, readPage leaves a state of the cache with the same
logical content, whatever its outcome, and the slot it returns holds the
logical content of the page. -/
theorem transparent_readPage (io : FileOps σ) (hio : PageMapLaws io)
    (L : FileId → PageId → Option Page) (s : BufMgr σ) (file : FileId) (pageNo : PageId)
    (h : Transparent io L s) :
    Transparent io L (readPage io s file pageNo).2 ∧
    ∀ i, (readPage io s file pageNo).1 = Res.ok i →
      L file pageNo = some ((readPage io s file pageNo).2.bufPool i) := by
  cases hl : hashLookup s.hashTable file pageNo with
  | some f =>
    have : readPage io s file pageNo = (Res.ok f, s.setDesc f
        { s.bufDescTable f with refbit := true, pinCnt := (s.bufDescTable f).pinCnt + 1 }) := by
      unfold readPage; rw [hl]
    rw [this]
    have hv := (h.1.2.2.2.2.2 _ (hashLookup_mem hl)).2.1
    refine ⟨transparent_setDesc io L h f _ hv hv rfl rfl id, ?_⟩
    intro i hi
    have hif : f = i := by
      injection hi
    rw [← hif, ← h.2.2.2 file pageNo]
    unfold logical
    rw [hl]
    rfl
  | none =>
    have hA := transparent_allocBuf io hio L s h
    have hlA := allocBuf_hashLookup_none io s h.1 file pageNo hl
    rcases hr : (allocBuf io s).1 with f | e
    · have hpair : allocBuf io s = (Res.ok f, (allocBuf io s).2) := by rw [← hr]
      obtain ⟨hfn, _, hfv⟩ := allocBuf_ok_frame io s h.1 f hr
      cases hrd : io.readPage (allocBuf io s).2.disk file pageNo with
      | none =>
        have : readPage io s file pageNo = (Res.throw Err.fileError,
            (allocBuf io s).2.emit (Event.readPage file pageNo)) := by
          unfold readPage
          rw [hl]
          dsimp only
          rw [hpair]
          dsimp only
          rw [hrd]
        rw [this]
        refine ⟨transparent_congr io L hA ?_ rfl rfl rfl rfl (fun j _ hvj => ⟨hvj, rfl, rfl, id⟩), ?_⟩
        · exact wellFormed_congr hA.1 rfl hA.1.2.2.1 rfl
            (fun j hj => ⟨rfl, fun _ => ⟨rfl, rfl⟩, hA.1.2.2.2.1 j hj⟩)
        · intro i hi
          exact absurd hi (by simp)
      | some pg =>
        rw [readPage_miss_eq io s _ file pageNo f pg hl hpair hlA hrd]
        refine ⟨transparent_insert io hio L hA f file pageNo pg hfn hfv hlA hrd rfl rfl rfl rfl
          rfl rfl, ?_⟩
        intro i hi
        have hif : f = i := by
          injection hi
        rw [← hif, ← hA.2.2.2 file pageNo]
        unfold logical
        rw [hlA, hrd]
        simp [setDesc, setPool, emit]
    · have hpair : allocBuf io s = (Res.throw e, (allocBuf io s).2) := by rw [← hr]
      have : readPage io s file pageNo = (Res.throw e, (allocBuf io s).2) := by
        unfold readPage
        rw [hl]
        dsimp only
        rw [hpair]
      rw [this]
      exact ⟨hA, fun i hi => absurd hi (by simp)⟩

/-- C19, as stated, fails: the in-memory file is a map from page numbers to
pages, exMisnumbered is well-formed and its only clean frame agrees with the
file, but the slot of the dirty frame of page (7, 2) carries the number 3.
The eviction done by allocBuf stores the slot as page 3 of the file: the
logical content of (7, 2) falls back to what the file held, and that of (7, 3)
becomes the slot. -/
theorem cache_needs_numbered_slots :
    WellFormed exMisnumbered ∧ Coherent memFile exMisnumbered ∧
    logical memFile exMisnumbered 7 2 = some { page_number := 3, data := [99] } ∧
    logical memFile (allocBuf memFile exMisnumbered).2 7 2
      = some { page_number := 2, data := [12] } ∧
    logical memFile exMisnumbered 7 3 = some { page_number := 3, data := [13] } ∧
    logical memFile (allocBuf memFile exMisnumbered).2 7 3
      = some { page_number := 3, data := [99] } ∧
    ¬ (∀ f p, logical memFile (allocBuf memFile exMisnumbered).2 f p
      = logical memFile exMisnumbered f p) := by
  refine ⟨by decide, by decide, by decide, by decide, by decide, by decide, ?_⟩
  intro h
  exact absurd (h 7 2) (by decide)

/-- C19, amended: over a file collaborator that is a map from page numbers to
pages, in a well-formed state whose valid slots carry the page number of their
frame and whose valid clean frames agree with the file: the slot returned by
readPage holds the logical content the page had before the call; and after
readPage, unPinPage with either flag, flushFile or allocBuf, whatever the
outcome, the state is again such a state and the logical content of every page
is what it was. -/
theorem cache_transparent (io : FileOps σ) (hio : PageMapLaws io) (s : BufMgr σ)
    (hwf : WellFormed s) (hnum : SlotsNumbered s) (hco : Coherent io s) :
    (∀ file pageNo i, (readPage io s file pageNo).1 = Res.ok i →
      logical io s file pageNo = some ((readPage io s file pageNo).2.bufPool i)) ∧
    (∀ s', ((∃ file pageNo, s' = (readPage io s file pageNo).2) ∨
        (∃ file pageNo dirty, s' = (unPinPage s file pageNo dirty).2) ∨
        (∃ file, s' = (flushFile io s file).2) ∨ s' = (allocBuf io s).2) →
      WellFormed s' ∧ SlotsNumbered s' ∧ Coherent io s' ∧
      ∀ f p, logical io s' f p = logical io s f p) := by
  have h : Transparent io (logical io s) s := ⟨hwf, hnum, hco, fun _ _ => rfl⟩
  refine ⟨fun file pageNo i hi => (transparent_readPage io hio _ s file pageNo h).2 i hi, ?_⟩
  rintro s' (⟨file, pageNo, rfl⟩ | ⟨file, pageNo, dirty, rfl⟩ | ⟨file, rfl⟩ | rfl)
  · exact (transparent_readPage io hio _ s file pageNo h).1
  · exact transparent_unPinPage io _ s file pageNo dirty h
  · exact transparent_flushFile io hio _ s file h
  · exact transparent_allocBuf io hio _ s h

/-- The hypotheses of cache_transparent hold for the in-memory file and exEvict,
where allocBuf writes the dirty frame 1 back and evicts it: page (7, 2) keeps
its modified content, now in the file. -/
theorem cache_transparent_witness :
    (∀ f p, logical memFile (allocBuf memFile exEvict).2 f p = logical memFile exEvict f p) ∧
    logical memFile exEvict 7 2 = some (exEvict.bufPool 1) ∧
    hashLookup (allocBuf memFile exEvict).2.hashTable 7 2 = none :=
  have h := cache_transparent memFile memFile_laws exEvict (by decide) (by decide) (by decide)
  ⟨(h.2 _ (Or.inr (Or.inr (Or.inr rfl)))).2.2.2, by decide, by decide⟩

end BufMgr

end badgerdb
